import Mathlib

/-!
# Fixed-capacity arena (`FixedBlockMemoryResource`) and the stack on it (`Stack<T>`)

Shallow embedding of the class `FixedBlockMemoryResource` of `src/include/stack.h` and
`src/src/stack.cpp`, and of the class template `Stack<T>` of `src/include/stack.h`, whose
conventions are given where its definitions start.

* Addresses (`void*`, `uintptr_t`) and sizes (`size_t`) are natural numbers; every
  arithmetic operation of the source is reduced modulo `WORD = 2 ^ 64`, the way the
  64-bit unsigned machine word behaves.
* `std::list<std::pair<void*, size_t>>` is `List (Nat × Nat)`; `emplace_back` appends
  at the end, `erase(it)` removes the element at the iterator's position.
* The null pointer is the address `0`.
* `throw std::bad_alloc()` is the result `none`; a returned pointer `p` is `some p`.
* The arguments `bytes` and `alignment` are `size_t` values, that is numbers below `WORD`.
  An alignment of `0` is undefined behaviour in the source (`aligned_offset % alignment`
  divides by zero); the requests considered have a power-of-two alignment.
-/

namespace Arena

/-! ## Machine words -/

/-- Number of values of `size_t` / `uintptr_t`, that is `2 ^ 64`. -/
def WORD : Nat := 18446744073709551616

/-- Unsigned addition of the machine word. -/
def wadd (a b : Nat) : Nat := (a + b) % WORD

/-- Unsigned subtraction of the machine word. -/
def wsub (a b : Nat) : Nat := (a % WORD + (WORD - b % WORD)) % WORD

/-- Bitwise complement `~a` of the machine word. -/
def wnot (a : Nat) : Nat := WORD - 1 - a % WORD

/-- Bitwise and `a & b` of the machine word. -/
def wand (a b : Nat) : Nat := (a % WORD) &&& (b % WORD)

/-! ## Data model -/

/-- An entry `std::pair<void*, size_t>` of a block list: start address and size. -/
abbrev Block := Nat × Nat

/-- The members of `class FixedBlockMemoryResource`. -/
structure FixedBlockMemoryResource where
  buffer_ : Nat
  size_ : Nat
  offset_ : Nat
  allocated_blocks_ : List Block
  free_blocks_ : List Block
deriving DecidableEq, Repr

/-- The constructor `FixedBlockMemoryResource(size)`; `buf` is the address that
`::operator new(size)` returned. -/
def construct (buf size : Nat) : FixedBlockMemoryResource :=
  { buffer_ := buf, size_ := size, offset_ := 0, allocated_blocks_ := [], free_blocks_ := [] }

/-! ## `allocate_from_free_blocks` -/

/-- The expression `(block_addr + alignment - 1) & ~(alignment - 1)`. -/
def aligned_addr (block_addr alignment : Nat) : Nat :=
  wand (wsub (wadd block_addr alignment) 1) (wnot (wsub alignment 1))

/-- The expression `aligned_addr - block_addr`. -/
def adjustment (block_addr alignment : Nat) : Nat :=
  wsub (aligned_addr block_addr alignment) block_addr

/-- The test `block_size >= bytes + adjustment` of the first-fit scan. -/
def fits (bytes alignment : Nat) (blk : Block) : Bool :=
  decide (wadd bytes (adjustment blk.1 alignment) ≤ blk.2)

/-- The blocks that replace a chosen free block `blk`: the alignment gap when
`adjustment > 0` and the trailing remainder when `remaining_size > 0`, in the
order of the two `emplace_back` calls. -/
def split_rest (bytes alignment : Nat) (blk : Block) : List Block :=
  (if 0 < adjustment blk.1 alignment then [(blk.1, adjustment blk.1 alignment)] else []) ++
  (if 0 < wsub (wsub blk.2 bytes) (adjustment blk.1 alignment) then
      [(wadd (aligned_addr blk.1 alignment) bytes,
        wsub (wsub blk.2 bytes) (adjustment blk.1 alignment))]
    else [])

/-- The loop of `allocate_from_free_blocks` over the list `free_blocks_`: `none` when
the loop runs to the end, otherwise the `result_ptr` and the list after `erase` and
the `emplace_back` calls. -/
def scan_free_blocks (bytes alignment : Nat) : List Block → Option (Nat × List Block)
  | [] => none
  | blk :: rest =>
    if fits bytes alignment blk then
      some (aligned_addr blk.1 alignment, rest ++ split_rest bytes alignment blk)
    else
      match scan_free_blocks bytes alignment rest with
      | none => none
      | some (p, l) => some (p, blk :: l)

/-- The method `allocate_from_free_blocks`: the returned pointer (`0` is `nullptr`) and
the state after the call. -/
def allocate_from_free_blocks (s : FixedBlockMemoryResource) (bytes alignment : Nat) :
    Nat × FixedBlockMemoryResource :=
  match scan_free_blocks bytes alignment s.free_blocks_ with
  | none => (0, s)
  | some (p, l) => (p, { s with free_blocks_ := l })

/-! ## `merge_adjacent_blocks` -/

/-- Insertion of one block into an address-sorted list, before the first block whose
address is not smaller. -/
def insert_by_address (b : Block) : List Block → List Block
  | [] => [b]
  | c :: rest => if c.1 < b.1 then c :: insert_by_address b rest else b :: c :: rest

/-- The call `free_blocks_.sort` with the comparator `a.first < b.first`:
`std::list::sort` is a stable sort, and a stable sort has one possible result, the
one computed here by insertion. -/
def sort_by_address : List Block → List Block
  | [] => []
  | b :: rest => insert_by_address b (sort_by_address rest)

/-- The `while` loop of `merge_adjacent_blocks`: `cur` is `*it`, the list is what starts
at `next`. -/
def merge_sweep (cur : Block) : List Block → List Block
  | [] => [cur]
  | nxt :: rest =>
    if wadd cur.1 cur.2 = nxt.1 then merge_sweep (cur.1, wadd cur.2 nxt.2) rest
    else cur :: merge_sweep nxt rest

/-- The method `merge_adjacent_blocks`, on the list `free_blocks_`. -/
def merge_adjacent_blocks (free : List Block) : List Block :=
  match sort_by_address free with
  | [] => []
  | b :: rest => merge_sweep b rest

/-! ## `do_allocate` and `do_deallocate` -/

/-- The value of `aligned_offset` after the `if (aligned_offset % alignment != 0)`
statement of `do_allocate`. -/
def aligned_offset (offset alignment : Nat) : Nat :=
  if offset % alignment ≠ 0 then wadd offset (wsub alignment (offset % alignment)) else offset

/-- The method `do_allocate`: `none` is `throw std::bad_alloc()`. -/
def do_allocate (s : FixedBlockMemoryResource) (bytes alignment : Nat) :
    Option Nat × FixedBlockMemoryResource :=
  let r := allocate_from_free_blocks s bytes alignment
  if r.1 ≠ 0 then
    (some r.1, { r.2 with allocated_blocks_ := r.2.allocated_blocks_ ++ [(r.1, bytes)] })
  else
    let ao := aligned_offset r.2.offset_ alignment
    if r.2.size_ < wadd ao bytes then (none, r.2)
    else
      (some (wadd r.2.buffer_ ao),
        { r.2 with
          allocated_blocks_ := r.2.allocated_blocks_ ++ [(wadd r.2.buffer_ ao, bytes)],
          offset_ := wadd ao bytes })

/-- Whether the loop of `do_deallocate` meets an entry with `it->first == p`. -/
def has_address (p : Nat) (l : List Block) : Bool := l.any (fun b => b.1 == p)

/-- The list `allocated_blocks_` after `erase(it)` at the first entry with
`it->first == p`. -/
def erase_address (p : Nat) : List Block → List Block
  | [] => []
  | b :: rest => if b.1 = p then rest else b :: erase_address p rest

/-- The method `do_deallocate`. -/
def do_deallocate (s : FixedBlockMemoryResource) (p bytes _alignment : Nat) :
    FixedBlockMemoryResource :=
  if has_address p s.allocated_blocks_ then
    { s with
      free_blocks_ := merge_adjacent_blocks (s.free_blocks_ ++ [(p, bytes)]),
      allocated_blocks_ := erase_address p s.allocated_blocks_ }
  else s

/-! ## Predicates on blocks and block lists -/

/-- Whether the byte at address `x` lies in the range `[b.1, b.1 + b.2)` of block `b`. -/
def covers (x : Nat) (b : Block) : Bool := decide (b.1 ≤ x ∧ x < b.1 + b.2)

/-- Number of blocks of the list whose range holds the byte at address `x`. -/
def cover (x : Nat) (l : List Block) : Nat := l.countP (covers x)

/-- Two blocks do not overlap as address ranges `[address, address + size)`. -/
def disjoint (a b : Block) : Prop := a.1 + a.2 ≤ b.1 ∨ b.1 + b.2 ≤ a.1

/-- Neither block ends where the other starts. -/
def not_adjacent (a b : Block) : Prop := a.1 + a.2 ≠ b.1 ∧ b.1 + b.2 ≠ a.1

/-- The range of block `b` lies inside `[buf, buf + cap)`. -/
def inside (buf cap : Nat) (b : Block) : Prop := buf ≤ b.1 ∧ b.1 + b.2 ≤ buf + cap

/-- Every block ends strictly before the start of every later block of the list. -/
def gapped (l : List Block) : Prop := l.Pairwise (fun a b => a.1 + a.2 < b.1)

/-- Sum of the sizes of the blocks of a list. -/
def total (l : List Block) : Nat := (l.map Prod.snd).sum

/-- Total size of the live blocks, the entries of `allocated_blocks_`. -/
def live_bytes (s : FixedBlockMemoryResource) : Nat := total s.allocated_blocks_

/-- The next multiple of `alignment` at or above `offset`, for `alignment > 0`: the
rounding that the specification asks of the bump path. -/
def round_up (offset alignment : Nat) : Nat := (offset + alignment - 1) / alignment * alignment

/-! ## Requests and reachable states -/

/-- A power of two. -/
def is_pow2 (n : Nat) : Prop := ∃ k, n = 2 ^ k

/-- A request to the arena `s` whose size is positive, whose alignment is a power of two,
and which is small enough that no address or size computed for it leaves the machine
word. -/
def valid_request (s : FixedBlockMemoryResource) (bytes alignment : Nat) : Prop :=
  0 < bytes ∧ is_pow2 alignment ∧ s.buffer_ + s.size_ + alignment ≤ WORD ∧
    s.size_ + alignment + bytes ≤ WORD

/-- Any request with a power-of-two alignment. -/
def any_request (_s : FixedBlockMemoryResource) (_bytes alignment : Nat) : Prop :=
  is_pow2 alignment

/-- A request of the fixed block size `unit` at alignment 1, made in a state in which the
live blocks together with the requested block do not exceed the capacity. -/
def uniform_request (unit : Nat) (s : FixedBlockMemoryResource) (bytes alignment : Nat) : Prop :=
  bytes = unit ∧ alignment = 1 ∧ live_bytes s + bytes ≤ s.size_

/-- The states reachable from a freshly constructed arena of `cap` bytes at address
`buf` (non-null, and ending inside the address space, as `::operator new` returns it)
by `do_allocate` calls whose request satisfies `ok` in the state it is made in and
`do_deallocate` calls that pass the address and size of an entry of
`allocated_blocks_`. -/
inductive Reachable (ok : FixedBlockMemoryResource → Nat → Nat → Prop) (buf cap : Nat) :
    FixedBlockMemoryResource → Prop
  | fresh : 0 < buf → buf + cap < WORD → Reachable ok buf cap (construct buf cap)
  | allocate (s : FixedBlockMemoryResource) (bytes alignment : Nat) :
      Reachable ok buf cap s → ok s bytes alignment →
      Reachable ok buf cap (do_allocate s bytes alignment).2
  | deallocate (s : FixedBlockMemoryResource) (p bytes alignment : Nat) :
      Reachable ok buf cap s → (p, bytes) ∈ s.allocated_blocks_ →
      Reachable ok buf cap (do_deallocate s p bytes alignment)

/-- The consistency conditions of an arena state: the buffer is a real object, the bump
offset is within the capacity, every block is non-empty and lies in the part of the
buffer below the bump offset, no byte belongs to two blocks, and no free block ends
where a free block starts. -/
structure Inv (s : FixedBlockMemoryResource) : Prop where
  buffer_pos : 0 < s.buffer_
  buffer_end : s.buffer_ + s.size_ < WORD
  offset_le : s.offset_ ≤ s.size_
  block_ok : ∀ b ∈ s.allocated_blocks_ ++ s.free_blocks_,
    0 < b.2 ∧ s.buffer_ ≤ b.1 ∧ b.1 + b.2 ≤ s.buffer_ + s.offset_
  cover_le : ∀ x, cover x (s.allocated_blocks_ ++ s.free_blocks_) ≤ 1
  no_adjacent : ∀ a ∈ s.free_blocks_, ∀ b ∈ s.free_blocks_, a.1 + a.2 ≠ b.1

/-- The state of an arena that has only served blocks of `unit` bytes at alignment 1:
every live block has `unit` bytes, every free block a multiple of it, and the live and
free bytes together are the bytes below the bump offset. -/
structure Uniform (unit : Nat) (s : FixedBlockMemoryResource) : Prop where
  live_size : ∀ b ∈ s.allocated_blocks_, b.2 = unit
  free_size : ∀ b ∈ s.free_blocks_, unit ∣ b.2
  bytes_eq : total s.allocated_blocks_ + total s.free_blocks_ = s.offset_

/-! ## Concrete call sequences -/

/-- Arena of 512 bytes at address 4096 after two `allocate(50, 1)` calls, which return
4096 and 4146 (the start of the test `FreeBlocksTracking`). -/
def two_blocks : FixedBlockMemoryResource :=
  (do_allocate (do_allocate (construct 4096 512) 50 1).2 50 1).2

/-- Arena of 512 bytes at address 4096: three `allocate(16, 8)` calls (returning 4096,
4112 and 4128), then `deallocate(4096, 16, 8)` and `deallocate(4128, 16, 8)`. -/
def two_free_trace : FixedBlockMemoryResource :=
  do_deallocate (do_deallocate (do_allocate (do_allocate (do_allocate (construct 4096 512)
    16 8).2 16 8).2 16 8).2 4096 16 8) 4128 16 8

/-- Arena of 100 bytes at address 4096 after `allocate(10, 1)`. -/
def ten_used : FixedBlockMemoryResource := (do_allocate (construct 4096 100) 10 1).2

/-- Arena of 100 bytes at address 4096 after `allocate(50, 1)` and `allocate(40, 1)`. -/
def ninety_used : FixedBlockMemoryResource :=
  (do_allocate (do_allocate (construct 4096 100) 50 1).2 40 1).2

/-- Arena of 100 bytes at address 4096 after `allocate(50, 1)`, `allocate(40, 1)` and
`deallocate(4096, 50, 1)`: one free block of 50 bytes, bump offset 90. -/
def nearly_full : FixedBlockMemoryResource :=
  do_deallocate (do_allocate (do_allocate (construct 4096 100) 50 1).2 40 1).2 4096 50 1

/-- Arena of 100 bytes at address 4096 after `allocate(40, 1)`. -/
def forty_used : FixedBlockMemoryResource := (do_allocate (construct 4096 100) 40 1).2

/-- The sequence `forty_used` followed by `allocate(40, 1)`. -/
def eighty_used : FixedBlockMemoryResource := (do_allocate forty_used 40 1).2

/-- The sequence `eighty_used` followed by `deallocate(4096, 40, 1)`: a free block of 40
bytes, a live block of 40 bytes behind it, and 20 bytes of bump space. -/
def fragmented : FixedBlockMemoryResource := do_deallocate eighty_used 4096 40 1

/-- Arena of 64 bytes at address 4096 after four `allocate(16, 1)` calls and
`deallocate(4112, 16, 1)`: the bump space is used up and one block of 16 bytes is free. -/
def uniform_trace : FixedBlockMemoryResource :=
  do_deallocate (do_allocate (do_allocate (do_allocate (do_allocate (construct 4096 64)
    16 1).2 16 1).2 16 1).2 16 1).2 4112 16 1

/-- Arena of 100 bytes at address 4096 after `allocate(0, 1)` and `allocate(8, 1)`, which
both return 4096. -/
def zero_alias_live : FixedBlockMemoryResource :=
  (do_allocate (do_allocate (construct 4096 100) 0 1).2 8 1).2

/-- The sequence `zero_alias_live` followed by `deallocate(4096, 8, 1)`. -/
def zero_alias_freed : FixedBlockMemoryResource := do_deallocate zero_alias_live 4096 8 1

/-- The sequence `zero_alias_freed` followed by `allocate(8, 1)`. -/
def zero_alias_trace : FixedBlockMemoryResource := (do_allocate zero_alias_freed 8 1).2

/-- Arena of 512 bytes at address 4096: `allocate(8, 1)`, `allocate(24, 1)` (returns
4104), then `deallocate(4104, 24, 1)`: the free block `(4104, 24)` starts 8 bytes before
a multiple of 16. -/
def padded_free : FixedBlockMemoryResource :=
  do_deallocate (do_allocate (do_allocate (construct 4096 512) 8 1).2 24 1).2 4104 24 1

/-- The sequence `padded_free` followed by `allocate(0, 16)`. -/
def zero_split_trace : FixedBlockMemoryResource := (do_allocate padded_free 0 16).2

/-- Arena of 40 bytes whose buffer is at address 4112, a multiple of 16 and not of 32,
after `allocate(32, 32)` (which returns 4112) and `deallocate(4112, 32, 32)`. -/
def round_trip_freed : FixedBlockMemoryResource :=
  do_deallocate (do_allocate (construct 4112 40) 32 32).2 4112 32 32

/-- Arena of 1000 bytes at address 4096 after `allocate(100, 1)`, `allocate(10, 1)`,
`allocate(20, 1)`, `allocate(20, 1)` (returning 4096, 4196, 4206 and 4226) and
`deallocate(4096, 100, 1)`: the blocks `(4206, 20)` and `(4226, 20)` are live and
adjacent, and the free list holds `(4096, 100)`. -/
def coalesce_start : FixedBlockMemoryResource :=
  do_deallocate (do_allocate (do_allocate (do_allocate (do_allocate (construct 4096 1000)
    100 1).2 10 1).2 20 1).2 20 1).2 4096 100 1

/-- The sequence `coalesce_start` followed by `deallocate(4206, 20, 1)` and
`deallocate(4226, 20, 1)`. -/
def coalesce_freed : FixedBlockMemoryResource :=
  do_deallocate (do_deallocate coalesce_start 4206 20 1) 4226 20 1

/-- The sequence `ten_used` followed by `allocate(8, 8)`: the bump path skips the offsets
10 to 15 and places the block at offset 16, so the bump offset is 24 with 18 bytes
allocated. -/
def padded_bump : FixedBlockMemoryResource := (do_allocate ten_used 8 8).2

/-- Arena of 100 bytes at address 4096 after `allocate(0, 1)`, which returns 4096 and
leaves the bump offset at 0. -/
def zero_block : FixedBlockMemoryResource := (do_allocate (construct 4096 100) 0 1).2

/-! ## The stack `Stack<T>`

The class template `Stack` of `src/include/stack.h`, bound to an arena.

* `Node` objects live in a memory that maps an address to the node whose storage starts
  there; a node occupies `sizeof(Node)` bytes from its address.
* `allocator_.allocate(1)` and `allocator_.deallocate(p, 1)` are the calls
  `do_allocate(sizeof(Node), alignof(Node))` and
  `do_deallocate(p, sizeof(Node), alignof(Node))` that `std::pmr::polymorphic_allocator`
  makes on its memory resource.
* A member function returns how the call ended together with the stack object and the
  world after the call, also when an exception left them as they were.
* Reading through a pointer at which no node is alive, and constructing a node at the null
  pointer or at an address that is not a multiple of `alignof(Node)`, are undefined
  behaviour and end the call with `Result.undefined`.
* The constructor of the element type does not throw: the element is given as a value,
  so the `catch` block of `push` is never entered.
-/

/-- The `struct Node` of `Stack<T>`: the element and the pointer to the next node. -/
structure Node (T : Type) where
  data : T
  next : Nat

/-- The layout of `Node`, fixed at compile time: `sizeof(Node)` and `alignof(Node)`. -/
structure Layout where
  size : Nat
  align : Nat
deriving DecidableEq, Repr

/-- What a stack operation acts on besides the stack object: the arena behind the
allocator handle and the `Node` objects alive in memory, by address. -/
structure World (T : Type) where
  resource : FixedBlockMemoryResource
  memory : Nat → Option (Node T)

/-- The members of `Stack<T>`: the head pointer and the handle of the memory resource. -/
structure Stack where
  head_ : Nat
  allocator_ : Nat
deriving DecidableEq, Repr

/-- The member of `Stack<T>::Iterator`. -/
structure Iterator where
  current_ : Nat
deriving DecidableEq, Repr

/-- How a call ends: a normal return, `std::bad_alloc` thrown, the
`std::runtime_error("Stack is empty")` thrown, undefined behaviour, or a loop that was
not given enough steps. -/
inductive Result (α : Type) where
  | value : α → Result α
  | bad_alloc : Result α
  | runtime_error : Result α
  | undefined : Result α
  | out_of_fuel : Result α
deriving DecidableEq

/-- The same ending with another type of returned value; a returned value is changed by
`f`. -/
def Result.map {α β : Type} (f : α → β) : Result α → Result β
  | Result.value a => Result.value (f a)
  | Result.bad_alloc => Result.bad_alloc
  | Result.runtime_error => Result.runtime_error
  | Result.undefined => Result.undefined
  | Result.out_of_fuel => Result.out_of_fuel

/-- A memory without any node. -/
def no_nodes (T : Type) : Nat → Option (Node T) := fun _ => none

/-- The memory after a node has been constructed at `p`: the node is alive at `p`, and a
node whose storage overlaps the `sizeof(Node)` bytes at `p` is no longer alive. -/
def construct_at {T : Type} (L : Layout) (memory : Nat → Option (Node T)) (p : Nat)
    (n : Node T) : Nat → Option (Node T) :=
  fun a => if a = p then some n
    else if a < p + L.size ∧ p < a + L.size then none else memory a

/-- The memory after the assignment `p->next = nxt`. -/
def set_next {T : Type} (memory : Nat → Option (Node T)) (p nxt : Nat) :
    Nat → Option (Node T) :=
  fun a => if a = p then (memory p).map (fun n => { n with next := nxt }) else memory a

/-- The memory after the node at `p` has been destroyed. -/
def destroy_at {T : Type} (memory : Nat → Option (Node T)) (p : Nat) :
    Nat → Option (Node T) :=
  fun a => if a = p then none else memory a

/-- The constructor `Stack(std::pmr::memory_resource* mr)`. -/
def Stack.construct (mr : Nat) : Stack := { head_ := 0, allocator_ := mr }

/-- The member function `empty`. -/
def Stack.empty (st : Stack) : Bool := decide (st.head_ = 0)

/-- The member function `push`. -/
def Stack.push {T : Type} (L : Layout) (st : Stack) (w : World T) (v : T) :
    Result Unit × Stack × World T :=
  match do_allocate w.resource L.size L.align with
  | (none, r) => (Result.bad_alloc, st, { w with resource := r })
  | (some new_node, r) =>
    if new_node = 0 ∨ new_node % L.align ≠ 0 then
      (Result.undefined, st, { w with resource := r })
    else
      (Result.value (), { st with head_ := new_node },
        { resource := r,
          memory := set_next (construct_at L w.memory new_node { data := v, next := 0 })
            new_node st.head_ })

/-- The member function `pop`. -/
def Stack.pop {T : Type} (L : Layout) (st : Stack) (w : World T) :
    Result Unit × Stack × World T :=
  if st.head_ = 0 then (Result.value (), st, w)
  else
    match w.memory st.head_ with
    | none => (Result.undefined, st, w)
    | some temp =>
      (Result.value (), { st with head_ := temp.next },
        { resource := do_deallocate w.resource st.head_ L.size L.align,
          memory := destroy_at w.memory st.head_ })

/-- The member function `top`. -/
def Stack.top {T : Type} (st : Stack) (w : World T) : Result T × Stack × World T :=
  if st.head_ = 0 then (Result.runtime_error, st, w)
  else
    match w.memory st.head_ with
    | none => (Result.undefined, st, w)
    | some n => (Result.value n.data, st, w)

/-- The member function `begin`. -/
def Stack.begin (st : Stack) : Iterator := { current_ := st.head_ }

/-- The member function `end`. -/
def Stack.end_ (_st : Stack) : Iterator := { current_ := 0 }

/-- The operator `*` of the iterator. -/
def Iterator.deref {T : Type} (it : Iterator) (w : World T) : Result T :=
  match w.memory it.current_ with
  | none => Result.undefined
  | some n => Result.value n.data

/-- The pre-increment operator `++` of the iterator. -/
def Iterator.incr {T : Type} (it : Iterator) (w : World T) : Result Iterator :=
  match w.memory it.current_ with
  | none => Result.undefined
  | some n => Result.value { current_ := n.next }

/-- The loop `for (; it != last; ++it) values.push_back(*it)`, given `fuel` evaluations
of its condition. -/
def iterate {T : Type} (w : World T) (last : Iterator) : Nat → Iterator → Result (List T)
  | 0, _ => Result.out_of_fuel
  | fuel + 1, it =>
    if it = last then Result.value []
    else
      match it.deref w with
      | Result.value v =>
        match it.incr w with
        | Result.value it2 => (iterate w last fuel it2).map (fun vs => v :: vs)
        | r => r.map (fun _ => [])
      | r => r.map (fun _ => [])

/-- The range-based loop `for (T val : stack) values.push_back(val)` of the tests. It
calls `begin` and `end` and reads through the iterator; the stack and the world come
back as they were passed. -/
def Stack.to_vector {T : Type} (st : Stack) (w : World T) (fuel : Nat) :
    Result (List T) × Stack × World T :=
  (iterate w st.end_ fuel st.begin, st, w)

/-- The destructor `~Stack`, the loop `while (!empty()) pop()`, given `fuel` runs of its
body. -/
def Stack.destroy {T : Type} (L : Layout) : Nat → Stack → World T → Result Unit × Stack × World T
  | 0, st, w => if st.empty then (Result.value (), st, w) else (Result.out_of_fuel, st, w)
  | fuel + 1, st, w =>
    if st.empty then (Result.value (), st, w)
    else
      match st.pop L w with
      | (Result.value _, st2, w2) => Stack.destroy L fuel st2 w2
      | other => other

/-- The move constructor `Stack(Stack&& other)`: the new stack, `other` after the call,
and the world. -/
def Stack.move_construct {T : Type} (other : Stack) (w : World T) : Stack × Stack × World T :=
  ({ head_ := other.head_, allocator_ := other.allocator_ }, { other with head_ := 0 }, w)

/-! ## Call sequences on a stack -/

/-- The calls `push(v1)`, ..., `push(vn)` in this order; the sequence ends at the first
call that does not return normally. -/
def Stack.push_all {T : Type} (L : Layout) : List T → Stack → World T →
    Result Unit × Stack × World T
  | [], st, w => (Result.value (), st, w)
  | v :: vs, st, w =>
    match st.push L w v with
    | (Result.value _, st2, w2) => Stack.push_all L vs st2 w2
    | other => other

/-- The call `pop()` made `k` times. -/
def Stack.pop_n {T : Type} (L : Layout) : Nat → Stack → World T → Result Unit × Stack × World T
  | 0, st, w => (Result.value (), st, w)
  | k + 1, st, w =>
    match st.pop L w with
    | (Result.value _, st2, w2) => Stack.pop_n L k st2 w2
    | other => other

/-- The calls `top()` and `pop()` made `k` times in turn, with the list of the values that
the `top()` calls returned. -/
def Stack.top_pop_n {T : Type} (L : Layout) : Nat → Stack → World T →
    Result (List T) × Stack × World T
  | 0, st, w => (Result.value [], st, w)
  | k + 1, st, w =>
    match st.top w with
    | (Result.value v, st1, w1) =>
      match st1.pop L w1 with
      | (Result.value _, st2, w2) =>
        match Stack.top_pop_n L k st2 w2 with
        | (Result.value vs, st3, w3) => (Result.value (v :: vs), st3, w3)
        | other => other
      | (r, st2, w2) => (r.map (fun _ => []), st2, w2)
    | (r, st1, w1) => (r.map (fun _ => []), st1, w1)

/-- A call made on a stack: `push(v)` or `pop()`. -/
inductive StackOp (T : Type) where
  | push : T → StackOp T
  | pop : StackOp T

/-- A sequence of `push` and `pop` calls, ended by the first call that does not return
normally. -/
def Stack.run {T : Type} (L : Layout) : List (StackOp T) → Stack → World T →
    Result Unit × Stack × World T
  | [], st, w => (Result.value (), st, w)
  | StackOp.push v :: ops, st, w =>
    match st.push L w v with
    | (Result.value _, st2, w2) => Stack.run L ops st2 w2
    | other => other
  | StackOp.pop :: ops, st, w =>
    match st.pop L w with
    | (Result.value _, st2, w2) => Stack.run L ops st2 w2
    | other => other

/-- The elements that a sequence of calls leaves on a stack that held `vs`, most recent
first: `push(v)` puts `v` in front, `pop()` removes the first element if there is
one. -/
def elements_after {T : Type} : List (StackOp T) → List T → List T
  | [], vs => vs
  | StackOp.push v :: ops, vs => elements_after ops (v :: vs)
  | StackOp.pop :: ops, vs => elements_after ops vs.tail

/-! ## Well-formed stacks -/

/-- The nodes reached from the pointer `p` through the `next` pointers are the nodes of
the list, an address and an element each, and the last `next` pointer is null. -/
def Chain {T : Type} (memory : Nat → Option (Node T)) : Nat → List (Nat × T) → Prop
  | p, [] => p = 0
  | p, n :: rest =>
    p = n.1 ∧ p ≠ 0 ∧ ∃ nxt, memory p = some { data := n.2, next := nxt } ∧ Chain memory nxt rest

/-- A stack whose nodes, from the head down, are `nodes`, all of them blocks of
`sizeof(Node)` bytes recorded in `allocated_blocks_` of a consistent arena to which a
request for a node is a valid request. -/
structure StackInv {T : Type} (L : Layout) (st : Stack) (w : World T)
    (nodes : List (Nat × T)) : Prop where
  arena : Inv w.resource
  request : valid_request w.resource L.size L.align
  chain : Chain w.memory st.head_ nodes
  blocks : ∀ n ∈ nodes, (n.1, L.size) ∈ w.resource.allocated_blocks_
  nodup : (nodes.map Prod.fst).Nodup

/-- The arena of a stack that is its only client, with `a` live nodes and `c` freed node
slots behind them. The buffer at `buf` is cut into slots of `sizeof(Node)` bytes; the live
nodes fill the slots `0, ..., a - 1` and are recorded in this order, the `c` slots behind
them form one free block, and the bump offset is behind the last of these slots. -/
structure Packed (L : Layout) (buf cap a c : Nat) (s : FixedBlockMemoryResource) : Prop where
  buffer : s.buffer_ = buf
  size : s.size_ = cap
  offset : s.offset_ = (a + c) * L.size
  allocated : s.allocated_blocks_ = (List.range a).map (fun i => (buf + i * L.size, L.size))
  free : s.free_blocks_ = if c = 0 then [] else [(buf + a * L.size, c * L.size)]

/-- The addresses of the slots `a - 1, ..., 0` of a buffer at `buf`, from the last slot
down. -/
def slots_down (L : Layout) (buf : Nat) : Nat → List Nat
  | 0 => []
  | a + 1 => (buf + a * L.size) :: slots_down L buf a

/-! ## Concrete stacks -/

/-- The layout of the node of `Stack<int>` on a 64-bit target: 16 bytes, aligned to 8. -/
def int_node : Layout := { size := 16, align := 8 }

/-- A fresh arena of 1024 bytes at the address 4096 and a memory without nodes. -/
def fresh_world : World Int := { resource := construct 4096 1024, memory := no_nodes Int }

/-- The calls `push(1)` and `push(2)` on a new stack in `fresh_world`. -/
def two_pushed : Result Unit × Stack × World Int :=
  Stack.push_all int_node [1, 2] (Stack.construct 1) fresh_world

/-- A request to the arena `s` of any size, zero included, whose alignment is a power of
two and which is small enough that no address or size computed for it leaves the machine
word. -/
def nowrap_request (s : FixedBlockMemoryResource) (bytes alignment : Nat) : Prop :=
  is_pow2 alignment ∧ s.buffer_ + s.size_ + alignment ≤ WORD ∧
    s.size_ + alignment + bytes ≤ WORD

/-- The part of the consistency conditions that zero-byte blocks do not break: the buffer
is a real object, the bump offset is within the capacity, and every block lies in the part
of the buffer below the bump offset. -/
structure Bounded (s : FixedBlockMemoryResource) : Prop where
  buffer_pos : 0 < s.buffer_
  buffer_end : s.buffer_ + s.size_ < WORD
  offset_le : s.offset_ ≤ s.size_
  block_in : ∀ b ∈ s.allocated_blocks_ ++ s.free_blocks_,
    s.buffer_ ≤ b.1 ∧ b.1 + b.2 ≤ s.buffer_ + s.offset_

/-- Arena of 100 bytes at address 4096 after `allocate(10, 1)`, `allocate(2 ^ 64 - 10, 1)`,
which succeeds by wrap-around and returns 4106, `deallocate(4106, 2 ^ 64 - 10, 1)` and
`allocate(2 ^ 63, 1)`, which is served from the free block: one free block of
`2 ^ 63 - 10` bytes at `4106 + 2 ^ 63` is left. -/
def wrapped_free : FixedBlockMemoryResource :=
  (do_allocate (do_deallocate (do_allocate ten_used (WORD - 10) 1).2 4106 (WORD - 10) 1)
    9223372036854775808 1).2

/-- A fresh arena of 1024 bytes at the address 4096 in which another client holds a
zero-byte block, taken by `allocate(0, 1)` at 4096, and a memory without nodes. -/
def shared_world : World Int :=
  { resource := (do_allocate (construct 4096 1024) 0 1).2, memory := no_nodes Int }

/-- The calls `push(1)` and `push(2)` on a new stack in `shared_world`. -/
def shared_pushed : Result Unit × Stack × World Int :=
  Stack.push_all int_node [1, 2] (Stack.construct 1) shared_world

/-- The layout of a node whose element is aligned to 32 bytes: 64 bytes, aligned
to 32. -/
def wide_node : Layout := { size := 64, align := 32 }

/-- A fresh arena of 1024 bytes whose buffer is at the address 4112, a multiple of 16 as
`::operator new` guarantees but not of 32, and a memory without nodes. -/
def misaligned_world : World Int := { resource := construct 4112 1024, memory := no_nodes Int }

/-- The arena calls that `push`, `push`, `pop`, `push` make for nodes of the layout
`wide_node` in the arena of `misaligned_world`: `allocate(64, 32)` twice, which return
4112 and 4176, `deallocate(4176, 64, 32)` and `allocate(64, 32)`. -/
def misaligned_reuse : FixedBlockMemoryResource :=
  (do_allocate (do_deallocate (do_allocate (do_allocate (construct 4112 1024) 64 32).2
    64 32).2 4176 64 32) 64 32).2

/-- The same calls in an arena of 128 bytes, before the last `allocate(64, 32)`. -/
def misaligned_full : FixedBlockMemoryResource :=
  do_deallocate (do_allocate (do_allocate (construct 4112 128) 64 32).2 64 32).2 4176 64 32

/-! ## Machine-word lemmas -/

theorem WORD_eq : WORD = 2 ^ 64 := by norm_num [WORD]

theorem wadd_eq {a b : Nat} (h : a + b < WORD) : wadd a b = a + b := by
  simp only [wadd, WORD] at *; omega

theorem wsub_eq {a b : Nat} (h : b ≤ a) (ha : a < WORD) : wsub a b = a - b := by
  simp only [wsub, WORD] at *; omega

theorem land_mask (x k : Nat) (hk : k ≤ 64) (hx : x < 2 ^ 64) :
    x &&& (2 ^ 64 - 2 ^ k) = 2 ^ k * (x / 2 ^ k) := by
  apply Nat.eq_of_testBit_eq
  intro i
  have hm : 2 ^ 64 - 2 ^ k = 2 ^ 64 - ((2 ^ k - 1) + 1) := by
    have : 0 < 2 ^ k := Nat.two_pow_pos k
    omega
  have hlt : 2 ^ k - 1 < 2 ^ 64 := by
    have : 2 ^ k ≤ 2 ^ 64 := Nat.pow_le_pow_right (by norm_num) hk
    have : 0 < 2 ^ k := Nat.two_pow_pos k
    omega
  rw [Nat.testBit_and, hm, Nat.testBit_two_pow_sub_succ hlt, Nat.testBit_two_pow_sub_one,
    Nat.testBit_mul_pow_two, ← Nat.shiftRight_eq_div_pow, Nat.testBit_shiftRight]
  by_cases h1 : i < 64
  · by_cases h2 : i < k
    · simp [h1, h2]
    · have : k + (i - k) = i := by omega
      simp [h1, h2, this]; omega
  · have hx2 : x < 2 ^ i := lt_of_lt_of_le hx (Nat.pow_le_pow_right (by norm_num) (by omega))
    have : k + (i - k) = i := by omega
    simp [h1, Nat.testBit_lt_two_pow hx2, this]

/-- For a power-of-two alignment below the word size and an address that does not wrap
when the alignment is added, `aligned_addr` rounds the address up to the next multiple. -/
theorem aligned_addr_eq {b al k : Nat} (hal : al = 2 ^ k) (hlt : al < WORD)
    (hnw : b + al ≤ WORD) : aligned_addr b al = al * ((b + al - 1) / al) := by
  have hpos : 0 < al := by rw [hal]; exact Nat.two_pow_pos k
  have hk : k ≤ 64 := by
    rw [hal, WORD_eq] at hlt
    exact le_of_lt ((Nat.pow_lt_pow_iff_right (by norm_num)).1 hlt)
  have h1 : wsub (wadd b al) 1 = b + al - 1 := by
    simp only [wsub, wadd, WORD] at *; omega
  have h2 : wnot (wsub al 1) = WORD - al := by
    simp only [wsub, wnot, WORD] at *; omega
  have h3 : b + al - 1 < WORD := by omega
  unfold aligned_addr
  rw [h1, h2]
  unfold wand
  rw [Nat.mod_eq_of_lt h3, Nat.mod_eq_of_lt (by omega : WORD - al < WORD)]
  rw [WORD_eq, hal]
  rw [WORD_eq] at h3
  exact land_mask _ k hk (by rw [← hal]; exact h3)

theorem aligned_addr_bounds {b al k : Nat} (hal : al = 2 ^ k) (hlt : al < WORD)
    (hnw : b + al ≤ WORD) :
    b ≤ aligned_addr b al ∧ aligned_addr b al < b + al ∧ al ∣ aligned_addr b al := by
  have hpos : 0 < al := by rw [hal]; exact Nat.two_pow_pos k
  rw [aligned_addr_eq hal hlt hnw]
  have h1 := Nat.div_add_mod (b + al - 1) al
  have h2 := Nat.mod_lt (b + al - 1) hpos
  refine ⟨by omega, by omega, Dvd.intro _ rfl⟩

theorem adjustment_eq {b al k : Nat} (hal : al = 2 ^ k) (hlt : al < WORD)
    (hnw : b + al ≤ WORD) : adjustment b al = aligned_addr b al - b := by
  obtain ⟨h1, h2, _⟩ := aligned_addr_bounds hal hlt hnw
  exact wsub_eq h1 (by omega)

/-! ## The first-fit scan -/

theorem scan_free_blocks_none {bytes al : Nat} {l : List Block} :
    scan_free_blocks bytes al l = none ↔ ∀ b ∈ l, fits bytes al b = false := by
  induction l with
  | nil => simp [scan_free_blocks]
  | cons blk rest ih =>
    unfold scan_free_blocks
    by_cases h : fits bytes al blk = true
    · simp [h]
    · have hf : fits bytes al blk = false := by simpa using h
      cases hs : scan_free_blocks bytes al rest with
      | none =>
        have := ih.1 hs
        simp only [hf, Bool.false_eq_true, if_false, true_iff]
        intro b hb
        rcases List.mem_cons.1 hb with rfl | hb
        · exact hf
        · exact this b hb
      | some r =>
        simp only [hf, Bool.false_eq_true, if_false]
        constructor
        · intro hh; cases hh
        · intro hh
          have := ih.2 (fun b hb => hh b (List.mem_cons_of_mem _ hb))
          rw [this] at hs; cases hs

theorem scan_free_blocks_some {bytes al : Nat} {l : List Block} {p : Nat} {l2 : List Block}
    (h : scan_free_blocks bytes al l = some (p, l2)) :
    ∃ pre blk post, l = pre ++ blk :: post ∧ (∀ b ∈ pre, fits bytes al b = false) ∧
      fits bytes al blk = true ∧ p = aligned_addr blk.1 al ∧
      l2 = pre ++ (post ++ split_rest bytes al blk) := by
  induction l generalizing p l2 with
  | nil => simp [scan_free_blocks] at h
  | cons blk rest ih =>
    unfold scan_free_blocks at h
    by_cases hf : fits bytes al blk = true
    · simp only [hf, if_true, Option.some.injEq, Prod.mk.injEq] at h
      exact ⟨[], blk, rest, rfl, by simp, hf, h.1.symm, by simp [h.2]⟩
    · have hf2 : fits bytes al blk = false := by simpa using hf
      simp only [hf2] at h
      cases hs : scan_free_blocks bytes al rest with
      | none => simp [hs] at h
      | some r =>
        obtain ⟨q, l3⟩ := r
        simp only [hs, Bool.false_eq_true, if_false, Option.some.injEq, Prod.mk.injEq] at h
        obtain ⟨pre, b, post, h1, h2, h3, h4, h5⟩ := ih hs
        refine ⟨blk :: pre, b, post, by simp [h1], ?_, h3, by rw [← h.1, h4], by simp [← h.2, h5]⟩
        intro c hc
        rcases List.mem_cons.1 hc with rfl | hc
        · exact hf2
        · exact h2 c hc

/-! ## Sorting by address -/

theorem insert_by_address_perm (b : Block) (l : List Block) :
    (insert_by_address b l).Perm (b :: l) := by
  induction l with
  | nil => simp [insert_by_address]
  | cons c rest ih =>
    unfold insert_by_address
    split
    · exact (List.Perm.cons c ih).trans (List.Perm.swap b c rest)
    · exact List.Perm.refl _

theorem sort_by_address_perm (l : List Block) : (sort_by_address l).Perm l := by
  induction l with
  | nil => simp [sort_by_address]
  | cons b rest ih =>
    unfold sort_by_address
    exact (insert_by_address_perm b _).trans (List.Perm.cons b ih)

theorem insert_by_address_sorted (b : Block) (l : List Block)
    (h : l.Pairwise (fun a c => a.1 ≤ c.1)) :
    (insert_by_address b l).Pairwise (fun a c => a.1 ≤ c.1) := by
  induction l with
  | nil => simp [insert_by_address]
  | cons c rest ih =>
    unfold insert_by_address
    rw [List.pairwise_cons] at h
    split
    · rename_i hlt
      rw [List.pairwise_cons]
      refine ⟨?_, ih h.2⟩
      intro d hd
      rcases List.mem_cons.1 ((insert_by_address_perm b rest).subset hd) with rfl | hd
      · omega
      · exact h.1 d hd
    · rename_i hge
      rw [List.pairwise_cons, List.pairwise_cons]
      refine ⟨?_, h.1, h.2⟩
      intro d hd
      rcases List.mem_cons.1 hd with rfl | hd
      · omega
      · have := h.1 d hd
        omega

theorem sort_by_address_sorted (l : List Block) :
    (sort_by_address l).Pairwise (fun a c => a.1 ≤ c.1) := by
  induction l with
  | nil => simp [sort_by_address]
  | cons b rest ih =>
    unfold sort_by_address
    exact insert_by_address_sorted b _ ih

/-! ## Counting the blocks over a byte -/

theorem cover_append (x : Nat) (l1 l2 : List Block) :
    cover x (l1 ++ l2) = cover x l1 + cover x l2 := by
  simp [cover]

theorem cover_cons (x : Nat) (b : Block) (l : List Block) :
    cover x (b :: l) = cover x l + if covers x b then 1 else 0 := by
  simp [cover, List.countP_cons]

theorem cover_nil (x : Nat) : cover x [] = 0 := rfl

theorem cover_perm (x : Nat) {l1 l2 : List Block} (h : l1.Perm l2) :
    cover x l1 = cover x l2 := h.countP_eq _

theorem cover_eq_zero {x : Nat} {l : List Block} (h : ∀ b ∈ l, covers x b = false) :
    cover x l = 0 := by
  unfold cover
  rw [List.countP_eq_zero]
  intro b hb
  simp [h b hb]

theorem covers_iff {x : Nat} {b : Block} : covers x b = true ↔ b.1 ≤ x ∧ x < b.1 + b.2 := by
  simp [covers]

theorem covers_false_iff {x : Nat} {b : Block} :
    covers x b = false ↔ (x < b.1 ∨ b.1 + b.2 ≤ x) := by
  rw [← Bool.not_eq_true, covers_iff]; omega

/-- A block of the list that holds the byte `x` makes the count at `x` positive. -/
theorem cover_pos_of_mem {x : Nat} {l : List Block} {b : Block} (hb : b ∈ l)
    (hx : covers x b = true) : 0 < cover x l := by
  unfold cover
  exact List.countP_pos_iff.2 ⟨b, hb, hx⟩

/-- When no byte lies in two blocks and no block is empty, the blocks are pairwise
disjoint. -/
theorem pairwise_disjoint_of_cover {l : List Block} (hpos : ∀ b ∈ l, 0 < b.2)
    (hc : ∀ x, cover x l ≤ 1) : l.Pairwise disjoint := by
  induction l with
  | nil => exact List.Pairwise.nil
  | cons a rest ih =>
    rw [List.pairwise_cons]
    constructor
    · intro b hb
      by_contra hnd
      unfold disjoint at hnd
      have ha := hpos a (List.mem_cons_self _ _)
      have hb2 := hpos b (List.mem_cons_of_mem _ hb)
      have h1 : covers (max a.1 b.1) a = true := by rw [covers_iff]; omega
      have h2 : covers (max a.1 b.1) b = true := by rw [covers_iff]; omega
      have h3 := cover_pos_of_mem hb h2
      have h4 := hc (max a.1 b.1)
      rw [cover_cons, h1] at h4
      simp at h4
      omega
    · apply ih (fun b hb => hpos b (List.mem_cons_of_mem _ hb))
      intro x
      have := hc x
      rw [cover_cons] at this
      omega

theorem disjoint_symm {a b : Block} (h : disjoint a b) : disjoint b a := Or.symm h

/-- Two different entries of a list in which no byte lies in two blocks are disjoint. -/
theorem disjoint_of_cover {l : List Block} (hpos : ∀ b ∈ l, 0 < b.2)
    (hc : ∀ x, cover x l ≤ 1) {a b : Block} (ha : a ∈ l) (hb : b ∈ l) (hne : a ≠ b) :
    disjoint a b :=
  (pairwise_disjoint_of_cover hpos hc).forall (fun _ _ h => disjoint_symm h) ha hb hne

/-! ## The merge sweep -/

/-- The addresses of the blocks left by the sweep are addresses of blocks it started
from. -/
theorem merge_sweep_address (rest : List Block) (cur o : Block)
    (ho : o ∈ merge_sweep cur rest) : o.1 = cur.1 ∨ ∃ c ∈ rest, o.1 = c.1 := by
  induction rest generalizing cur with
  | nil =>
    simp only [merge_sweep, List.mem_singleton] at ho
    exact Or.inl (by rw [ho])
  | cons nxt rest ih =>
    unfold merge_sweep at ho
    split at ho
    · rcases ih _ ho with h | ⟨c, hc, h⟩
      · exact Or.inl h
      · exact Or.inr ⟨c, List.mem_cons_of_mem _ hc, h⟩
    · rcases List.mem_cons.1 ho with rfl | ho
      · exact Or.inl rfl
      · rcases ih _ ho with h | ⟨c, hc, h⟩
        · exact Or.inr ⟨nxt, List.mem_cons_self _ _, h⟩
        · exact Or.inr ⟨c, List.mem_cons_of_mem _ hc, h⟩

/-- The sweep keeps the number of blocks over every byte, as long as no block reaches
the end of the address space. -/
theorem merge_sweep_cover (x : Nat) (rest : List Block) (cur : Block)
    (hw : ∀ b ∈ cur :: rest, b.1 + b.2 < WORD) :
    cover x (merge_sweep cur rest) = cover x (cur :: rest) := by
  induction rest generalizing cur with
  | nil => simp [merge_sweep]
  | cons nxt rest ih =>
    have hc := hw cur (List.mem_cons_self _ _)
    have hn := hw nxt (List.mem_cons_of_mem _ (List.mem_cons_self _ _))
    unfold merge_sweep
    split
    · rename_i heq
      rw [wadd_eq hc] at heq
      have hs : wadd cur.2 nxt.2 = cur.2 + nxt.2 := wadd_eq (by omega)
      rw [hs, ih]
      · rw [cover_cons, cover_cons, cover_cons]
        have : (if covers x (cur.1, cur.2 + nxt.2) = true then 1 else 0) =
            (if covers x nxt = true then 1 else 0) + (if covers x cur = true then 1 else 0) := by
          by_cases h1 : covers x cur = true
          · have h1b := h1
            rw [covers_iff] at h1b
            have h2 : covers x nxt = false := by rw [covers_false_iff]; omega
            have h3 : covers x (cur.1, cur.2 + nxt.2) = true := by rw [covers_iff]; simp; omega
            simp [h1, h2, h3]
          · have h1b : covers x cur = false := by simpa using h1
            by_cases h2 : covers x nxt = true
            · have h2b := h2
              rw [covers_iff] at h2b
              have h3 : covers x (cur.1, cur.2 + nxt.2) = true := by
                rw [covers_iff]; simp; omega
              simp [h1b, h2, h3]
            · have h2b : covers x nxt = false := by simpa using h2
              have h3 : covers x (cur.1, cur.2 + nxt.2) = false := by
                rw [covers_false_iff] at *; simp; omega
              simp [h1b, h2b, h3]
        omega
      · intro b hb
        rcases List.mem_cons.1 hb with rfl | hb
        · show cur.1 + (cur.2 + nxt.2) < WORD
          omega
        · exact hw b (List.mem_cons_of_mem _ (List.mem_cons_of_mem _ hb))
    · rw [cover_cons, ih nxt (fun b hb => hw b (List.mem_cons_of_mem _ hb)), cover_cons x cur]

/-- The sweep keeps every block non-empty and inside the bounds the blocks had. -/
theorem merge_sweep_bounds (lo hi : Nat) (hhi : hi < WORD) (rest : List Block) (cur : Block)
    (hb : ∀ b ∈ cur :: rest, 0 < b.2 ∧ lo ≤ b.1 ∧ b.1 + b.2 ≤ hi) :
    ∀ o ∈ merge_sweep cur rest, 0 < o.2 ∧ lo ≤ o.1 ∧ o.1 + o.2 ≤ hi := by
  induction rest generalizing cur with
  | nil =>
    intro o ho
    simp only [merge_sweep, List.mem_singleton] at ho
    rw [ho]; exact hb cur (List.mem_cons_self _ _)
  | cons nxt rest ih =>
    have hc := hb cur (List.mem_cons_self _ _)
    have hn := hb nxt (List.mem_cons_of_mem _ (List.mem_cons_self _ _))
    intro o ho
    unfold merge_sweep at ho
    split at ho
    · rename_i heq
      rw [wadd_eq (by omega)] at heq
      have hs : wadd cur.2 nxt.2 = cur.2 + nxt.2 := wadd_eq (by omega)
      rw [hs] at ho
      refine ih _ ?_ o ho
      intro b hb2
      rcases List.mem_cons.1 hb2 with rfl | hb2
      · simp only; omega
      · exact hb b (List.mem_cons_of_mem _ (List.mem_cons_of_mem _ hb2))
    · rcases List.mem_cons.1 ho with rfl | ho
      · exact hc
      · exact ih nxt (fun b hb2 => hb b (List.mem_cons_of_mem _ hb2)) o ho

/-- On a list in which every block ends at or before the start of every later block,
the sweep leaves a list in which every block ends strictly before the start of every
later block. -/
theorem merge_sweep_gapped (rest : List Block) (cur : Block)
    (hw : ∀ b ∈ cur :: rest, b.1 + b.2 < WORD)
    (hs : (cur :: rest).Pairwise (fun a b => a.1 + a.2 ≤ b.1)) :
    (merge_sweep cur rest).Pairwise (fun a b => a.1 + a.2 < b.1) := by
  induction rest generalizing cur with
  | nil => simp [merge_sweep]
  | cons nxt rest ih =>
    have hc := hw cur (List.mem_cons_self _ _)
    have hn := hw nxt (List.mem_cons_of_mem _ (List.mem_cons_self _ _))
    rw [List.pairwise_cons, List.pairwise_cons] at hs
    obtain ⟨h1, h2, h3⟩ := hs
    unfold merge_sweep
    split
    · rename_i heq
      rw [wadd_eq hc] at heq
      have hsz : wadd cur.2 nxt.2 = cur.2 + nxt.2 := wadd_eq (by omega)
      rw [hsz]
      apply ih
      · intro b hb
        rcases List.mem_cons.1 hb with rfl | hb
        · show cur.1 + (cur.2 + nxt.2) < WORD
          omega
        · exact hw b (List.mem_cons_of_mem _ (List.mem_cons_of_mem _ hb))
      · rw [List.pairwise_cons]
        refine ⟨?_, h3⟩
        intro c hc2
        have := h2 c hc2
        show cur.1 + (cur.2 + nxt.2) ≤ c.1
        omega
    · rename_i hne
      rw [wadd_eq hc] at hne
      rw [List.pairwise_cons]
      refine ⟨?_, ih nxt (fun b hb => hw b (List.mem_cons_of_mem _ hb))
        (List.pairwise_cons.2 ⟨h2, h3⟩)⟩
      intro o ho
      have hcn := h1 nxt (List.mem_cons_self _ _)
      rcases merge_sweep_address rest nxt o ho with h | ⟨c, hc2, h⟩
      · omega
      · have := h2 c hc2
        omega

/-- Every block the sweep started from lies inside one of the blocks it leaves. -/
theorem merge_sweep_contains (rest : List Block) (cur : Block)
    (hw : ∀ b ∈ cur :: rest, b.1 + b.2 < WORD) :
    ∀ b ∈ cur :: rest, ∃ o ∈ merge_sweep cur rest, o.1 ≤ b.1 ∧ b.1 + b.2 ≤ o.1 + o.2 := by
  induction rest generalizing cur with
  | nil =>
    intro b hb
    simp only [List.mem_singleton] at hb
    exact ⟨cur, by simp [merge_sweep], by rw [hb], by rw [hb]⟩
  | cons nxt rest ih =>
    have hc := hw cur (List.mem_cons_self _ _)
    have hn := hw nxt (List.mem_cons_of_mem _ (List.mem_cons_self _ _))
    intro b hb
    unfold merge_sweep
    split
    · rename_i heq
      rw [wadd_eq hc] at heq
      have hsz : wadd cur.2 nxt.2 = cur.2 + nxt.2 := wadd_eq (by omega)
      rw [hsz]
      have hw2 : ∀ b ∈ (cur.1, cur.2 + nxt.2) :: rest, b.1 + b.2 < WORD := by
        intro b hb
        rcases List.mem_cons.1 hb with rfl | hb
        · show cur.1 + (cur.2 + nxt.2) < WORD
          omega
        · exact hw b (List.mem_cons_of_mem _ (List.mem_cons_of_mem _ hb))
      have hm := ih (cur.1, cur.2 + nxt.2) hw2
      rcases List.mem_cons.1 hb with rfl | hb
      · obtain ⟨o, ho, h1, h2⟩ := hm _ (List.mem_cons_self _ _)
        exact ⟨o, ho, h1, by simp only at h2; omega⟩
      · rcases List.mem_cons.1 hb with rfl | hb
        · obtain ⟨o, ho, h1, h2⟩ := hm _ (List.mem_cons_self _ _)
          exact ⟨o, ho, by simp only at h1; omega, by simp only at h2; omega⟩
        · exact hm b (List.mem_cons_of_mem _ hb)
    · rcases List.mem_cons.1 hb with rfl | hb
      · exact ⟨b, List.mem_cons_self _ _, le_refl _, le_refl _⟩
      · obtain ⟨o, ho, h1, h2⟩ := ih nxt (fun b hb => hw b (List.mem_cons_of_mem _ hb)) b hb
        exact ⟨o, List.mem_cons_of_mem _ ho, h1, h2⟩

/-! ## `merge_adjacent_blocks` -/

theorem sorted_before {l : List Block} (hpos : ∀ b ∈ l, 0 < b.2)
    (hc : ∀ x, cover x l ≤ 1) (hs : l.Pairwise (fun a c => a.1 ≤ c.1)) :
    l.Pairwise (fun a b => a.1 + a.2 ≤ b.1) := by
  have hd := pairwise_disjoint_of_cover hpos hc
  refine List.Pairwise.imp_of_mem ?_ (hs.and hd)
  intro a b _ hb h
  have := hpos b hb
  rcases h.2 with h2 | h2
  · exact h2
  · have := h.1; omega

theorem merge_adjacent_blocks_cover (x : Nat) (l : List Block)
    (hw : ∀ b ∈ l, b.1 + b.2 < WORD) :
    cover x (merge_adjacent_blocks l) = cover x l := by
  unfold merge_adjacent_blocks
  have hp := sort_by_address_perm l
  split
  · rename_i h
    rw [h] at hp
    rw [← cover_perm x hp]
  · rename_i b rest h
    rw [h] at hp
    rw [merge_sweep_cover x rest b (fun c hc => hw c (hp.subset hc)), cover_perm x hp]

theorem merge_adjacent_blocks_bounds (lo hi : Nat) (hhi : hi < WORD) (l : List Block)
    (hb : ∀ b ∈ l, 0 < b.2 ∧ lo ≤ b.1 ∧ b.1 + b.2 ≤ hi) :
    ∀ o ∈ merge_adjacent_blocks l, 0 < o.2 ∧ lo ≤ o.1 ∧ o.1 + o.2 ≤ hi := by
  unfold merge_adjacent_blocks
  have hp := sort_by_address_perm l
  split
  · intro o ho; cases ho
  · rename_i b rest h
    rw [h] at hp
    exact merge_sweep_bounds lo hi hhi rest b (fun c hc => hb c (hp.subset hc))

theorem merge_adjacent_blocks_gapped (l : List Block) (hw : ∀ b ∈ l, b.1 + b.2 < WORD)
    (hpos : ∀ b ∈ l, 0 < b.2) (hc : ∀ x, cover x l ≤ 1) :
    (merge_adjacent_blocks l).Pairwise (fun a b => a.1 + a.2 < b.1) := by
  unfold merge_adjacent_blocks
  have hp := sort_by_address_perm l
  have hs := sort_by_address_sorted l
  split
  · exact List.Pairwise.nil
  · rename_i b rest h
    rw [h] at hp hs
    apply merge_sweep_gapped rest b (fun c hc => hw c (hp.subset hc))
    apply sorted_before (fun c hc => hpos c (hp.subset hc)) _ hs
    intro x
    rw [cover_perm x hp]
    exact hc x

theorem merge_adjacent_blocks_contains (l : List Block) (hw : ∀ b ∈ l, b.1 + b.2 < WORD) :
    ∀ b ∈ l, ∃ o ∈ merge_adjacent_blocks l, o.1 ≤ b.1 ∧ b.1 + b.2 ≤ o.1 + o.2 := by
  unfold merge_adjacent_blocks
  have hp := sort_by_address_perm l
  split
  · rename_i h
    rw [h] at hp
    intro b hb
    have := hp.symm.subset hb
    cases this
  · rename_i b rest h
    rw [h] at hp
    intro c hc
    exact merge_sweep_contains rest b (fun c hc => hw c (hp.subset hc)) c (hp.symm.subset hc)

/-- In a list whose blocks are non-empty and each end strictly before the start of
every later block, no block ends where a block starts. -/
theorem no_adjacent_of_gapped {l : List Block} (hpos : ∀ b ∈ l, 0 < b.2)
    (hg : l.Pairwise (fun a b => a.1 + a.2 < b.1)) :
    ∀ a ∈ l, ∀ b ∈ l, a.1 + a.2 ≠ b.1 := by
  have h1 : l.Pairwise (fun a b => a.1 + a.2 ≠ b.1 ∧ b.1 + b.2 ≠ a.1) :=
    hg.imp (fun {a b} h => ⟨by omega, by omega⟩)
  intro a ha b hb
  by_cases hab : a = b
  · subst hab
    have := hpos a ha
    omega
  · exact (h1.forall (fun _ _ h => ⟨h.2, h.1⟩) ha hb hab).1

/-! ## Splitting a free block -/

/-- What the scan computes for a block it accepts, when nothing wraps: the aligned
address `q` lies in the block, the request fits behind it, and the blocks put back
are the gap before `q` and the remainder behind the request. -/
theorem split_rest_eq {bytes al k : Nat} {blk : Block} (hal : al = 2 ^ k) (hlt : al < WORD)
    (hnw : blk.1 + al ≤ WORD) (hby : bytes + al ≤ WORD) (hend : blk.1 + blk.2 < WORD)
    (hfit : fits bytes al blk = true) :
    blk.1 ≤ aligned_addr blk.1 al ∧ aligned_addr blk.1 al + bytes ≤ blk.1 + blk.2 ∧
    split_rest bytes al blk =
      (if blk.1 < aligned_addr blk.1 al then [(blk.1, aligned_addr blk.1 al - blk.1)] else []) ++
      (if aligned_addr blk.1 al + bytes < blk.1 + blk.2 then
        [(aligned_addr blk.1 al + bytes, blk.1 + blk.2 - (aligned_addr blk.1 al + bytes))]
       else []) := by
  obtain ⟨h1, h2, _⟩ := aligned_addr_bounds hal hlt hnw
  have hadj := adjustment_eq hal hlt hnw
  unfold fits at hfit
  rw [hadj, wadd_eq (by omega)] at hfit
  have hfit2 : bytes + (aligned_addr blk.1 al - blk.1) ≤ blk.2 := by simpa using hfit
  refine ⟨h1, by omega, ?_⟩
  unfold split_rest
  rw [hadj]
  have hr : wsub (wsub blk.2 bytes) (aligned_addr blk.1 al - blk.1) =
      blk.1 + blk.2 - (aligned_addr blk.1 al + bytes) := by
    have e1 : wsub blk.2 bytes = blk.2 - bytes := wsub_eq (by omega) (by omega)
    rw [e1, wsub_eq (by omega) (by omega)]
    omega
  rw [hr, wadd_eq (by omega)]
  congr 1
  · by_cases h : blk.1 < aligned_addr blk.1 al
    · rw [if_pos h, if_pos (by omega)]
    · rw [if_neg h, if_neg (by omega)]
  · by_cases h : aligned_addr blk.1 al + bytes < blk.1 + blk.2
    · rw [if_pos h, if_pos (by omega)]
    · rw [if_neg h, if_neg (by omega)]

/-- The shape of the blocks put back after a split. -/
theorem split_rest_mem {bytes al k : Nat} {blk : Block} (hal : al = 2 ^ k) (hlt : al < WORD)
    (hnw : blk.1 + al ≤ WORD) (hby : bytes + al ≤ WORD) (hend : blk.1 + blk.2 < WORD)
    (hfit : fits bytes al blk = true) :
    ∀ c ∈ split_rest bytes al blk,
      (c.1 = blk.1 ∧ c.1 + c.2 = aligned_addr blk.1 al ∧ blk.1 < aligned_addr blk.1 al) ∨
      (c.1 = aligned_addr blk.1 al + bytes ∧ c.1 + c.2 = blk.1 + blk.2 ∧
        aligned_addr blk.1 al + bytes < blk.1 + blk.2) := by
  obtain ⟨h1, h2, h3⟩ := split_rest_eq hal hlt hnw hby hend hfit
  rw [h3]
  intro c hc
  rcases List.mem_append.1 hc with hc | hc
  · split at hc
    · simp only [List.mem_singleton] at hc
      subst hc
      exact Or.inl ⟨rfl, by simp only; omega, by assumption⟩
    · cases hc
  · split at hc
    · simp only [List.mem_singleton] at hc
      subst hc
      exact Or.inr ⟨rfl, by simp only; omega, by assumption⟩
    · cases hc

/-- The gap, the returned range and the remainder together hold every byte of the
chosen block once. -/
theorem split_rest_cover {bytes al k : Nat} {blk : Block} (hal : al = 2 ^ k) (hlt : al < WORD)
    (hnw : blk.1 + al ≤ WORD) (hby : bytes + al ≤ WORD) (hend : blk.1 + blk.2 < WORD)
    (hfit : fits bytes al blk = true) (x : Nat) :
    cover x (split_rest bytes al blk) +
      (if covers x (aligned_addr blk.1 al, bytes) = true then 1 else 0) =
      if covers x blk = true then 1 else 0 := by
  obtain ⟨h1, h2, h3⟩ := split_rest_eq hal hlt hnw hby hend hfit
  rw [h3, cover_append]
  have e1 : cover x (if blk.1 < aligned_addr blk.1 al then
      [(blk.1, aligned_addr blk.1 al - blk.1)] else []) =
      if blk.1 ≤ x ∧ x < aligned_addr blk.1 al then 1 else 0 := by
    by_cases h : blk.1 < aligned_addr blk.1 al
    · rw [if_pos h, cover_cons, cover_nil]
      by_cases hx : blk.1 ≤ x ∧ x < aligned_addr blk.1 al
      · rw [if_pos hx, if_pos (by rw [covers_iff]; simp only; omega)]
      · rw [if_neg hx, if_neg (by rw [covers_iff]; simp only; omega)]
    · rw [if_neg h, cover_nil, if_neg (by omega)]
  have e2 : cover x (if aligned_addr blk.1 al + bytes < blk.1 + blk.2 then
      [(aligned_addr blk.1 al + bytes, blk.1 + blk.2 - (aligned_addr blk.1 al + bytes))]
      else []) =
      if aligned_addr blk.1 al + bytes ≤ x ∧ x < blk.1 + blk.2 then 1 else 0 := by
    by_cases h : aligned_addr blk.1 al + bytes < blk.1 + blk.2
    · rw [if_pos h, cover_cons, cover_nil]
      by_cases hx : aligned_addr blk.1 al + bytes ≤ x ∧ x < blk.1 + blk.2
      · rw [if_pos hx, if_pos (by rw [covers_iff]; simp only; omega)]
      · rw [if_neg hx, if_neg (by rw [covers_iff]; simp only; omega)]
    · rw [if_neg h, cover_nil, if_neg (by omega)]
  have e3 : (if covers x (aligned_addr blk.1 al, bytes) = true then 1 else 0) =
      if aligned_addr blk.1 al ≤ x ∧ x < aligned_addr blk.1 al + bytes then 1 else 0 := by
    simp only [covers_iff]
  have e4 : (if covers x blk = true then 1 else 0) =
      if blk.1 ≤ x ∧ x < blk.1 + blk.2 then 1 else 0 := by
    simp only [covers_iff]
  rw [e1, e2, e3, e4]
  split_ifs <;> omega

/-! ## The bump path -/

theorem aligned_offset_bounds {offset al : Nat} (hpos : 0 < al) (hnw : offset + al ≤ WORD) :
    offset ≤ aligned_offset offset al ∧ aligned_offset offset al < offset + al := by
  unfold aligned_offset
  have hm := Nat.mod_lt offset hpos
  have hle := Nat.mod_le offset al
  split
  · have e1 : wsub al (offset % al) = al - offset % al := wsub_eq (by omega) (by omega)
    rw [e1, wadd_eq (by omega)]
    omega
  · omega

/-! ## Case analysis of `do_allocate` -/

theorem do_allocate_of_scan_none {s : FixedBlockMemoryResource} {bytes al : Nat}
    (h : scan_free_blocks bytes al s.free_blocks_ = none) :
    do_allocate s bytes al =
      if s.size_ < wadd (aligned_offset s.offset_ al) bytes then (none, s)
      else
        (some (wadd s.buffer_ (aligned_offset s.offset_ al)),
          { s with
            allocated_blocks_ :=
              s.allocated_blocks_ ++ [(wadd s.buffer_ (aligned_offset s.offset_ al), bytes)],
            offset_ := wadd (aligned_offset s.offset_ al) bytes }) := by
  simp [do_allocate, allocate_from_free_blocks, h]

theorem do_allocate_of_scan_some {s : FixedBlockMemoryResource} {bytes al q : Nat}
    {l2 : List Block} (h : scan_free_blocks bytes al s.free_blocks_ = some (q, l2))
    (hq : q ≠ 0) :
    do_allocate s bytes al =
      (some q, { s with free_blocks_ := l2,
                        allocated_blocks_ := s.allocated_blocks_ ++ [(q, bytes)] }) := by
  simp [do_allocate, allocate_from_free_blocks, h, hq]

/-! ## The first matching entry of `allocated_blocks_` -/

theorem erase_address_of_has {p : Nat} {l : List Block} (h : has_address p l = true) :
    ∃ pre b post, l = pre ++ b :: post ∧ b.1 = p ∧ (∀ c ∈ pre, c.1 ≠ p) ∧
      erase_address p l = pre ++ post := by
  induction l with
  | nil => simp [has_address] at h
  | cons c rest ih =>
    by_cases hc : c.1 = p
    · exact ⟨[], c, rest, rfl, hc, by simp, by simp [erase_address, hc]⟩
    · have h2 : has_address p rest = true := by
        simp only [has_address, List.any_cons, Bool.or_eq_true, beq_iff_eq] at h
        rcases h with h | h
        · exact absurd h hc
        · simpa [has_address] using h
      obtain ⟨pre, b, post, h1, h3, h4, h5⟩ := ih h2
      refine ⟨c :: pre, b, post, by simp [h1], h3, ?_, by simp [erase_address, hc, h5]⟩
      intro d hd
      rcases List.mem_cons.1 hd with rfl | hd
      · exact hc
      · exact h4 d hd

theorem has_address_iff {p : Nat} {l : List Block} :
    has_address p l = true ↔ ∃ b ∈ l, b.1 = p := by
  simp [has_address]

theorem erase_address_of_not_has {p : Nat} {l : List Block} (h : has_address p l = false) :
    erase_address p l = l := by
  induction l with
  | nil => rfl
  | cons c rest ih =>
    simp only [has_address, List.any_cons, Bool.or_eq_false_iff, beq_eq_false_iff_ne] at h
    simp only [erase_address, if_neg h.1]
    rw [ih (by simpa [has_address] using h.2)]

/-! ## The consistency conditions are kept by every operation -/

theorem inv_construct {buf cap : Nat} (h1 : 0 < buf) (h2 : buf + cap < WORD) :
    Inv (construct buf cap) := by
  refine ⟨h1, h2, Nat.zero_le _, ?_, ?_, ?_⟩
  · intro b hb; simp [construct] at hb
  · intro x; simp [construct, cover]
  · intro a ha; simp [construct] at ha

theorem inv_bump {s : FixedBlockMemoryResource} {bytes al : Nat} (hi : Inv s)
    (hb : 0 < bytes) (hpos : 0 < al) (hw1 : s.offset_ + al ≤ WORD)
    (hw2 : aligned_offset s.offset_ al + bytes < WORD)
    (hfit : ¬ s.size_ < wadd (aligned_offset s.offset_ al) bytes) :
    Inv { s with
      allocated_blocks_ :=
        s.allocated_blocks_ ++ [(wadd s.buffer_ (aligned_offset s.offset_ al), bytes)],
      offset_ := wadd (aligned_offset s.offset_ al) bytes } := by
  have h0 := hi.buffer_pos
  have h1 := hi.buffer_end
  have h2 := hi.offset_le
  obtain ⟨ha1, ha2⟩ := aligned_offset_bounds hpos hw1
  rw [wadd_eq (by omega)] at hfit ⊢
  rw [wadd_eq (by omega)]
  refine ⟨h0, h1, by simp only; omega, ?_, ?_, hi.no_adjacent⟩
  · intro b hb2
    simp only [List.append_assoc, List.mem_append, List.mem_singleton, List.mem_cons] at hb2
    rcases hb2 with hb2 | hb2 | hb2
    · have := hi.block_ok b (List.mem_append_left _ hb2)
      simp only; omega
    · have hb3 : b = (s.buffer_ + aligned_offset s.offset_ al, bytes) := by
        simpa using hb2
      subst hb3
      simp only; omega
    · have := hi.block_ok b (List.mem_append_right _ hb2)
      simp only; omega
  · intro x
    have hold := hi.cover_le x
    simp only [List.append_assoc, cover_append, cover_cons, cover_nil] at hold ⊢
    by_cases hx : covers x (s.buffer_ + aligned_offset s.offset_ al, bytes) = true
    · have hx2 := covers_iff.1 hx
      simp only at hx2
      have z1 : cover x s.allocated_blocks_ = 0 := by
        apply cover_eq_zero
        intro b hb2
        have := hi.block_ok b (List.mem_append_left _ hb2)
        rw [covers_false_iff]; omega
      have z2 : cover x s.free_blocks_ = 0 := by
        apply cover_eq_zero
        intro b hb2
        have := hi.block_ok b (List.mem_append_right _ hb2)
        rw [covers_false_iff]; omega
      rw [z1, z2, if_pos hx]
    · rw [if_neg hx]; omega

theorem inv_take {s : FixedBlockMemoryResource} {bytes al q : Nat} {l2 : List Block}
    {k : Nat} (hi : Inv s) (hb : 0 < bytes) (hk : al = 2 ^ k)
    (hw1 : s.buffer_ + s.size_ + al ≤ WORD) (hw2 : bytes + al ≤ WORD)
    (h : scan_free_blocks bytes al s.free_blocks_ = some (q, l2)) :
    q ≠ 0 ∧ Inv { s with free_blocks_ := l2,
                         allocated_blocks_ := s.allocated_blocks_ ++ [(q, bytes)] } := by
  have h0 := hi.buffer_pos
  have h1 := hi.buffer_end
  have h2 := hi.offset_le
  obtain ⟨pre, blk, post, e1, _, hfit, e2, e3⟩ := scan_free_blocks_some h
  have hblk_mem : blk ∈ s.free_blocks_ := by rw [e1]; simp
  have hblk := hi.block_ok blk (List.mem_append_right _ hblk_mem)
  have hlt : al < WORD := by omega
  have c1 : blk.1 + al ≤ WORD := by omega
  have c2 : bytes + al ≤ WORD := by omega
  have c3 : blk.1 + blk.2 < WORD := by omega
  obtain ⟨s1, s2, _⟩ := split_rest_eq hk hlt c1 c2 c3 hfit
  have smem := split_rest_mem hk hlt c1 c2 c3 hfit
  have scov := split_rest_cover hk hlt c1 c2 c3 hfit
  rw [← e2] at s1 s2 smem scov
  have hfree_pos : ∀ b ∈ s.allocated_blocks_ ++ s.free_blocks_, 0 < b.2 :=
    fun b hb => (hi.block_ok b hb).1
  have hpre : ∀ c ∈ pre ++ post, c ∈ s.free_blocks_ := by
    intro c hc
    rw [e1]
    rcases List.mem_append.1 hc with hc | hc
    · exact List.mem_append_left _ hc
    · exact List.mem_append_right _ (List.mem_cons_of_mem _ hc)
  have hdis : ∀ c ∈ s.free_blocks_, c ≠ blk → disjoint c blk := by
    intro c hc hne
    exact disjoint_of_cover hfree_pos hi.cover_le (List.mem_append_right _ hc)
      (List.mem_append_right _ hblk_mem) hne
  refine ⟨by omega, h0, h1, h2, ?_, ?_, ?_⟩
  · intro b hb2
    simp only [List.append_assoc, List.mem_append, List.mem_singleton, List.mem_cons] at hb2
    rcases hb2 with hb2 | hb2 | hb2
    · exact hi.block_ok b (List.mem_append_left _ hb2)
    · have hb3 : b = (q, bytes) := by simpa using hb2
      subst hb3
      simp only; omega
    · rw [e3] at hb2
      simp only [List.mem_append] at hb2
      rcases hb2 with hb2 | hb2 | hb2
      · exact hi.block_ok b (List.mem_append_right _ (hpre b (List.mem_append_left _ hb2)))
      · exact hi.block_ok b (List.mem_append_right _ (hpre b (List.mem_append_right _ hb2)))
      · rcases smem b hb2 with hh | hh <;> (dsimp only; omega)
  · intro x
    have hold := hi.cover_le x
    have := scov x
    rw [e1] at hold
    simp only [e3, List.append_assoc, cover_append, cover_cons, cover_nil] at hold ⊢
    omega
  · intro a ha b hb2
    simp only [e3] at ha hb2
    rw [← List.append_assoc] at ha hb2
    rcases List.mem_append.1 ha with ha | ha <;> rcases List.mem_append.1 hb2 with hb2 | hb2
    · exact hi.no_adjacent a (hpre a ha) b (hpre b hb2)
    · have hn := hi.no_adjacent a (hpre a ha) blk hblk_mem
      have hap := hi.block_ok a (List.mem_append_right _ (hpre a ha))
      rcases smem b hb2 with hh | hh
      · omega
      · by_cases hne : a = blk
        · subst hne; omega
        · have := hdis a (hpre a ha) hne
          unfold disjoint at this
          omega
    · have hn := hi.no_adjacent blk hblk_mem b (hpre b hb2)
      have hbp := hi.block_ok b (List.mem_append_right _ (hpre b hb2))
      rcases smem a ha with hh | hh
      · by_cases hne : b = blk
        · subst hne; omega
        · have := hdis b (hpre b hb2) hne
          unfold disjoint at this
          omega
      · omega
    · rcases smem a ha with hh | hh <;> rcases smem b hb2 with hh2 | hh2 <;> omega

theorem inv_do_allocate {s : FixedBlockMemoryResource} {bytes al : Nat} (hi : Inv s)
    (hv : valid_request s bytes al) : Inv (do_allocate s bytes al).2 := by
  obtain ⟨hb, ⟨k, hk⟩, hw1, hw2⟩ := hv
  have hpos : 0 < al := by rw [hk]; exact Nat.two_pow_pos k
  have h2 := hi.offset_le
  cases hs : scan_free_blocks bytes al s.free_blocks_ with
  | none =>
    rw [do_allocate_of_scan_none hs]
    split
    · exact hi
    · rename_i hfit
      obtain ⟨_, ha2⟩ := aligned_offset_bounds hpos (by omega : s.offset_ + al ≤ WORD)
      exact inv_bump hi hb hpos (by omega) (by omega) hfit
  | some r =>
    obtain ⟨q, l2⟩ := r
    obtain ⟨hq, hinv⟩ := inv_take hi hb hk hw1 (by omega) hs
    rw [do_allocate_of_scan_some hs hq]
    exact hinv

theorem inv_do_deallocate {s : FixedBlockMemoryResource} {p bytes al : Nat} (hi : Inv s)
    (hm : (p, bytes) ∈ s.allocated_blocks_) : Inv (do_deallocate s p bytes al) := by
  have h0 := hi.buffer_pos
  have h1 := hi.buffer_end
  have h2 := hi.offset_le
  have hhas : has_address p s.allocated_blocks_ = true :=
    has_address_iff.2 ⟨(p, bytes), hm, rfl⟩
  obtain ⟨pre, b, post, e1, e2, _, e4⟩ := erase_address_of_has hhas
  have hall_pos : ∀ b ∈ s.allocated_blocks_ ++ s.free_blocks_, 0 < b.2 :=
    fun b hb => (hi.block_ok b hb).1
  have hb_mem : b ∈ s.allocated_blocks_ := by rw [e1]; simp
  have hbeq : b = (p, bytes) := by
    by_contra hne
    have hd := disjoint_of_cover hall_pos hi.cover_le (List.mem_append_left _ hb_mem)
      (List.mem_append_left _ hm) hne
    have hp1 := hall_pos b (List.mem_append_left _ hb_mem)
    have hp2 := hall_pos _ (List.mem_append_left _ hm)
    unfold disjoint at hd
    simp only at hd hp2
    omega
  subst hbeq
  unfold do_deallocate
  rw [if_pos hhas, e4]
  have hfree_ok : ∀ c ∈ s.free_blocks_ ++ [(p, bytes)],
      0 < c.2 ∧ s.buffer_ ≤ c.1 ∧ c.1 + c.2 ≤ s.buffer_ + s.offset_ := by
    intro c hc
    rcases List.mem_append.1 hc with hc | hc
    · exact hi.block_ok c (List.mem_append_right _ hc)
    · simp only [List.mem_singleton] at hc
      subst hc
      exact hi.block_ok _ (List.mem_append_left _ hm)
  have hw : ∀ c ∈ s.free_blocks_ ++ [(p, bytes)], c.1 + c.2 < WORD := by
    intro c hc
    have := hfree_ok c hc
    omega
  have hcov : ∀ x, cover x (s.free_blocks_ ++ [(p, bytes)]) ≤ 1 := by
    intro x
    have := hi.cover_le x
    rw [e1] at this
    simp only [List.append_assoc, cover_append, cover_cons, cover_nil] at this ⊢
    omega
  have hmb := merge_adjacent_blocks_bounds s.buffer_ (s.buffer_ + s.offset_) (by omega) _ hfree_ok
  refine ⟨h0, h1, h2, ?_, ?_, ?_⟩
  · intro c hc
    rcases List.mem_append.1 hc with hc | hc
    · apply hi.block_ok c
      rw [e1]
      rcases List.mem_append.1 hc with hc | hc
      · exact List.mem_append_left _ (List.mem_append_left _ hc)
      · exact List.mem_append_left _ (List.mem_append_right _ (List.mem_cons_of_mem _ hc))
    · exact hmb c hc
  · intro x
    have := hi.cover_le x
    rw [e1] at this
    simp only [cover_append, merge_adjacent_blocks_cover x _ hw, cover_cons, cover_nil] at this ⊢
    omega
  · exact no_adjacent_of_gapped (fun c hc => (hmb c hc).1)
      (merge_adjacent_blocks_gapped _ hw (fun c hc => (hfree_ok c hc).1) hcov)

/-! ## Reachable states -/

theorem do_allocate_fields (s : FixedBlockMemoryResource) (bytes al : Nat) :
    (do_allocate s bytes al).2.buffer_ = s.buffer_ ∧
    (do_allocate s bytes al).2.size_ = s.size_ := by
  unfold do_allocate allocate_from_free_blocks
  cases scan_free_blocks bytes al s.free_blocks_ with
  | none => dsimp only; split_ifs <;> exact ⟨rfl, rfl⟩
  | some r => dsimp only; split_ifs <;> exact ⟨rfl, rfl⟩

theorem do_deallocate_fields (s : FixedBlockMemoryResource) (p bytes al : Nat) :
    (do_deallocate s p bytes al).buffer_ = s.buffer_ ∧
    (do_deallocate s p bytes al).size_ = s.size_ ∧
    (do_deallocate s p bytes al).offset_ = s.offset_ := by
  unfold do_deallocate
  split_ifs <;> exact ⟨rfl, rfl, rfl⟩

theorem reachable_fields {ok : FixedBlockMemoryResource → Nat → Nat → Prop} {buf cap : Nat} {s : FixedBlockMemoryResource}
    (h : Reachable ok buf cap s) : s.buffer_ = buf ∧ s.size_ = cap := by
  induction h with
  | fresh _ _ => exact ⟨rfl, rfl⟩
  | allocate s bytes al _ _ ih =>
    obtain ⟨h1, h2⟩ := do_allocate_fields s bytes al
    exact ⟨h1.trans ih.1, h2.trans ih.2⟩
  | deallocate s p bytes al _ _ ih =>
    obtain ⟨h1, h2, _⟩ := do_deallocate_fields s p bytes al
    exact ⟨h1.trans ih.1, h2.trans ih.2⟩

theorem reachable_mono {ok1 ok2 : FixedBlockMemoryResource → Nat → Nat → Prop} {buf cap : Nat}
    (himp : ∀ s bytes al, ok1 s bytes al → ok2 s bytes al) {s : FixedBlockMemoryResource}
    (h : Reachable ok1 buf cap s) : Reachable ok2 buf cap s := by
  induction h with
  | fresh h1 h2 => exact Reachable.fresh h1 h2
  | allocate s bytes al _ hok ih => exact Reachable.allocate s bytes al ih (himp _ _ _ hok)
  | deallocate s p bytes al _ hm ih => exact Reachable.deallocate s p bytes al ih hm

theorem reachable_inv {buf cap : Nat} {s : FixedBlockMemoryResource}
    (h : Reachable valid_request buf cap s) : Inv s := by
  induction h with
  | fresh h1 h2 => exact inv_construct h1 h2
  | allocate s bytes al _ hok ih => exact inv_do_allocate ih hok
  | deallocate s p bytes al _ hm ih => exact inv_do_deallocate ih hm

theorem pairwise_of_forall_mem {R : Block → Block → Prop} {l : List Block}
    (h : ∀ a ∈ l, ∀ b ∈ l, R a b) : l.Pairwise R :=
  (List.pairwise_of_forall (fun _ _ => trivial) :
    l.Pairwise (fun _ _ => True)).imp_of_mem (fun ha hb _ => h _ ha _ hb)

/-! ## Alignment of the free-list path -/

/-- The free-list path does return aligned addresses: for a power-of-two alignment the
address computed by `aligned_addr` is a multiple of the alignment, for every block
address. -/
theorem aligned_addr_dvd (b al k : Nat) (hal : al = 2 ^ k) (hlt : al < WORD) :
    al ∣ aligned_addr b al := by
  have hk : k ≤ 64 := by
    rw [hal, WORD_eq] at hlt
    exact le_of_lt ((Nat.pow_lt_pow_iff_right (by norm_num)).1 hlt)
  have hpos : 0 < al := by rw [hal]; exact Nat.two_pow_pos k
  have h2 : wnot (wsub al 1) = WORD - al := by
    simp only [wsub, wnot, WORD] at *; omega
  unfold aligned_addr
  rw [h2]
  unfold wand
  rw [Nat.mod_eq_of_lt (by omega : WORD - al < WORD), WORD_eq, hal,
    land_mask _ k hk (by rw [← WORD_eq]; exact Nat.mod_lt _ (by decide))]
  exact Dvd.intro _ rfl

/-! ## Addresses returned and addresses recorded -/

theorem do_allocate_allocated (s : FixedBlockMemoryResource) (bytes al : Nat) :
    (∃ q, (do_allocate s bytes al).1 = some q ∧
      (do_allocate s bytes al).2.allocated_blocks_ = s.allocated_blocks_ ++ [(q, bytes)]) ∨
    ((do_allocate s bytes al).1 = none ∧
      (do_allocate s bytes al).2.allocated_blocks_ = s.allocated_blocks_) := by
  unfold do_allocate allocate_from_free_blocks
  cases scan_free_blocks bytes al s.free_blocks_ with
  | none =>
    dsimp only
    split_ifs
    · exact Or.inl ⟨_, rfl, rfl⟩
    · exact Or.inr ⟨rfl, rfl⟩
    · exact Or.inl ⟨_, rfl, rfl⟩
  | some r =>
    dsimp only
    split_ifs
    · exact Or.inl ⟨_, rfl, rfl⟩
    · exact Or.inr ⟨rfl, rfl⟩
    · exact Or.inl ⟨_, rfl, rfl⟩

theorem erase_address_subset (p : Nat) (l : List Block) :
    ∀ b ∈ erase_address p l, b ∈ l := by
  induction l with
  | nil => intro b hb; cases hb
  | cons c rest ih =>
    intro b hb
    unfold erase_address at hb
    split_ifs at hb
    · exact List.mem_cons_of_mem _ hb
    · rcases List.mem_cons.1 hb with rfl | hb
      · exact List.mem_cons_self _ _
      · exact List.mem_cons_of_mem _ (ih b hb)

theorem aligned_addr_one {b : Nat} (h : b < WORD) : aligned_addr b 1 = b := by
  have := @aligned_addr_eq b 1 0 rfl (by decide) (by omega)
  simpa using this

theorem adjustment_one {b : Nat} (h : b < WORD) : adjustment b 1 = 0 := by
  unfold adjustment
  rw [aligned_addr_one h, wsub_eq (le_refl _) h]
  omega

theorem fits_one {bytes : Nat} {blk : Block} (hb : blk.1 < WORD) (hbytes : bytes < WORD) :
    fits bytes 1 blk = true ↔ bytes ≤ blk.2 := by
  unfold fits
  rw [adjustment_one hb, wadd_eq (by omega)]
  simp

/-! ## `do_deallocate` in a consistent state -/

theorem erase_address_mem_of_ne {p : Nat} {l : List Block} {b : Block} (hb : b ∈ l)
    (hne : b.1 ≠ p) : b ∈ erase_address p l := by
  induction l with
  | nil => cases hb
  | cons c rest ih =>
    unfold erase_address
    rcases List.mem_cons.1 hb with rfl | hb
    · rw [if_neg hne]; exact List.mem_cons_self _ _
    · split_ifs
      · exact hb
      · exact List.mem_cons_of_mem _ (ih hb)

theorem do_deallocate_spec {s : FixedBlockMemoryResource} {p bytes : Nat} (al : Nat)
    (hi : Inv s) (hm : (p, bytes) ∈ s.allocated_blocks_) :
    (do_deallocate s p bytes al).free_blocks_ =
      merge_adjacent_blocks (s.free_blocks_ ++ [(p, bytes)]) ∧
    gapped (do_deallocate s p bytes al).free_blocks_ ∧
    (∀ b ∈ s.free_blocks_ ++ [(p, bytes)], ∃ o ∈ (do_deallocate s p bytes al).free_blocks_,
      o.1 ≤ b.1 ∧ b.1 + b.2 ≤ o.1 + o.2) ∧
    (∀ b ∈ s.allocated_blocks_, b.1 ≠ p → b ∈ (do_deallocate s p bytes al).allocated_blocks_) := by
  have hhas : has_address p s.allocated_blocks_ = true :=
    has_address_iff.2 ⟨(p, bytes), hm, rfl⟩
  have h1 := hi.buffer_end
  have h2 := hi.offset_le
  have hfree_ok : ∀ c ∈ s.free_blocks_ ++ [(p, bytes)],
      0 < c.2 ∧ s.buffer_ ≤ c.1 ∧ c.1 + c.2 ≤ s.buffer_ + s.offset_ := by
    intro c hc
    rcases List.mem_append.1 hc with hc | hc
    · exact hi.block_ok c (List.mem_append_right _ hc)
    · simp only [List.mem_singleton] at hc
      subst hc
      exact hi.block_ok _ (List.mem_append_left _ hm)
  have hw : ∀ c ∈ s.free_blocks_ ++ [(p, bytes)], c.1 + c.2 < WORD := by
    intro c hc
    have := hfree_ok c hc
    omega
  have hcov : ∀ x, cover x (s.free_blocks_ ++ [(p, bytes)]) ≤ 1 := by
    intro x
    have hc := hi.cover_le x
    have hx : cover x [(p, bytes)] ≤ cover x s.allocated_blocks_ := by
      rw [cover_cons, cover_nil]
      split_ifs with hcv
      · have := cover_pos_of_mem hm hcv; omega
      · omega
    rw [cover_append] at hc ⊢
    omega
  have e : (do_deallocate s p bytes al).free_blocks_ =
      merge_adjacent_blocks (s.free_blocks_ ++ [(p, bytes)]) := by
    unfold do_deallocate; rw [if_pos hhas]
  have e2 : (do_deallocate s p bytes al).allocated_blocks_ =
      erase_address p s.allocated_blocks_ := by
    unfold do_deallocate; rw [if_pos hhas]
  rw [e, e2]
  exact ⟨rfl, merge_adjacent_blocks_gapped _ hw (fun c hc => (hfree_ok c hc).1) hcov,
    merge_adjacent_blocks_contains _ hw, fun b hb hne => erase_address_mem_of_ne hb hne⟩

/-! ## Two adjacent blocks freed -/

/-- First fit at alignment 1 in a consistent state: when some free block `o` has room for
`bytes`, `do_allocate` takes the first such block of the list, returns its start address
and leaves the bump offset alone; in an address-ordered free list that block does not
start after `o`. -/
theorem do_allocate_first_fit_one {s : FixedBlockMemoryResource} {bytes : Nat} {o : Block}
    (hi : Inv s) (ho : o ∈ s.free_blocks_) (hfit : bytes ≤ o.2) :
    ∃ q, (do_allocate s bytes 1).1 = some q ∧
      (do_allocate s bytes 1).2.offset_ = s.offset_ ∧
      (∃ blk ∈ s.free_blocks_, blk.1 = q ∧ bytes ≤ blk.2) ∧
      (gapped s.free_blocks_ → q ≤ o.1) := by
  have h0 := hi.buffer_pos
  have h1 := hi.buffer_end
  have h2 := hi.offset_le
  have hw : ∀ b ∈ s.free_blocks_, b.1 < WORD ∧ b.2 < WORD ∧ 0 < b.1 := by
    intro b hb
    have := hi.block_ok b (List.mem_append_right _ hb)
    omega
  have hbytes : bytes < WORD := by have := hw o ho; omega
  have hofit : fits bytes 1 o = true := (fits_one (hw o ho).1 hbytes).2 hfit
  cases hs : scan_free_blocks bytes 1 s.free_blocks_ with
  | none =>
    have := scan_free_blocks_none.1 hs o ho
    rw [hofit] at this
    cases this
  | some r =>
    obtain ⟨q, l2⟩ := r
    obtain ⟨pre, blk, post, e1, hpre, hblk, e2, _⟩ := scan_free_blocks_some hs
    have hblk_mem : blk ∈ s.free_blocks_ := by rw [e1]; simp
    have hq : q = blk.1 := by rw [e2, aligned_addr_one (hw blk hblk_mem).1]
    have hq0 : q ≠ 0 := by have := hw blk hblk_mem; omega
    rw [do_allocate_of_scan_some hs hq0]
    refine ⟨q, rfl, rfl, ⟨blk, hblk_mem, hq.symm,
      (fits_one (hw blk hblk_mem).1 hbytes).1 hblk⟩, ?_⟩
    intro hg
    unfold gapped at hg
    rw [e1] at ho hg
    rcases List.mem_append.1 ho with ho | ho
    · have := hpre o ho
      rw [hofit] at this
      cases this
    · rcases List.mem_cons.1 ho with rfl | ho
      · omega
      · have := (List.pairwise_cons.1 (List.pairwise_append.1 hg).2.1).1 o ho
        omega

/-- In a consistent state a free block that reaches from `a` or below to `a + s1` or above,
and one that reaches from `a + s1` or below to `a + s1 + s2` or above, are the same
block. -/
theorem free_block_unique {s : FixedBlockMemoryResource} {a s1 s2 : Nat} {x y : Block}
    (hi : Inv s) (hs1 : 0 < s1) (hs2 : 0 < s2) (hx : x ∈ s.free_blocks_)
    (hy : y ∈ s.free_blocks_) (hx1 : x.1 ≤ a) (hx2 : a + s1 ≤ x.1 + x.2)
    (hy1 : y.1 ≤ a + s1) (hy2 : a + s1 + s2 ≤ y.1 + y.2) : x = y := by
  by_contra hne
  have hd := disjoint_of_cover (fun b hb => (hi.block_ok b hb).1) hi.cover_le
    (List.mem_append_right _ hx) (List.mem_append_right _ hy) hne
  have hn := hi.no_adjacent x hx y hy
  unfold disjoint at hd
  omega

/-- After two adjacent recorded blocks have been deallocated, in either order, one free
block holds both of them. -/
theorem two_frees_block {s : FixedBlockMemoryResource} {a s1 s2 : Nat} (al1 al2 : Nat)
    (hi : Inv s) (hA : (a, s1) ∈ s.allocated_blocks_)
    (hB : (a + s1, s2) ∈ s.allocated_blocks_) (t : FixedBlockMemoryResource)
    (ht : t = do_deallocate (do_deallocate s a s1 al1) (a + s1) s2 al2 ∨
          t = do_deallocate (do_deallocate s (a + s1) s2 al2) a s1 al1) :
    Inv t ∧ gapped t.free_blocks_ ∧ t.offset_ = s.offset_ ∧
    ∃ o ∈ t.free_blocks_, o.1 ≤ a ∧ a + s1 + s2 ≤ o.1 + o.2 := by
  have hs1 := (hi.block_ok _ (List.mem_append_left _ hA)).1
  have hs2 := (hi.block_ok _ (List.mem_append_left _ hB)).1
  simp only at hs1 hs2
  rcases ht with rfl | rfl
  · have hi1 : Inv (do_deallocate s a s1 al1) := inv_do_deallocate hi hA
    obtain ⟨_, _, hc1, hk1⟩ := do_deallocate_spec al1 hi hA
    have hB1 := hk1 _ hB (by simp only; omega)
    have hi2 := @inv_do_deallocate _ _ _ al2 hi1 hB1
    obtain ⟨_, hg2, hc2, _⟩ := do_deallocate_spec al2 hi1 hB1
    obtain ⟨o1, ho1, p1, p2⟩ := hc1 (a, s1) (List.mem_append_right _ (List.mem_singleton_self _))
    obtain ⟨x, hx, x1, x2⟩ := hc2 o1 (List.mem_append_left _ ho1)
    obtain ⟨y, hy, y1, y2⟩ := hc2 (a + s1, s2)
      (List.mem_append_right _ (List.mem_singleton_self _))
    simp only at p1 p2 y1 y2
    have hxy : x = y := free_block_unique hi2 hs1 hs2 hx hy (by omega) (by omega) y1
      (by omega)
    subst hxy
    refine ⟨hi2, hg2, ?_, x, hx, by omega, by omega⟩
    rw [(do_deallocate_fields _ _ _ _).2.2, (do_deallocate_fields _ _ _ _).2.2]
  · have hi1 : Inv (do_deallocate s (a + s1) s2 al2) := inv_do_deallocate hi hB
    obtain ⟨_, _, hc1, hk1⟩ := do_deallocate_spec al2 hi hB
    have hA1 := hk1 _ hA (by simp only; omega)
    have hi2 := @inv_do_deallocate _ _ _ al1 hi1 hA1
    obtain ⟨_, hg2, hc2, _⟩ := do_deallocate_spec al1 hi1 hA1
    obtain ⟨o1, ho1, p1, p2⟩ := hc1 (a + s1, s2)
      (List.mem_append_right _ (List.mem_singleton_self _))
    obtain ⟨y, hy, y1, y2⟩ := hc2 o1 (List.mem_append_left _ ho1)
    obtain ⟨x, hx, x1, x2⟩ := hc2 (a, s1)
      (List.mem_append_right _ (List.mem_singleton_self _))
    simp only at p1 p2 x1 x2
    have hxy : x = y := free_block_unique hi2 hs1 hs2 hx hy x1 (by omega) (by omega)
      (by omega)
    subst hxy
    refine ⟨hi2, hg2, ?_, x, hx, by omega, by omega⟩
    rw [(do_deallocate_fields _ _ _ _).2.2, (do_deallocate_fields _ _ _ _).2.2]

/-- With an empty free list before, the free list after the two deallocations is the
single merged block. -/
theorem two_frees_of_empty {s : FixedBlockMemoryResource} {a s1 s2 : Nat} (al1 al2 : Nat)
    (hi : Inv s) (hA : (a, s1) ∈ s.allocated_blocks_)
    (hB : (a + s1, s2) ∈ s.allocated_blocks_) (hf : s.free_blocks_ = [])
    (t : FixedBlockMemoryResource)
    (ht : t = do_deallocate (do_deallocate s a s1 al1) (a + s1) s2 al2 ∨
          t = do_deallocate (do_deallocate s (a + s1) s2 al2) a s1 al1) :
    t.free_blocks_ = [(a, s1 + s2)] := by
  have hbA := hi.block_ok _ (List.mem_append_left _ hA)
  have hbB := hi.block_ok _ (List.mem_append_left _ hB)
  have h1 := hi.buffer_end
  have h2 := hi.offset_le
  simp only at hbA hbB
  have w1 : wadd a s1 = a + s1 := wadd_eq (by omega)
  have w2 : wadd s1 s2 = s1 + s2 := wadd_eq (by omega)
  rcases ht with rfl | rfl
  · have hi1 : Inv (do_deallocate s a s1 al1) := inv_do_deallocate hi hA
    obtain ⟨e1, _, _, hk1⟩ := do_deallocate_spec al1 hi hA
    have hB1 := hk1 _ hB (by simp only; omega)
    obtain ⟨e2, _, _, _⟩ := do_deallocate_spec al2 hi1 hB1
    rw [e2, e1, hf]
    simp [merge_adjacent_blocks, sort_by_address, insert_by_address, merge_sweep, w1, w2]
  · have hi1 : Inv (do_deallocate s (a + s1) s2 al2) := inv_do_deallocate hi hB
    obtain ⟨e1, _, _, hk1⟩ := do_deallocate_spec al2 hi hB
    have hA1 := hk1 _ hA (by simp only; omega)
    obtain ⟨e2, _, _, _⟩ := do_deallocate_spec al1 hi1 hA1
    rw [e2, e1, hf]
    simp [merge_adjacent_blocks, sort_by_address, insert_by_address, merge_sweep, w1, w2, hbA.1]

/-! ## Sizes under the merge -/

theorem total_nil : total [] = 0 := rfl

theorem total_cons (b : Block) (l : List Block) : total (b :: l) = b.2 + total l := by
  simp [total]

theorem total_append (l1 l2 : List Block) : total (l1 ++ l2) = total l1 + total l2 := by
  simp [total]

theorem total_perm {l1 l2 : List Block} (h : l1.Perm l2) : total l1 = total l2 := by
  unfold total
  exact (h.map Prod.snd).sum_eq

theorem merge_sweep_total (rest : List Block) (cur : Block)
    (hw : ∀ b ∈ cur :: rest, b.1 + b.2 < WORD) :
    total (merge_sweep cur rest) = total (cur :: rest) := by
  induction rest generalizing cur with
  | nil => simp [merge_sweep]
  | cons nxt rest ih =>
    have hc := hw cur (List.mem_cons_self _ _)
    have hn := hw nxt (List.mem_cons_of_mem _ (List.mem_cons_self _ _))
    unfold merge_sweep
    split
    · rename_i heq
      rw [wadd_eq hc] at heq
      have hs : wadd cur.2 nxt.2 = cur.2 + nxt.2 := wadd_eq (by omega)
      rw [hs, ih]
      · simp only [total_cons]; omega
      · intro b hb
        rcases List.mem_cons.1 hb with rfl | hb
        · show cur.1 + (cur.2 + nxt.2) < WORD
          omega
        · exact hw b (List.mem_cons_of_mem _ (List.mem_cons_of_mem _ hb))
    · rw [total_cons, ih nxt (fun b hb => hw b (List.mem_cons_of_mem _ hb)), total_cons cur]

theorem merge_sweep_dvd (unit : Nat) (rest : List Block) (cur : Block)
    (hw : ∀ b ∈ cur :: rest, b.1 + b.2 < WORD) (hd : ∀ b ∈ cur :: rest, unit ∣ b.2) :
    ∀ o ∈ merge_sweep cur rest, unit ∣ o.2 := by
  induction rest generalizing cur with
  | nil =>
    intro o ho
    simp only [merge_sweep, List.mem_singleton] at ho
    rw [ho]; exact hd cur (List.mem_cons_self _ _)
  | cons nxt rest ih =>
    have hc := hw cur (List.mem_cons_self _ _)
    have hn := hw nxt (List.mem_cons_of_mem _ (List.mem_cons_self _ _))
    intro o ho
    unfold merge_sweep at ho
    split at ho
    · rename_i heq
      rw [wadd_eq hc] at heq
      have hs : wadd cur.2 nxt.2 = cur.2 + nxt.2 := wadd_eq (by omega)
      rw [hs] at ho
      refine ih _ ?_ ?_ o ho
      · intro b hb
        rcases List.mem_cons.1 hb with rfl | hb
        · show cur.1 + (cur.2 + nxt.2) < WORD
          omega
        · exact hw b (List.mem_cons_of_mem _ (List.mem_cons_of_mem _ hb))
      · intro b hb
        rcases List.mem_cons.1 hb with rfl | hb
        · exact Nat.dvd_add (hd cur (List.mem_cons_self _ _))
            (hd nxt (List.mem_cons_of_mem _ (List.mem_cons_self _ _)))
        · exact hd b (List.mem_cons_of_mem _ (List.mem_cons_of_mem _ hb))
    · rcases List.mem_cons.1 ho with rfl | ho
      · exact hd _ (List.mem_cons_self _ _)
      · exact ih nxt (fun b hb => hw b (List.mem_cons_of_mem _ hb))
          (fun b hb => hd b (List.mem_cons_of_mem _ hb)) o ho

theorem merge_adjacent_blocks_total (l : List Block) (hw : ∀ b ∈ l, b.1 + b.2 < WORD) :
    total (merge_adjacent_blocks l) = total l := by
  unfold merge_adjacent_blocks
  have hp := sort_by_address_perm l
  split
  · rename_i h
    rw [h] at hp
    rw [← total_perm hp]
  · rename_i b rest h
    rw [h] at hp
    rw [merge_sweep_total rest b (fun c hc => hw c (hp.subset hc)), total_perm hp]

theorem merge_adjacent_blocks_dvd (unit : Nat) (l : List Block)
    (hw : ∀ b ∈ l, b.1 + b.2 < WORD) (hd : ∀ b ∈ l, unit ∣ b.2) :
    ∀ o ∈ merge_adjacent_blocks l, unit ∣ o.2 := by
  unfold merge_adjacent_blocks
  have hp := sort_by_address_perm l
  split
  · intro o ho; cases ho
  · rename_i b rest h
    rw [h] at hp
    exact merge_sweep_dvd unit rest b (fun c hc => hw c (hp.subset hc))
      (fun c hc => hd c (hp.subset hc))

/-- In a consistent state the entry that `do_deallocate` erases for a recorded block is
that block. -/
theorem do_deallocate_allocated {s : FixedBlockMemoryResource} {p bytes : Nat} (al : Nat)
    (hi : Inv s) (hm : (p, bytes) ∈ s.allocated_blocks_) :
    ∃ pre post, s.allocated_blocks_ = pre ++ (p, bytes) :: post ∧
      (do_deallocate s p bytes al).allocated_blocks_ = pre ++ post := by
  have hhas : has_address p s.allocated_blocks_ = true :=
    has_address_iff.2 ⟨(p, bytes), hm, rfl⟩
  obtain ⟨pre, b, post, e1, e2, _, e4⟩ := erase_address_of_has hhas
  have hall_pos : ∀ b ∈ s.allocated_blocks_ ++ s.free_blocks_, 0 < b.2 :=
    fun b hb => (hi.block_ok b hb).1
  have hb_mem : b ∈ s.allocated_blocks_ := by rw [e1]; simp
  have hbeq : b = (p, bytes) := by
    by_contra hne
    have hd := disjoint_of_cover hall_pos hi.cover_le (List.mem_append_left _ hb_mem)
      (List.mem_append_left _ hm) hne
    have hp1 := hall_pos b (List.mem_append_left _ hb_mem)
    have hp2 := hall_pos _ (List.mem_append_left _ hm)
    unfold disjoint at hd
    simp only at hd hp2
    omega
  subst hbeq
  refine ⟨pre, post, e1, ?_⟩
  unfold do_deallocate
  rw [if_pos hhas, e4]

/-! ## Requests of one block size -/

theorem aligned_offset_one (offset : Nat) : aligned_offset offset 1 = offset := by
  simp [aligned_offset, Nat.mod_one]

/-- A request of the block size in a uniform consistent state succeeds when the live
bytes and the request fit in the capacity, and the state after it is uniform and
consistent again. -/
theorem uniform_allocate {unit : Nat} {s : FixedBlockMemoryResource} (hunit : 0 < unit)
    (hi : Inv s) (hu : Uniform unit s) (hlive : live_bytes s + unit ≤ s.size_) :
    (∃ q, (do_allocate s unit 1).1 = some q) ∧ Inv (do_allocate s unit 1).2 ∧
      Uniform unit (do_allocate s unit 1).2 := by
  have h0 := hi.buffer_pos
  have h1 := hi.buffer_end
  have h2 := hi.offset_le
  have hb := hu.bytes_eq
  unfold live_bytes at hlive
  cases hs : scan_free_blocks unit 1 s.free_blocks_ with
  | none =>
    have hfree : s.free_blocks_ = [] := by
      cases hf : s.free_blocks_ with
      | nil => rfl
      | cons blk rest =>
        have hmem : blk ∈ s.free_blocks_ := by rw [hf]; exact List.mem_cons_self _ _
        have hblk := hi.block_ok blk (List.mem_append_right _ hmem)
        have hle : unit ≤ blk.2 := Nat.le_of_dvd hblk.1 (hu.free_size blk hmem)
        have hfit : fits unit 1 blk = true := (fits_one (by omega) (by omega)).2 hle
        have := scan_free_blocks_none.1 hs blk hmem
        rw [hfit] at this
        cases this
    rw [hfree, total_nil] at hb
    have hw : wadd s.offset_ unit = s.offset_ + unit := wadd_eq (by omega)
    have hnf : ¬ s.size_ < wadd (aligned_offset s.offset_ 1) unit := by
      rw [aligned_offset_one, hw]; omega
    rw [do_allocate_of_scan_none hs, if_neg hnf]
    refine ⟨⟨_, rfl⟩, inv_bump hi hunit (by decide) (by omega)
      (by rw [aligned_offset_one]; omega) hnf, ?_⟩
    refine ⟨?_, ?_, ?_⟩
    · intro b hb2
      rcases List.mem_append.1 hb2 with hb2 | hb2
      · exact hu.live_size b hb2
      · simp only [List.mem_singleton] at hb2
        rw [hb2]
    · intro b hb2
      exact hu.free_size b hb2
    · show total (s.allocated_blocks_ ++ _) + total s.free_blocks_ = wadd _ unit
      rw [aligned_offset_one, hw, total_append, total_cons, total_nil, hfree, total_nil]
      simp only
      omega
  | some r =>
    obtain ⟨q, l2⟩ := r
    obtain ⟨hq, hinv⟩ := @inv_take _ _ _ _ _ 0 hi hunit rfl (by omega) (by omega) hs
    rw [do_allocate_of_scan_some hs hq]
    refine ⟨⟨q, rfl⟩, hinv, ?_⟩
    obtain ⟨pre, blk, post, e1, _, hfit, e2, e3⟩ := scan_free_blocks_some hs
    have hmem : blk ∈ s.free_blocks_ := by rw [e1]; simp
    have hblk := hi.block_ok blk (List.mem_append_right _ hmem)
    have hdvd := hu.free_size blk hmem
    have hle : unit ≤ blk.2 := (fits_one (by omega) (by omega)).1 hfit
    obtain ⟨_, _, hsplit⟩ := @split_rest_eq unit 1 0 blk rfl
      (by decide) (by omega) (by omega) (by omega) hfit
    rw [aligned_addr_one (by omega), if_neg (lt_irrefl _)] at hsplit
    have hst : total (split_rest unit 1 blk) = blk.2 - unit ∧
        ∀ c ∈ split_rest unit 1 blk, unit ∣ c.2 := by
      rw [hsplit]
      by_cases hlt : blk.1 + unit < blk.1 + blk.2
      · rw [if_pos hlt]
        constructor
        · simp only [List.nil_append, total_cons, total_nil]; omega
        · intro c hc
          simp only [List.nil_append, List.mem_singleton] at hc
          rw [hc]
          have : blk.1 + blk.2 - (blk.1 + unit) = blk.2 - unit := by omega
          simp only [this]
          exact Nat.dvd_sub' hdvd (dvd_refl _)
      · rw [if_neg hlt]
        constructor
        · simp only [List.nil_append, total_nil]; omega
        · intro c hc; cases hc
    refine ⟨?_, ?_, ?_⟩
    · intro b hb2
      rcases List.mem_append.1 hb2 with hb2 | hb2
      · exact hu.live_size b hb2
      · simp only [List.mem_singleton] at hb2
        rw [hb2]
    · intro b hb2
      simp only at hb2
      rw [e3] at hb2
      rcases List.mem_append.1 hb2 with hb2 | hb2
      · exact hu.free_size b (by rw [e1]; exact List.mem_append_left _ hb2)
      · rcases List.mem_append.1 hb2 with hb2 | hb2
        · exact hu.free_size b
            (by rw [e1]; exact List.mem_append_right _ (List.mem_cons_of_mem _ hb2))
        · exact hst.2 b hb2
    · show total (s.allocated_blocks_ ++ _) + total l2 = s.offset_
      rw [e1] at hb
      rw [e3]
      simp only [total_append, total_cons, total_nil, hst.1] at hb ⊢
      omega

/-- Freeing a recorded block keeps a consistent state uniform. -/
theorem uniform_deallocate {unit : Nat} {s : FixedBlockMemoryResource} {p bytes : Nat}
    (al : Nat) (hi : Inv s) (hu : Uniform unit s) (hm : (p, bytes) ∈ s.allocated_blocks_) :
    Uniform unit (do_deallocate s p bytes al) := by
  have h1 := hi.buffer_end
  have h2 := hi.offset_le
  have hb := hu.bytes_eq
  have hsz : bytes = unit := hu.live_size _ hm
  obtain ⟨pre, post, e1, e2⟩ := do_deallocate_allocated al hi hm
  obtain ⟨e3, _, _, _⟩ := do_deallocate_spec al hi hm
  have hw : ∀ c ∈ s.free_blocks_ ++ [(p, bytes)], c.1 + c.2 < WORD := by
    intro c hc
    rcases List.mem_append.1 hc with hc | hc
    · have := hi.block_ok c (List.mem_append_right _ hc); omega
    · simp only [List.mem_singleton] at hc
      subst hc
      have := hi.block_ok _ (List.mem_append_left _ hm); omega
  refine ⟨?_, ?_, ?_⟩
  · intro b hb2
    rw [e2] at hb2
    apply hu.live_size b
    rw [e1]
    rcases List.mem_append.1 hb2 with hb2 | hb2
    · exact List.mem_append_left _ hb2
    · exact List.mem_append_right _ (List.mem_cons_of_mem _ hb2)
  · rw [e3]
    apply merge_adjacent_blocks_dvd unit _ hw
    intro c hc
    rcases List.mem_append.1 hc with hc | hc
    · exact hu.free_size c hc
    · simp only [List.mem_singleton] at hc
      rw [hc, hsz]
  · rw [e2, e3, merge_adjacent_blocks_total _ hw, (do_deallocate_fields _ _ _ _).2.2]
    rw [e1] at hb
    simp only [total_append, total_cons, total_nil] at hb ⊢
    omega

theorem uniform_construct (unit buf cap : Nat) : Uniform unit (construct buf cap) := by
  refine ⟨?_, ?_, rfl⟩
  · intro b hb; simp [construct] at hb
  · intro b hb; simp [construct] at hb

theorem reachable_uniform {unit buf cap : Nat} {s : FixedBlockMemoryResource}
    (hunit : 0 < unit) (h : Reachable (uniform_request unit) buf cap s) :
    Inv s ∧ Uniform unit s := by
  induction h with
  | fresh h1 h2 => exact ⟨inv_construct h1 h2, uniform_construct unit buf cap⟩
  | allocate s bytes al _ hok ih =>
    obtain ⟨rfl, rfl, hlive⟩ := hok
    exact (uniform_allocate hunit ih.1 ih.2 hlive).2
  | deallocate s p bytes al _ hm ih =>
    exact ⟨inv_do_deallocate ih.1 hm, uniform_deallocate al ih.1 ih.2 hm⟩

/-! ## What the bump path does when nothing wraps -/

theorem aligned_offset_eq_round_up {offset al : Nat} (hpos : 0 < al)
    (hnw : offset + al ≤ WORD) : aligned_offset offset al = round_up offset al := by
  unfold aligned_offset round_up
  have hm := Nat.mod_lt offset hpos
  have hd := Nat.div_add_mod offset al
  by_cases h : offset % al = 0
  · rw [if_neg (by simpa using h)]
    have e : (offset + al - 1) / al = offset / al := by
      have : offset + al - 1 = (al - 1) + al * (offset / al) := by omega
      rw [this, Nat.add_mul_div_left _ _ hpos, Nat.div_eq_of_lt (by omega)]
      omega
    rw [e, Nat.mul_comm]
    omega
  · rw [if_pos h]
    have e1 : wsub al (offset % al) = al - offset % al := wsub_eq (by omega) (by omega)
    rw [e1, wadd_eq (by omega)]
    have e : (offset + al - 1) / al = offset / al + 1 := by
      have : offset + al - 1 = (offset % al - 1) + al * (offset / al + 1) := by
        rw [Nat.mul_add]; omega
      rw [this, Nat.add_mul_div_left _ _ hpos, Nat.div_eq_of_lt (by omega)]
      omega
    rw [e, Nat.add_mul, Nat.mul_comm]
    omega

/-- The bump path as the specification describes it, for requests that no free block
hosts and for which nothing wraps: the call throws exactly when the rounded-up offset
plus `bytes` exceeds the capacity, and otherwise returns `buffer + round_up offset`,
records the block and advances the offset behind it. -/
theorem bump_path_without_wrap (s : FixedBlockMemoryResource) (bytes al : Nat)
    (hscan : ∀ b ∈ s.free_blocks_, fits bytes al b = false) (hpos : 0 < al)
    (h1 : s.offset_ + al ≤ WORD) (h2 : round_up s.offset_ al + bytes < WORD)
    (h3 : s.buffer_ + round_up s.offset_ al < WORD) :
    do_allocate s bytes al =
      if s.size_ < round_up s.offset_ al + bytes then (none, s)
      else
        (some (s.buffer_ + round_up s.offset_ al),
          { s with
            allocated_blocks_ :=
              s.allocated_blocks_ ++ [(s.buffer_ + round_up s.offset_ al, bytes)],
            offset_ := round_up s.offset_ al + bytes }) := by
  rw [do_allocate_of_scan_none (scan_free_blocks_none.2 hscan),
    aligned_offset_eq_round_up hpos h1, wadd_eq h2, wadd_eq h3]

/-- In a consistent state a request larger than the capacity is refused when nothing
wraps. -/
theorem oversized_request_fails_without_wrap {s : FixedBlockMemoryResource} {bytes al : Nat}
    (hi : Inv s) (hv : valid_request s bytes al) (hbig : s.size_ < bytes) :
    (do_allocate s bytes al).1 = none := by
  obtain ⟨hb, ⟨k, hk⟩, hw1, hw2⟩ := hv
  have hpos : 0 < al := by rw [hk]; exact Nat.two_pow_pos k
  have h0 := hi.buffer_pos
  have h1 := hi.buffer_end
  have h2 := hi.offset_le
  have hscan : ∀ b ∈ s.free_blocks_, fits bytes al b = false := by
    intro b hb2
    have hblk := hi.block_ok b (List.mem_append_right _ hb2)
    obtain ⟨a1, a2, _⟩ := @aligned_addr_bounds b.1 al k hk (by omega) (by omega)
    unfold fits
    rw [@adjustment_eq b.1 al k hk (by omega) (by omega), wadd_eq (by omega)]
    simp only [decide_eq_false_iff_not, not_le]
    omega
  obtain ⟨a1, a2⟩ := aligned_offset_bounds hpos (by omega : s.offset_ + al ≤ WORD)
  rw [do_allocate_of_scan_none (scan_free_blocks_none.2 hscan), wadd_eq (by omega),
    if_pos (by omega)]

/-! ## The round trip when the returned address is aligned -/

theorem aligned_addr_le_of_dvd {b p al k : Nat} (hal : al = 2 ^ k) (hlt : al < WORD)
    (hnw : b + al ≤ WORD) (hbp : b ≤ p) (hdvd : al ∣ p) : aligned_addr b al ≤ p := by
  have hpos : 0 < al := by rw [hal]; exact Nat.two_pow_pos k
  rw [aligned_addr_eq hal hlt hnw]
  obtain ⟨m, rfl⟩ := hdvd
  apply Nat.mul_le_mul_left
  have : (b + al - 1) / al < m + 1 := by
    rw [Nat.div_lt_iff_lt_mul hpos, Nat.add_mul]
    have : al * m = m * al := Nat.mul_comm _ _
    omega
  omega

/-- The address that the bump path returns is a multiple of the alignment when the
buffer address is. -/
theorem aligned_offset_dvd {offset al : Nat} (hpos : 0 < al) (hnw : offset + al ≤ WORD) :
    al ∣ aligned_offset offset al := by
  rw [aligned_offset_eq_round_up hpos hnw]
  exact Dvd.intro_left _ rfl

/-- The round trip of C6 in a consistent state, for a request for which nothing wraps and
a buffer address that is a multiple of the requested alignment: after a successful
`allocate(bytes, alignment)` and the `deallocate` of its result, the next
`allocate(bytes, alignment)` succeeds. -/
theorem round_trip_when_buffer_aligned {s : FixedBlockMemoryResource} {bytes al p : Nat}
    (hi : Inv s) (hv : valid_request s bytes al) (hbuf : al ∣ s.buffer_)
    (hp : (do_allocate s bytes al).1 = some p) :
    ∃ q, (do_allocate (do_deallocate (do_allocate s bytes al).2 p bytes al) bytes al).1 =
      some q := by
  obtain ⟨hb, ⟨k, hk⟩, hw1, hw2⟩ := hv
  have hpos : 0 < al := by rw [hk]; exact Nat.two_pow_pos k
  have h0 := hi.buffer_pos
  have h1 := hi.buffer_end
  have h2 := hi.offset_le
  have hlt : al < WORD := by omega
  have hi1 : Inv (do_allocate s bytes al).2 := inv_do_allocate hi ⟨hb, ⟨k, hk⟩, hw1, hw2⟩
  obtain ⟨f1, f2⟩ := do_allocate_fields s bytes al
  -- the returned address is recorded and is a multiple of the alignment
  have hmem : (p, bytes) ∈ (do_allocate s bytes al).2.allocated_blocks_ := by
    rcases do_allocate_allocated s bytes al with ⟨q, e1, e2⟩ | ⟨e1, _⟩
    · rw [hp] at e1
      cases e1
      rw [e2]
      exact List.mem_append_right _ (List.mem_singleton_self _)
    · rw [hp] at e1; cases e1
  have hdvd : al ∣ p := by
    cases hs : scan_free_blocks bytes al s.free_blocks_ with
    | none =>
      rw [do_allocate_of_scan_none hs] at hp
      split_ifs at hp with hfit
      obtain ⟨a1, a2⟩ := aligned_offset_bounds hpos (by omega : s.offset_ + al ≤ WORD)
      rw [wadd_eq (by omega)] at hfit
      rw [wadd_eq (by omega)] at hp
      cases hp
      exact Nat.dvd_add hbuf (aligned_offset_dvd hpos (by omega))
    | some r =>
      obtain ⟨q, l2⟩ := r
      obtain ⟨hq, _⟩ := inv_take hi hb hk hw1 (by omega) hs
      rw [do_allocate_of_scan_some hs hq] at hp
      cases hp
      obtain ⟨_, blk, _, _, _, _, e2, _⟩ := scan_free_blocks_some hs
      rw [e2]
      exact aligned_addr_dvd _ _ k hk hlt
  -- after the deallocate a free block holds the freed range
  have hi2 : Inv (do_deallocate (do_allocate s bytes al).2 p bytes al) :=
    inv_do_deallocate hi1 hmem
  obtain ⟨_, _, hc, _⟩ := do_deallocate_spec al hi1 hmem
  obtain ⟨o, ho, o1, o2⟩ := hc (p, bytes) (List.mem_append_right _ (List.mem_singleton_self _))
  simp only at o1 o2
  have hblk := hi2.block_ok o (List.mem_append_right _ ho)
  obtain ⟨g1, g2, g3⟩ := do_deallocate_fields (do_allocate s bytes al).2 p bytes al
  rw [g1, f1, g3] at hblk
  have hoff := hi1.offset_le
  rw [f2] at hoff
  have hle := aligned_addr_le_of_dvd hk hlt (by omega : o.1 + al ≤ WORD) o1 hdvd
  obtain ⟨a1, a2, _⟩ := @aligned_addr_bounds o.1 al k hk hlt (by omega)
  have hfit : fits bytes al o = true := by
    unfold fits
    rw [@adjustment_eq o.1 al k hk hlt (by omega), wadd_eq (by omega)]
    simp only [decide_eq_true_eq]
    omega
  cases hs : scan_free_blocks bytes al
      (do_deallocate (do_allocate s bytes al).2 p bytes al).free_blocks_ with
  | none =>
    have := scan_free_blocks_none.1 hs o ho
    rw [hfit] at this
    cases this
  | some r =>
    obtain ⟨q, l2⟩ := r
    obtain ⟨hq, _⟩ := inv_take hi2 hb hk (by rw [g1, g2, f1, f2]; exact hw1) (by omega) hs
    rw [do_allocate_of_scan_some hs hq]
    exact ⟨q, rfl⟩

/-! ## Free blocks never align to the null pointer -/

theorem aligned_addr_eq_round_up {b al k : Nat} (hal : al = 2 ^ k) (hlt : al < WORD)
    (hnw : b + al ≤ WORD) : aligned_addr b al = round_up b al := by
  rw [aligned_addr_eq hal hlt hnw, round_up, Nat.mul_comm]

theorem fits_iff_without_wrap {bytes al k : Nat} {b : Block} (hal : al = 2 ^ k)
    (hlt : al < WORD) (hby : bytes + al ≤ WORD) (hnw : b.1 + al ≤ WORD) :
    fits bytes al b = true ↔ bytes + (round_up b.1 al - b.1) ≤ b.2 := by
  obtain ⟨h1, h2, _⟩ := aligned_addr_bounds hal hlt hnw
  unfold fits
  rw [adjustment_eq hal hlt hnw, wadd_eq (by omega), aligned_addr_eq_round_up hal hlt hnw]
  simp

/-- The first-fit step as the specification describes it, on a free list and for a request
for which nothing wraps. When the scan ends without a block, no block has room for
`bytes` behind its padding. When it returns `q`, the list splits around the first block
`blk` that has room; `q` is the start of `blk` rounded up to the alignment; and the new
list is the old one without `blk`, followed by the gap `[blk.1, q)` when it is not
empty and by the remainder `[q + bytes, blk.1 + blk.2)` when it is not empty. -/
theorem first_fit_without_wrap {bytes al k : Nat} {l : List Block} (hal : al = 2 ^ k)
    (hlt : al < WORD) (hby : bytes + al ≤ WORD)
    (hl : ∀ b ∈ l, b.1 + al ≤ WORD ∧ b.1 + b.2 < WORD) :
    (scan_free_blocks bytes al l = none →
      ∀ b ∈ l, b.2 < bytes + (round_up b.1 al - b.1)) ∧
    (∀ q l2, scan_free_blocks bytes al l = some (q, l2) →
      ∃ pre blk post, l = pre ++ blk :: post ∧
        (∀ b ∈ pre, b.2 < bytes + (round_up b.1 al - b.1)) ∧
        bytes + (round_up blk.1 al - blk.1) ≤ blk.2 ∧
        q = round_up blk.1 al ∧ blk.1 ≤ q ∧ q + bytes ≤ blk.1 + blk.2 ∧ al ∣ q ∧
        l2 = pre ++ post ++
          (if blk.1 < q then [(blk.1, q - blk.1)] else []) ++
          (if q + bytes < blk.1 + blk.2 then [(q + bytes, blk.1 + blk.2 - (q + bytes))]
           else [])) := by
  constructor
  · intro h b hb
    have hf := scan_free_blocks_none.1 h b hb
    have hiff := @fits_iff_without_wrap bytes al k b hal hlt hby (hl b hb).1
    rw [hf] at hiff
    by_contra hc
    exact Bool.false_ne_true (hiff.2 (by omega))
  · intro q l2 h
    obtain ⟨pre, blk, post, e1, hpre, hblk, e2, e3⟩ := scan_free_blocks_some h
    have hmem : blk ∈ l := by rw [e1]; simp
    obtain ⟨s1, s2, s3⟩ := split_rest_eq hal hlt (hl blk hmem).1 hby (hl blk hmem).2 hblk
    have er := aligned_addr_eq_round_up hal hlt (hl blk hmem).1
    refine ⟨pre, blk, post, e1, ?_, (fits_iff_without_wrap hal hlt hby (hl blk hmem).1).1 hblk,
      e2.trans er, by rw [e2]; exact s1, by rw [e2]; exact s2,
      by rw [e2]; exact aligned_addr_dvd _ _ k hal hlt, ?_⟩
    · intro b hb
      have hbl : b ∈ l := by rw [e1]; exact List.mem_append_left _ hb
      have hiff := @fits_iff_without_wrap bytes al k b hal hlt hby (hl b hbl).1
      rw [hpre b hb] at hiff
      by_contra hc
      exact Bool.false_ne_true (hiff.2 (by omega))
    · rw [e3, s3, e2]
      simp only [List.append_assoc]

/-! ## Byte accounting -/

/-- The blocks put back after a split have the size of the chosen block less the bytes
handed out. -/
theorem split_rest_total {bytes al k : Nat} {blk : Block} (hal : al = 2 ^ k) (hlt : al < WORD)
    (hnw : blk.1 + al ≤ WORD) (hby : bytes + al ≤ WORD) (hend : blk.1 + blk.2 < WORD)
    (hfit : fits bytes al blk = true) :
    total (split_rest bytes al blk) + bytes = blk.2 := by
  obtain ⟨h1, h2, h3⟩ := split_rest_eq hal hlt hnw hby hend hfit
  rw [h3, total_append]
  by_cases c1 : blk.1 < aligned_addr blk.1 al <;>
    by_cases c2 : aligned_addr blk.1 al + bytes < blk.1 + blk.2 <;>
    simp only [c1, c2, if_true, if_false, total_cons, total_nil] <;> omega

/-- One `do_allocate` call in a consistent state: the bump offset does not decrease, the
allocated and free bytes stay at or below it, and they keep their total when the offset
stays where it is. -/
theorem accounting_do_allocate {s : FixedBlockMemoryResource} {bytes al : Nat} (hi : Inv s)
    (hv : valid_request s bytes al)
    (hacc : total s.allocated_blocks_ + total s.free_blocks_ ≤ s.offset_) :
    s.offset_ ≤ (do_allocate s bytes al).2.offset_ ∧
    total (do_allocate s bytes al).2.allocated_blocks_ +
      total (do_allocate s bytes al).2.free_blocks_ ≤ (do_allocate s bytes al).2.offset_ ∧
    ((do_allocate s bytes al).2.offset_ = s.offset_ →
      total (do_allocate s bytes al).2.allocated_blocks_ +
        total (do_allocate s bytes al).2.free_blocks_ =
      total s.allocated_blocks_ + total s.free_blocks_) := by
  obtain ⟨hb, ⟨k, hk⟩, hw1, hw2⟩ := hv
  have hpos : 0 < al := by rw [hk]; exact Nat.two_pow_pos k
  have h0 := hi.buffer_pos
  have h1 := hi.buffer_end
  have h2 := hi.offset_le
  cases hs : scan_free_blocks bytes al s.free_blocks_ with
  | none =>
    rw [do_allocate_of_scan_none hs]
    obtain ⟨a1, a2⟩ := aligned_offset_bounds hpos (by omega : s.offset_ + al ≤ WORD)
    split_ifs with hfit
    · exact ⟨le_refl _, hacc, fun _ => rfl⟩
    · have hw : wadd (aligned_offset s.offset_ al) bytes = aligned_offset s.offset_ al + bytes :=
        wadd_eq (by omega)
      dsimp only
      rw [hw, total_append, total_cons, total_nil]
      dsimp only
      exact ⟨by omega, by omega, fun h => by omega⟩
  | some r =>
    obtain ⟨q, l2⟩ := r
    obtain ⟨hq, _⟩ := inv_take hi hb hk hw1 (by omega) hs
    rw [do_allocate_of_scan_some hs hq]
    obtain ⟨pre, blk, post, e1, _, hfit, e2, e3⟩ := scan_free_blocks_some hs
    have hmem : blk ∈ s.free_blocks_ := by rw [e1]; simp
    have hblk := hi.block_ok blk (List.mem_append_right _ hmem)
    have hst := @split_rest_total bytes al k blk hk (by omega) (by omega) (by omega)
      (by omega) hfit
    have e : total (s.allocated_blocks_ ++ [(q, bytes)]) + total l2 =
        total s.allocated_blocks_ + total s.free_blocks_ := by
      rw [e3, e1]
      simp only [total_append, total_cons, total_nil]
      omega
    dsimp only
    exact ⟨le_refl _, by omega, fun _ => e⟩

/-- One `do_deallocate` call of a recorded block in a consistent state keeps the bump
offset and the total of the allocated and free bytes. -/
theorem accounting_do_deallocate {s : FixedBlockMemoryResource} {p bytes : Nat} (al : Nat)
    (hi : Inv s) (hm : (p, bytes) ∈ s.allocated_blocks_) :
    total (do_deallocate s p bytes al).allocated_blocks_ +
      total (do_deallocate s p bytes al).free_blocks_ =
    total s.allocated_blocks_ + total s.free_blocks_ := by
  have h1 := hi.buffer_end
  have h2 := hi.offset_le
  obtain ⟨pre, post, e1, e2⟩ := do_deallocate_allocated al hi hm
  obtain ⟨e3, _, _, _⟩ := do_deallocate_spec al hi hm
  have hw : ∀ c ∈ s.free_blocks_ ++ [(p, bytes)], c.1 + c.2 < WORD := by
    intro c hc
    rcases List.mem_append.1 hc with hc | hc
    · have := hi.block_ok c (List.mem_append_right _ hc); omega
    · simp only [List.mem_singleton] at hc
      subst hc
      have := hi.block_ok _ (List.mem_append_left _ hm); omega
  rw [e2, e3, merge_adjacent_blocks_total _ hw, e1]
  simp only [total_append, total_cons, total_nil]
  omega

theorem reachable_accounting {buf cap : Nat} {s : FixedBlockMemoryResource}
    (h : Reachable valid_request buf cap s) :
    total s.allocated_blocks_ + total s.free_blocks_ ≤ s.offset_ := by
  induction h with
  | fresh _ _ => simp [construct, total]
  | allocate s bytes al hr hok ih => exact (accounting_do_allocate (reachable_inv hr) hok ih).2.1
  | deallocate s p bytes al hr hm ih =>
    rw [accounting_do_deallocate al (reachable_inv hr) hm, (do_deallocate_fields _ _ _ _).2.2]
    exact ih

/-! ## The stack: case analysis of `push`, `pop` and `top` -/

theorem push_of_none {T : Type} (L : Layout) (st : Stack) (w : World T) (v : T)
    (h : (do_allocate w.resource L.size L.align).1 = none) :
    st.push L w v =
      (Result.bad_alloc, st, { w with resource := (do_allocate w.resource L.size L.align).2 }) := by
  unfold Stack.push
  generalize do_allocate w.resource L.size L.align = x at h
  obtain ⟨a, r⟩ := x
  simp only at h
  subst h
  rfl

theorem push_of_some {T : Type} (L : Layout) (st : Stack) (w : World T) (v : T) {p : Nat}
    (h : (do_allocate w.resource L.size L.align).1 = some p) :
    st.push L w v =
      if p = 0 ∨ p % L.align ≠ 0 then
        (Result.undefined, st,
          { w with resource := (do_allocate w.resource L.size L.align).2 })
      else
        (Result.value (), { st with head_ := p },
          { resource := (do_allocate w.resource L.size L.align).2,
            memory := set_next (construct_at L w.memory p { data := v, next := 0 })
              p st.head_ }) := by
  unfold Stack.push
  generalize do_allocate w.resource L.size L.align = x at h
  obtain ⟨a, r⟩ := x
  simp only at h
  subst h
  rfl

/-- A `push` that returns normally was given a non-null, aligned address by the arena, and
leaves the new node, holding the value and pointing to the old head, at the head. -/
theorem push_value {T : Type} {L : Layout} {st : Stack} {w : World T} {v : T}
    (h : (st.push L w v).1 = Result.value ()) :
    ∃ p, (do_allocate w.resource L.size L.align).1 = some p ∧ p ≠ 0 ∧ p % L.align = 0 ∧
      st.push L w v =
        (Result.value (), { st with head_ := p },
          { resource := (do_allocate w.resource L.size L.align).2,
            memory := set_next (construct_at L w.memory p { data := v, next := 0 })
              p st.head_ }) := by
  cases hs : (do_allocate w.resource L.size L.align).1 with
  | none =>
    rw [push_of_none L st w v hs] at h
    cases h
  | some p =>
    rw [push_of_some L st w v hs] at h ⊢
    by_cases hc : p = 0 ∨ p % L.align ≠ 0
    · rw [if_pos hc] at h
      cases h
    · rw [if_neg hc]
      refine ⟨p, rfl, ?_, ?_, rfl⟩
      · exact fun h0 => hc (Or.inl h0)
      · by_contra h1
        exact hc (Or.inr h1)

theorem pop_of_empty {T : Type} (L : Layout) (st : Stack) (w : World T) (h : st.head_ = 0) :
    st.pop L w = (Result.value (), st, w) := by
  unfold Stack.pop
  rw [if_pos h]

theorem pop_of_node {T : Type} (L : Layout) (st : Stack) (w : World T) {n : Node T}
    (h0 : st.head_ ≠ 0) (h : w.memory st.head_ = some n) :
    st.pop L w =
      (Result.value (), { st with head_ := n.next },
        { resource := do_deallocate w.resource st.head_ L.size L.align,
          memory := destroy_at w.memory st.head_ }) := by
  unfold Stack.pop
  rw [if_neg h0, h]

theorem top_of_node {T : Type} (st : Stack) (w : World T) {n : Node T}
    (h0 : st.head_ ≠ 0) (h : w.memory st.head_ = some n) :
    st.top w = (Result.value n.data, st, w) := by
  unfold Stack.top
  rw [if_neg h0, h]

/-! ## The stack: chains of nodes -/

theorem chain_frame {T : Type} {m1 m2 : Nat → Option (Node T)} {p : Nat}
    {nodes : List (Nat × T)} (h : Chain m1 p nodes) (hm : ∀ n ∈ nodes, m2 n.1 = m1 n.1) :
    Chain m2 p nodes := by
  induction nodes generalizing p with
  | nil => exact h
  | cons n rest ih =>
    obtain ⟨h1, h2, nxt, h3, h4⟩ := h
    refine ⟨h1, h2, nxt, ?_, ih h4 (fun c hc => hm c (List.mem_cons_of_mem _ hc))⟩
    rw [h1, hm n (List.mem_cons_self _ _), ← h1]
    exact h3

/-- The address that a successful `do_allocate` returns in a consistent state is not null,
its block is appended to `allocated_blocks_`, and the block is disjoint from every block
recorded before. -/
theorem do_allocate_fresh {s : FixedBlockMemoryResource} {bytes al p : Nat} (hi : Inv s)
    (hv : valid_request s bytes al) (hp : (do_allocate s bytes al).1 = some p) :
    p ≠ 0 ∧
    (do_allocate s bytes al).2.allocated_blocks_ = s.allocated_blocks_ ++ [(p, bytes)] ∧
    ∀ b ∈ s.allocated_blocks_, disjoint b (p, bytes) := by
  have hi2 := inv_do_allocate hi hv
  rcases do_allocate_allocated s bytes al with ⟨q, e1, e2⟩ | ⟨e1, _⟩
  · rw [hp] at e1
    cases e1
    have hblk := hi2.block_ok (p, bytes)
      (List.mem_append_left _ (by rw [e2]; exact List.mem_append_right _ (List.mem_singleton_self _)))
    have h0 := hi2.buffer_pos
    refine ⟨by simp only at hblk; omega, e2, ?_⟩
    have hp2 := pairwise_disjoint_of_cover (fun b hb => (hi2.block_ok b hb).1) hi2.cover_le
    rw [e2] at hp2
    have hp3 := (List.pairwise_append.1 (List.pairwise_append.1 hp2).1).2.2
    intro b hb
    exact hp3 b hb (p, bytes) (List.mem_singleton_self _)
  · rw [hp] at e1; cases e1

/-! ## The stack: well-formed stacks are kept by `push` and `pop` -/

theorem stack_inv_construct {T : Type} (L : Layout) (mr : Nat) (w : World T)
    (hi : Inv w.resource) (hv : valid_request w.resource L.size L.align) :
    StackInv L (Stack.construct mr) w [] :=
  ⟨hi, hv, rfl, (fun n hn => by cases hn), List.nodup_nil⟩

theorem valid_request_of_fields {s1 s2 : FixedBlockMemoryResource} {bytes al : Nat}
    (h1 : s2.buffer_ = s1.buffer_) (h2 : s2.size_ = s1.size_) (hv : valid_request s1 bytes al) :
    valid_request s2 bytes al := by
  unfold valid_request at *
  rw [h1, h2]
  exact hv

/-- A `push` that returns normally on a well-formed stack puts a new node in front of the
nodes. -/
theorem push_spec {T : Type} {L : Layout} {st : Stack} {w : World T} {nodes : List (Nat × T)}
    {v : T} (hinv : StackInv L st w nodes) (h : (st.push L w v).1 = Result.value ()) :
    ∃ p, (do_allocate w.resource L.size L.align).1 = some p ∧ p % L.align = 0 ∧
      (st.push L w v).2.1 = { st with head_ := p } ∧
      (st.push L w v).2.2.resource = (do_allocate w.resource L.size L.align).2 ∧
      StackInv L (st.push L w v).2.1 (st.push L w v).2.2 ((p, v) :: nodes) := by
  obtain ⟨p, hp, hp0, hpa, e⟩ := push_value h
  obtain ⟨_, ealloc, hdis⟩ := do_allocate_fresh hinv.arena hinv.request hp
  obtain ⟨f1, f2⟩ := do_allocate_fields w.resource L.size L.align
  have hsz : 0 < L.size := hinv.request.1
  have hfresh : ∀ n ∈ nodes, n.1 + L.size ≤ p ∨ p + L.size ≤ n.1 := by
    intro n hn
    have := hdis _ (hinv.blocks n hn)
    unfold disjoint at this
    exact this
  rw [e]
  refine ⟨p, hp, hpa, rfl, rfl, ?_⟩
  refine ⟨inv_do_allocate hinv.arena hinv.request,
    valid_request_of_fields f1 f2 hinv.request, ?_, ?_, ?_⟩
  · refine ⟨rfl, hp0, st.head_, ?_, ?_⟩
    · simp [set_next, construct_at]
    · apply chain_frame hinv.chain
      intro n hn
      have := hfresh n hn
      have hne : n.1 ≠ p := by omega
      simp only [set_next, construct_at, if_neg hne]
      rw [if_neg (by omega)]
  · intro n hn
    rw [ealloc]
    rcases List.mem_cons.1 hn with rfl | hn
    · exact List.mem_append_right _ (List.mem_singleton_self _)
    · exact List.mem_append_left _ (hinv.blocks n hn)
  · rw [List.map_cons, List.nodup_cons]
    refine ⟨?_, hinv.nodup⟩
    intro hmem
    obtain ⟨n, hn, hnp⟩ := List.mem_map.1 hmem
    have := hfresh n hn
    simp only at hnp
    omega

/-- On a well-formed stack with a node, `top` returns the element of the first node and
`pop` returns normally, frees the first node and leaves the other nodes. -/
theorem pop_spec {T : Type} {L : Layout} {st : Stack} {w : World T} {n : Nat × T}
    {rest : List (Nat × T)} (hinv : StackInv L st w (n :: rest)) :
    st.head_ = n.1 ∧ st.head_ ≠ 0 ∧ st.top w = (Result.value n.2, st, w) ∧
    (st.pop L w).1 = Result.value () ∧
    (st.pop L w).2.2.resource = do_deallocate w.resource n.1 L.size L.align ∧
    StackInv L (st.pop L w).2.1 (st.pop L w).2.2 rest := by
  obtain ⟨h1, h2, nxt, h3, h4⟩ := hinv.chain
  have hm := hinv.blocks n (List.mem_cons_self _ _)
  have hnd := hinv.nodup
  rw [List.map_cons, List.nodup_cons] at hnd
  obtain ⟨g1, g2, _⟩ := do_deallocate_fields w.resource n.1 L.size L.align
  rw [pop_of_node L st w h2 h3, top_of_node st w h2 h3, h1]
  refine ⟨rfl, by rw [← h1]; exact h2, rfl, rfl, rfl, ?_⟩
  refine ⟨@inv_do_deallocate _ _ _ L.align hinv.arena hm,
    valid_request_of_fields g1 g2 hinv.request, ?_, ?_, hnd.2⟩
  · apply chain_frame h4
    intro c hc
    have hne : c.1 ≠ n.1 := by
      intro heq
      exact hnd.1 (List.mem_map.2 ⟨c, hc, heq⟩)
    simp only [destroy_at, if_neg hne]
  · intro c hc
    have hne : c.1 ≠ n.1 := by
      intro heq
      exact hnd.1 (List.mem_map.2 ⟨c, hc, heq⟩)
    exact (do_deallocate_spec L.align hinv.arena hm).2.2.2 _
      (hinv.blocks c (List.mem_cons_of_mem _ hc)) hne

/-- A well-formed stack without nodes is empty, and one with nodes is not. -/
theorem empty_iff_nodes {T : Type} {L : Layout} {st : Stack} {w : World T}
    {nodes : List (Nat × T)} (hinv : StackInv L st w nodes) :
    st.empty = true ↔ nodes = [] := by
  unfold Stack.empty
  cases nodes with
  | nil =>
    have : st.head_ = 0 := hinv.chain
    simp [this]
  | cons n rest =>
    obtain ⟨_, h2, _⟩ := hinv.chain
    simp [h2]

/-! ## The stack: one step of a call sequence -/

theorem run_push {T : Type} (L : Layout) (v : T) (ops : List (StackOp T)) (st : Stack)
    (w : World T) :
    Stack.run L (StackOp.push v :: ops) st w =
      if (st.push L w v).1 = Result.value () then
        Stack.run L ops (st.push L w v).2.1 (st.push L w v).2.2
      else st.push L w v := by
  rw [Stack.run]
  generalize st.push L w v = x
  obtain ⟨r, st2, w2⟩ := x
  cases r <;> simp

theorem run_pop {T : Type} (L : Layout) (ops : List (StackOp T)) (st : Stack) (w : World T) :
    Stack.run L (StackOp.pop :: ops) st w =
      if (st.pop L w).1 = Result.value () then
        Stack.run L ops (st.pop L w).2.1 (st.pop L w).2.2
      else st.pop L w := by
  rw [Stack.run]
  generalize st.pop L w = x
  obtain ⟨r, st2, w2⟩ := x
  cases r <;> simp

theorem push_all_cons {T : Type} (L : Layout) (v : T) (vs : List T) (st : Stack) (w : World T) :
    Stack.push_all L (v :: vs) st w =
      if (st.push L w v).1 = Result.value () then
        Stack.push_all L vs (st.push L w v).2.1 (st.push L w v).2.2
      else st.push L w v := by
  rw [Stack.push_all]
  generalize st.push L w v = x
  obtain ⟨r, st2, w2⟩ := x
  cases r <;> simp

theorem pop_n_succ {T : Type} (L : Layout) (k : Nat) (st : Stack) (w : World T) :
    Stack.pop_n L (k + 1) st w =
      if (st.pop L w).1 = Result.value () then
        Stack.pop_n L k (st.pop L w).2.1 (st.pop L w).2.2
      else st.pop L w := by
  rw [Stack.pop_n]
  generalize st.pop L w = x
  obtain ⟨r, st2, w2⟩ := x
  cases r <;> simp

/-- The sequence `push(v1)`, ..., `push(vn)` is the call sequence of these `push` calls. -/
theorem push_all_eq_run {T : Type} (L : Layout) (vs : List T) (st : Stack) (w : World T) :
    Stack.push_all L vs st w = Stack.run L (vs.map StackOp.push) st w := by
  induction vs generalizing st w with
  | nil => rfl
  | cons v vs ih =>
    rw [List.map_cons, push_all_cons, run_push]
    split_ifs
    · exact ih _ _
    · rfl

theorem elements_after_push {T : Type} (vs l : List T) :
    elements_after (vs.map StackOp.push) l = vs.reverse ++ l := by
  induction vs generalizing l with
  | nil => rfl
  | cons v vs ih =>
    rw [List.map_cons, elements_after, ih, List.reverse_cons, List.append_assoc]
    rfl

/-! ## The stack: call sequences on a well-formed stack -/

/-- On a well-formed stack `pop` returns normally and leaves the nodes after the first;
on an empty stack it leaves everything as it is. -/
theorem pop_inv {T : Type} {L : Layout} {st : Stack} {w : World T} {nodes : List (Nat × T)}
    (hinv : StackInv L st w nodes) :
    (st.pop L w).1 = Result.value () ∧
    StackInv L (st.pop L w).2.1 (st.pop L w).2.2 nodes.tail := by
  cases nodes with
  | nil =>
    have h0 : st.head_ = 0 := hinv.chain
    rw [pop_of_empty L st w h0]
    exact ⟨rfl, hinv⟩
  | cons n rest =>
    obtain ⟨_, _, _, h1, _, h2⟩ := pop_spec hinv
    exact ⟨h1, h2⟩

/-- A call sequence that returns normally on a well-formed stack leaves a well-formed stack
whose elements, from the head down, are those of the list model `elements_after`. -/
theorem run_spec {T : Type} {L : Layout} (ops : List (StackOp T)) {st : Stack} {w : World T}
    {nodes : List (Nat × T)} (hinv : StackInv L st w nodes)
    (h : (Stack.run L ops st w).1 = Result.value ()) :
    ∃ nodes2, StackInv L (Stack.run L ops st w).2.1 (Stack.run L ops st w).2.2 nodes2 ∧
      nodes2.map Prod.snd = elements_after ops (nodes.map Prod.snd) := by
  induction ops generalizing st w nodes with
  | nil => exact ⟨nodes, hinv, rfl⟩
  | cons op ops ih =>
    cases op with
    | push v =>
      rw [run_push] at h ⊢
      by_cases hp : (st.push L w v).1 = Result.value ()
      · rw [if_pos hp] at h ⊢
        obtain ⟨p, _, _, _, _, hinv2⟩ := push_spec hinv hp
        obtain ⟨nodes2, h1, h2⟩ := ih hinv2 h
        exact ⟨nodes2, h1, h2⟩
      · rw [if_neg hp] at h
        exact absurd h hp
    | pop =>
      obtain ⟨hp, hinv2⟩ := pop_inv hinv
      rw [run_pop, if_pos hp] at h ⊢
      obtain ⟨nodes2, h1, h2⟩ := ih hinv2 h
      refine ⟨nodes2, h1, ?_⟩
      rw [h2, elements_after, List.map_tail]

/-- The `top()` and `pop()` calls made in turn on a well-formed stack, once for each node:
all return normally, the `top()` calls return the elements from the head down, and the
stack is empty afterwards. -/
theorem top_pop_n_spec {T : Type} {L : Layout} {st : Stack} {w : World T}
    {nodes : List (Nat × T)} (hinv : StackInv L st w nodes) :
    (Stack.top_pop_n L nodes.length st w).1 = Result.value (nodes.map Prod.snd) ∧
    StackInv L (Stack.top_pop_n L nodes.length st w).2.1
      (Stack.top_pop_n L nodes.length st w).2.2 [] := by
  induction nodes generalizing st w with
  | nil => exact ⟨rfl, hinv⟩
  | cons n rest ih =>
    obtain ⟨_, _, ht, hp, _, hinv2⟩ := pop_spec hinv
    obtain ⟨h1, h2⟩ := ih hinv2
    rw [List.length_cons, Stack.top_pop_n, ht]
    dsimp only
    generalize st.pop L w = x at hp hinv2 h1 h2
    obtain ⟨r, st2, w2⟩ := x
    dsimp only at hp hinv2 h1 h2
    subst hp
    dsimp only
    generalize Stack.top_pop_n L rest.length st2 w2 = y at h1 h2
    obtain ⟨r3, st3, w3⟩ := y
    dsimp only at h1 h2
    subst h1
    exact ⟨rfl, h2⟩

/-- The loop from `begin()` to `end()` over a chain of nodes, given more evaluations of its
condition than there are nodes, returns the elements of the nodes in the order of the
chain. -/
theorem iterate_chain {T : Type} {w : World T} {p : Nat} {nodes : List (Nat × T)}
    (h : Chain w.memory p nodes) (fuel : Nat) (hf : nodes.length < fuel) :
    iterate w { current_ := 0 } fuel { current_ := p } = Result.value (nodes.map Prod.snd) := by
  induction nodes generalizing p fuel with
  | nil =>
    have h0 : p = 0 := h
    subst h0
    cases fuel with
    | zero => simp at hf
    | succ f => simp [iterate]
  | cons n rest ih =>
    obtain ⟨h1, h2, nxt, h3, h4⟩ := h
    cases fuel with
    | zero => simp at hf
    | succ f =>
      have hne : ({ current_ := p } : Iterator) ≠ { current_ := 0 } := by
        intro he
        exact h2 (congrArg Iterator.current_ he)
      rw [iterate, if_neg hne]
      simp only [Iterator.deref, Iterator.incr, h3]
      rw [ih h4 f (by simpa using hf)]
      rfl

/-- The destructor of a well-formed stack, given at least as many runs of its loop as
there are nodes: it returns, the stack is empty, and the arena has seen the `deallocate`
calls for the nodes from the head down. -/
theorem destroy_spec {T : Type} {L : Layout} {st : Stack} {w : World T}
    {nodes : List (Nat × T)} (hinv : StackInv L st w nodes) (fuel : Nat)
    (hf : nodes.length ≤ fuel) :
    (Stack.destroy L fuel st w).1 = Result.value () ∧
    (Stack.destroy L fuel st w).2.2.resource =
      nodes.foldl (fun r n => do_deallocate r n.1 L.size L.align) w.resource ∧
    StackInv L (Stack.destroy L fuel st w).2.1 (Stack.destroy L fuel st w).2.2 [] := by
  induction nodes generalizing st w fuel with
  | nil =>
    have h0 : st.empty = true := (empty_iff_nodes hinv).2 rfl
    cases fuel with
    | zero => rw [Stack.destroy, if_pos h0]; exact ⟨rfl, rfl, hinv⟩
    | succ f => rw [Stack.destroy, if_pos h0]; exact ⟨rfl, rfl, hinv⟩
  | cons n rest ih =>
    have h0 : ¬ st.empty = true := fun he => by
      have := (empty_iff_nodes hinv).1 he
      cases this
    cases fuel with
    | zero => simp at hf
    | succ f =>
      obtain ⟨_, _, _, hp, hr, hinv2⟩ := pop_spec hinv
      obtain ⟨h1, h2, h3⟩ := ih hinv2 f (by simpa using hf)
      rw [Stack.destroy, if_neg h0]
      generalize st.pop L w = x at hp hr hinv2 h1 h2 h3
      obtain ⟨r, st2, w2⟩ := x
      dsimp only at hp hr hinv2 h1 h2 h3
      subst hp
      dsimp only
      refine ⟨h1, ?_, h3⟩
      rw [h2, hr, List.foldl_cons]

/-! ## A failed allocation in a consistent state -/

/-- In a consistent state no two entries of `allocated_blocks_` have the same address. -/
theorem allocated_addresses_nodup {s : FixedBlockMemoryResource} (hi : Inv s) :
    (s.allocated_blocks_.map Prod.fst).Nodup := by
  have hp := pairwise_disjoint_of_cover (fun b hb => (hi.block_ok b hb).1) hi.cover_le
  have hp2 := (List.pairwise_append.1 hp).1
  unfold List.Nodup
  rw [List.pairwise_map]
  have hpos : ∀ b ∈ s.allocated_blocks_, 0 < b.2 := fun b hb =>
    (hi.block_ok b (List.mem_append_left _ hb)).1
  clear hp
  generalize s.allocated_blocks_ = l at hp2 hpos
  induction l with
  | nil => exact List.Pairwise.nil
  | cons a rest ih =>
    rw [List.pairwise_cons] at hp2 ⊢
    refine ⟨?_, ih hp2.2 (fun b hb => hpos b (List.mem_cons_of_mem _ hb))⟩
    intro b hb heq
    have h1 := hp2.1 b hb
    have h2 := hpos a (List.mem_cons_self _ _)
    have h3 := hpos b (List.mem_cons_of_mem _ hb)
    unfold disjoint at h1
    omega

theorem erase_address_no_address {p : Nat} {l : List Block} (h : (l.map Prod.fst).Nodup) :
    ∀ b ∈ erase_address p l, b.1 ≠ p := by
  induction l with
  | nil => intro b hb; cases hb
  | cons c rest ih =>
    rw [List.map_cons, List.nodup_cons] at h
    intro b hb
    unfold erase_address at hb
    split_ifs at hb with hc
    · intro hbp
      exact h.1 (List.mem_map.2 ⟨b, hb, hbp.trans hc.symm⟩)
    · rcases List.mem_cons.1 hb with rfl | hb
      · exact hc
      · exact ih h.2 b hb

/-- After `do_deallocate` of a recorded block in a consistent state, `allocated_blocks_`
has no entry with the address of the block, and no entry that it did not have before. -/
theorem do_deallocate_addresses {s : FixedBlockMemoryResource} {p bytes : Nat} (al : Nat)
    (hi : Inv s) :
    ∀ b ∈ (do_deallocate s p bytes al).allocated_blocks_,
      b ∈ s.allocated_blocks_ ∧ (has_address p s.allocated_blocks_ = true → b.1 ≠ p) := by
  intro b hb
  unfold do_deallocate at hb
  split_ifs at hb with hh
  · exact ⟨erase_address_subset p _ b hb,
      fun _ => erase_address_no_address (allocated_addresses_nodup hi) b hb⟩
  · exact ⟨hb, fun h => absurd h hh⟩

/-- The `deallocate` calls for the nodes of a well-formed stack, from the head down, leave
no entry of `allocated_blocks_` with the address of a node, and no new entry. -/
theorem deallocate_nodes_addresses {T : Type} {L : Layout} {st : Stack} {w : World T}
    {nodes : List (Nat × T)} (hinv : StackInv L st w nodes) :
    ∀ b ∈ (nodes.foldl (fun r n => do_deallocate r n.1 L.size L.align)
        w.resource).allocated_blocks_,
      b ∈ w.resource.allocated_blocks_ ∧ ∀ n ∈ nodes, b.1 ≠ n.1 := by
  induction nodes generalizing st w with
  | nil => exact fun b hb => ⟨hb, fun n hn => by cases hn⟩
  | cons n rest ih =>
    obtain ⟨_, _, _, _, hr, hinv2⟩ := pop_spec hinv
    intro b hb
    rw [List.foldl_cons, ← hr] at hb
    obtain ⟨h1, h2⟩ := ih hinv2 b hb
    rw [hr] at h1
    obtain ⟨h3, h4⟩ := do_deallocate_addresses L.align hinv.arena b h1
    refine ⟨h3, ?_⟩
    intro c hc
    rcases List.mem_cons.1 hc with rfl | hc
    · exact h4 (has_address_iff.2 ⟨_, hinv.blocks c (List.mem_cons_self _ _), rfl⟩)
    · exact h2 c hc

/-! ## A concrete well-formed stack -/

/-- The stack `two_pushed` is well formed: its nodes are the node of 2 at 4112 and the node
of 1 at 4096. -/
theorem two_pushed_inv :
    StackInv int_node two_pushed.2.1 two_pushed.2.2 [(4112, 2), (4096, 1)] := by
  have e : two_pushed.2.2.resource =
      (do_allocate (do_allocate (construct 4096 1024) 16 8).2 16 8).2 := by decide
  refine ⟨?_, ⟨by decide, ⟨3, rfl⟩, by decide, by decide⟩, ?_, ?_, by decide⟩
  · rw [e]
    exact inv_do_allocate
      (inv_do_allocate (inv_construct (by decide) (by decide))
        ⟨by decide, ⟨3, rfl⟩, by decide, by decide⟩)
      ⟨by decide, ⟨3, rfl⟩, by decide, by decide⟩
  · exact ⟨rfl, by decide, 4096, rfl, rfl, by decide, 0, rfl, rfl⟩
  · intro n hn
    simp only [List.mem_cons, List.mem_singleton, List.not_mem_nil, or_false] at hn
    rcases hn with rfl | rfl <;> decide

/-! ## The arena of a stack that is its only client -/

theorem round_up_of_dvd {q al : Nat} (hpos : 0 < al) (h : al ∣ q) : round_up q al = q := by
  obtain ⟨m, rfl⟩ := h
  unfold round_up
  have e : al * m + al - 1 = (al - 1) + al * m := by omega
  rw [e, Nat.add_mul_div_left _ _ hpos, Nat.div_eq_of_lt (by omega), Nat.zero_add,
    Nat.mul_comm]

theorem packed_construct (L : Layout) (buf cap : Nat) :
    Packed L buf cap 0 0 (construct buf cap) :=
  ⟨rfl, rfl, by simp [construct], rfl, rfl⟩

/-- A request for a node in the arena of a stack that is its only client: it is given the
slot behind the live nodes, from the free block when there is one and from the bump
space otherwise. -/
theorem packed_allocate {L : Layout} {buf cap a c k : Nat} {s : FixedBlockMemoryResource}
    (hp : Packed L buf cap a c s) (hsz : 0 < L.size) (hal : L.align = 2 ^ k)
    (hdiv : L.align ∣ L.size) (hb0 : 0 < buf) (hbuf : L.align ∣ buf)
    (hw : buf + cap + L.align + L.size ≤ WORD) (hle : (a + c) * L.size ≤ cap)
    (hroom : c = 0 → (a + 1) * L.size ≤ cap) :
    (do_allocate s L.size L.align).1 = some (buf + a * L.size) ∧
    Packed L buf cap (a + 1) (c - 1) (do_allocate s L.size L.align).2 := by
  obtain ⟨e1, e2, e3, e4, e5⟩ := hp
  have hpos : 0 < L.align := by rw [hal]; exact Nat.two_pow_pos k
  have hmul : (a + 1) * L.size = a * L.size + L.size := by rw [Nat.add_mul, Nat.one_mul]
  have hmul2 : (a + c) * L.size = a * L.size + c * L.size := Nat.add_mul _ _ _
  have hrange : (List.range (a + 1)).map (fun i => (buf + i * L.size, L.size)) =
      (List.range a).map (fun i => (buf + i * L.size, L.size)) ++
        [(buf + a * L.size, L.size)] := by
    rw [List.range_succ, List.map_append]
    rfl
  by_cases hc : c = 0
  · subst hc
    have hr := hroom rfl
    rw [if_pos rfl] at e5
    have hs : scan_free_blocks L.size L.align s.free_blocks_ = none := by rw [e5]; rfl
    have hao : aligned_offset s.offset_ L.align = a * L.size := by
      unfold aligned_offset
      rw [e3, Nat.add_zero]
      have : a * L.size % L.align = 0 := Nat.mod_eq_zero_of_dvd (Dvd.dvd.mul_left hdiv a)
      rw [if_neg (by simpa using this)]
    rw [do_allocate_of_scan_none hs, hao, e1, e2, wadd_eq (by omega), wadd_eq (by omega),
      if_neg (by omega)]
    refine ⟨rfl, rfl, rfl, ?_, ?_, ?_⟩
    · exact hmul.symm
    · show s.allocated_blocks_ ++ [(buf + a * L.size, L.size)] = _
      rw [hrange, e4]
    · exact e5
  · rw [if_neg hc] at e5
    have hq : L.align ∣ buf + a * L.size := Dvd.dvd.add hbuf (Dvd.dvd.mul_left hdiv a)
    have hlt : L.align < WORD := by omega
    have hcs : L.size ≤ c * L.size := Nat.le_mul_of_pos_left _ (Nat.pos_of_ne_zero hc)
    have hnw : (buf + a * L.size, c * L.size).1 + L.align ≤ WORD := by
      show buf + a * L.size + L.align ≤ WORD
      omega
    have hend : (buf + a * L.size, c * L.size).1 + (buf + a * L.size, c * L.size).2 < WORD := by
      show buf + a * L.size + c * L.size < WORD
      omega
    have har : aligned_addr (buf + a * L.size) L.align = buf + a * L.size := by
      rw [aligned_addr_eq_round_up hal hlt hnw, round_up_of_dvd hpos hq]
    have hfit : fits L.size L.align (buf + a * L.size, c * L.size) = true := by
      rw [fits_iff_without_wrap hal hlt (by omega) hnw]
      show L.size + (round_up (buf + a * L.size) L.align - (buf + a * L.size)) ≤ c * L.size
      rw [round_up_of_dvd hpos hq]
      omega
    obtain ⟨_, _, hsr⟩ := split_rest_eq hal hlt hnw (by omega) hend hfit
    have hs : scan_free_blocks L.size L.align s.free_blocks_ =
        some (buf + a * L.size,
          split_rest L.size L.align (buf + a * L.size, c * L.size)) := by
      rw [e5, scan_free_blocks, if_pos hfit, har]
      rfl
    rw [do_allocate_of_scan_some hs (by omega)]
    refine ⟨rfl, e1, e2, ?_, ?_, ?_⟩
    · show s.offset_ = (a + 1 + (c - 1)) * L.size
      rw [e3]
      congr 1
      omega
    · show s.allocated_blocks_ ++ [(buf + a * L.size, L.size)] = _
      rw [hrange, e4]
    · show split_rest L.size L.align (buf + a * L.size, c * L.size) = _
      rw [hsr]
      dsimp only
      rw [har, if_neg (lt_irrefl _), List.nil_append]
      by_cases h1 : c = 1
      · subst h1
        simp
      · have h2 : 2 * L.size ≤ c * L.size := Nat.mul_le_mul_right _ (by omega)
        have h3 : (c - 1) * L.size = c * L.size - L.size := by rw [Nat.sub_mul, Nat.one_mul]
        rw [if_pos (by omega), if_neg (by omega), hmul, h3]
        congr 2 <;> omega

theorem erase_address_last {p bytes : Nat} {l : List Block} (h : ∀ b ∈ l, b.1 ≠ p) :
    erase_address p (l ++ [(p, bytes)]) = l := by
  induction l with
  | nil => simp [erase_address]
  | cons c rest ih =>
    have hc := h c (List.mem_cons_self _ _)
    rw [List.cons_append, erase_address, if_neg hc,
      ih (fun b hb => h b (List.mem_cons_of_mem _ hb))]

/-- The `deallocate` call for the last node in the arena of a stack that is its only
client: the slot of the node joins the free block behind it. -/
theorem packed_deallocate {L : Layout} {buf cap a c : Nat} {s : FixedBlockMemoryResource}
    (hp : Packed L buf cap (a + 1) c s) (hsz : 0 < L.size)
    (hw : buf + cap + L.align + L.size ≤ WORD) (hle : (a + 1 + c) * L.size ≤ cap) :
    Packed L buf cap a (c + 1) (do_deallocate s (buf + a * L.size) L.size L.align) := by
  obtain ⟨e1, e2, e3, e4, e5⟩ := hp
  have hmul : (a + 1) * L.size = a * L.size + L.size := by rw [Nat.add_mul, Nat.one_mul]
  have hmul2 : (a + 1 + c) * L.size = (a + 1) * L.size + c * L.size := Nat.add_mul _ _ _
  have hmul3 : (c + 1) * L.size = c * L.size + L.size := by rw [Nat.add_mul, Nat.one_mul]
  have hrange : (List.range (a + 1)).map (fun i => (buf + i * L.size, L.size)) =
      (List.range a).map (fun i => (buf + i * L.size, L.size)) ++
        [(buf + a * L.size, L.size)] := by
    rw [List.range_succ, List.map_append]
    rfl
  rw [hrange] at e4
  have hlow : ∀ b ∈ (List.range a).map (fun i => (buf + i * L.size, L.size)),
      b.1 ≠ buf + a * L.size := by
    intro b hb
    obtain ⟨i, hi, rfl⟩ := List.mem_map.1 hb
    have hia : i < a := List.mem_range.1 hi
    have : i * L.size < a * L.size := Nat.mul_lt_mul_of_pos_right hia hsz
    show buf + i * L.size ≠ buf + a * L.size
    omega
  have hhas : has_address (buf + a * L.size) s.allocated_blocks_ = true :=
    has_address_iff.2 ⟨(buf + a * L.size, L.size), by rw [e4]; simp, rfl⟩
  unfold do_deallocate
  rw [if_pos hhas]
  refine ⟨e1, e2, ?_, ?_, ?_⟩
  · show s.offset_ = (a + (c + 1)) * L.size
    rw [e3]
    congr 1
    omega
  · show erase_address (buf + a * L.size) s.allocated_blocks_ = _
    rw [e4, erase_address_last hlow]
  · show merge_adjacent_blocks (s.free_blocks_ ++ [(buf + a * L.size, L.size)]) = _
    rw [e5, if_neg (Nat.succ_ne_zero c)]
    by_cases hc : c = 0
    · subst hc
      simp [merge_adjacent_blocks, sort_by_address, insert_by_address, merge_sweep]
    · have hcs : L.size ≤ c * L.size := Nat.le_mul_of_pos_left _ (Nat.pos_of_ne_zero hc)
      have h1 : buf + a * L.size < buf + (a + 1) * L.size := by omega
      have h2 : wadd (buf + a * L.size) L.size = buf + (a + 1) * L.size := by
        rw [wadd_eq (by omega), hmul]
        omega
      have h3 : wadd L.size (c * L.size) = (c + 1) * L.size := by
        rw [wadd_eq (by omega), hmul3]
        omega
      rw [if_neg hc]
      simp only [merge_adjacent_blocks, sort_by_address, insert_by_address, merge_sweep,
        List.singleton_append, if_pos h1, if_pos h2, h3]

/-! ## A stack that is the only client of its arena -/

theorem run_append {T : Type} (L : Layout) (o1 o2 : List (StackOp T)) (st : Stack)
    (w : World T) :
    Stack.run L (o1 ++ o2) st w =
      if (Stack.run L o1 st w).1 = Result.value () then
        Stack.run L o2 (Stack.run L o1 st w).2.1 (Stack.run L o1 st w).2.2
      else Stack.run L o1 st w := by
  induction o1 generalizing st w with
  | nil => simp [Stack.run]
  | cons op ops ih =>
    cases op with
    | push v =>
      rw [List.cons_append, run_push, run_push]
      by_cases hp : (st.push L w v).1 = Result.value ()
      · rw [if_pos hp, if_pos hp, ih]
      · rw [if_neg hp, if_neg hp, if_neg hp]
    | pop =>
      rw [List.cons_append, run_pop, run_pop]
      by_cases hp : (st.pop L w).1 = Result.value ()
      · rw [if_pos hp, if_pos hp, ih]
      · rw [if_neg hp, if_neg hp, if_neg hp]

/-- A `push` on a stack that is the only client of its arena, with room for the node: it
returns normally and the new node is in the slot behind the other nodes. -/
theorem push_packed {T : Type} {L : Layout} {buf cap a c k : Nat} {st : Stack} {w : World T}
    {nodes : List (Nat × T)} (v : T) (hinv : StackInv L st w nodes)
    (hn : nodes.map Prod.fst = slots_down L buf a) (hp : Packed L buf cap a c w.resource)
    (hal : L.align = 2 ^ k) (hdiv : L.align ∣ L.size) (hb0 : 0 < buf) (hbuf : L.align ∣ buf)
    (hw : buf + cap + L.align + L.size ≤ WORD) (hroom : c = 0 → (a + 1) * L.size ≤ cap) :
    (st.push L w v).1 = Result.value () ∧
    ∃ nodes2, StackInv L (st.push L w v).2.1 (st.push L w v).2.2 nodes2 ∧
      nodes2.map Prod.fst = slots_down L buf (a + 1) ∧
      Packed L buf cap (a + 1) (c - 1) (st.push L w v).2.2.resource := by
  have hsz : 0 < L.size := hinv.request.1
  have hle : (a + c) * L.size ≤ cap := by
    have := hinv.arena.offset_le
    rw [hp.offset, hp.size] at this
    exact this
  obtain ⟨ha, hp2⟩ := packed_allocate hp hsz hal hdiv hb0 hbuf hw hle hroom
  have hq : L.align ∣ buf + a * L.size := Dvd.dvd.add hbuf (Dvd.dvd.mul_left hdiv a)
  have hval : (st.push L w v).1 = Result.value () := by
    rw [push_of_some L st w v ha, if_neg]
    intro hor
    rcases hor with h0 | h1
    · omega
    · exact h1 (Nat.mod_eq_zero_of_dvd hq)
  obtain ⟨p, hp3, _, _, hres, hinv2⟩ := push_spec hinv hval
  rw [ha] at hp3
  cases hp3
  refine ⟨hval, _, hinv2, ?_, ?_⟩
  · rw [List.map_cons, hn]
    rfl
  · rw [hres]
    exact hp2

/-- A `pop` on a stack with a node that is the only client of its arena: it returns
normally and frees the last slot in use. -/
theorem pop_packed {T : Type} {L : Layout} {buf cap a c : Nat} {st : Stack} {w : World T}
    {nodes : List (Nat × T)} (hinv : StackInv L st w nodes)
    (hn : nodes.map Prod.fst = slots_down L buf (a + 1))
    (hp : Packed L buf cap (a + 1) c w.resource)
    (hw : buf + cap + L.align + L.size ≤ WORD) :
    (st.pop L w).1 = Result.value () ∧
    ∃ nodes2, StackInv L (st.pop L w).2.1 (st.pop L w).2.2 nodes2 ∧
      nodes2.map Prod.fst = slots_down L buf a ∧
      Packed L buf cap a (c + 1) (st.pop L w).2.2.resource := by
  have hsz : 0 < L.size := hinv.request.1
  have hle : (a + 1 + c) * L.size ≤ cap := by
    have := hinv.arena.offset_le
    rw [hp.offset, hp.size] at this
    exact this
  cases nodes with
  | nil => cases hn
  | cons n rest =>
    rw [List.map_cons, slots_down] at hn
    injection hn with hn1 hn2
    obtain ⟨_, _, _, hv, hr, hinv2⟩ := pop_spec hinv
    refine ⟨hv, rest, hinv2, hn2, ?_⟩
    rw [hr, hn1]
    exact packed_deallocate hp hsz hw hle

/-- The calls `push(v1)`, ..., `push(vm)` on a stack that is the only client of its arena,
with room for the nodes that do not fit in the free block. -/
theorem run_pushes_packed {T : Type} {L : Layout} {buf cap k : Nat} (vs : List T)
    {a c : Nat} {st : Stack} {w : World T} {nodes : List (Nat × T)}
    (hinv : StackInv L st w nodes) (hn : nodes.map Prod.fst = slots_down L buf a)
    (hp : Packed L buf cap a c w.resource)
    (hal : L.align = 2 ^ k) (hdiv : L.align ∣ L.size) (hb0 : 0 < buf) (hbuf : L.align ∣ buf)
    (hw : buf + cap + L.align + L.size ≤ WORD)
    (hroom : c < vs.length → (a + vs.length) * L.size ≤ cap) :
    (Stack.run L (vs.map StackOp.push) st w).1 = Result.value () ∧
    ∃ nodes2, StackInv L (Stack.run L (vs.map StackOp.push) st w).2.1
        (Stack.run L (vs.map StackOp.push) st w).2.2 nodes2 ∧
      nodes2.map Prod.fst = slots_down L buf (a + vs.length) ∧
      Packed L buf cap (a + vs.length) (c - vs.length)
        (Stack.run L (vs.map StackOp.push) st w).2.2.resource := by
  induction vs generalizing a c st w nodes with
  | nil => exact ⟨rfl, nodes, hinv, hn, hp⟩
  | cons v vs ih =>
    rw [List.length_cons] at hroom
    have hr1 : c = 0 → (a + 1) * L.size ≤ cap := by
      intro hc
      have h1 := hroom (by omega)
      have h2 : (a + 1) * L.size ≤ (a + (vs.length + 1)) * L.size :=
        Nat.mul_le_mul_right _ (by omega)
      omega
    obtain ⟨hv, nodes1, hinv1, hn1, hp1⟩ := push_packed v hinv hn hp hal hdiv hb0 hbuf hw hr1
    have hr2 : c - 1 < vs.length → (a + 1 + vs.length) * L.size ≤ cap := by
      intro hc
      have h1 := hroom (by omega)
      have e : a + 1 + vs.length = a + (vs.length + 1) := by omega
      rw [e]
      exact h1
    obtain ⟨h1, nodes2, h2, h3, h4⟩ := ih hinv1 hn1 hp1 hr2
    have e1 : a + 1 + vs.length = a + (vs.length + 1) := by omega
    have e2 : c - 1 - vs.length = c - (vs.length + 1) := by omega
    rw [e1] at h3 h4
    rw [e2] at h4
    rw [List.map_cons, run_push, if_pos hv, List.length_cons]
    exact ⟨h1, nodes2, h2, h3, h4⟩

/-- The call `pop()` made `j` times on a stack with at least `j` nodes that is the only
client of its arena. -/
theorem run_pops_packed {T : Type} {L : Layout} {buf cap : Nat} (j : Nat)
    {a c : Nat} {st : Stack} {w : World T} {nodes : List (Nat × T)}
    (hinv : StackInv L st w nodes) (hn : nodes.map Prod.fst = slots_down L buf a)
    (hp : Packed L buf cap a c w.resource)
    (hw : buf + cap + L.align + L.size ≤ WORD) (hj : j ≤ a) :
    (Stack.run L (List.replicate j StackOp.pop) st w).1 = Result.value () ∧
    ∃ nodes2, StackInv L (Stack.run L (List.replicate j StackOp.pop) st w).2.1
        (Stack.run L (List.replicate j StackOp.pop) st w).2.2 nodes2 ∧
      nodes2.map Prod.fst = slots_down L buf (a - j) ∧
      Packed L buf cap (a - j) (c + j)
        (Stack.run L (List.replicate j StackOp.pop) st w).2.2.resource := by
  induction j generalizing a c st w nodes with
  | zero => exact ⟨rfl, nodes, hinv, hn, hp⟩
  | succ j ih =>
    obtain ⟨a1, rfl⟩ : ∃ a1, a = a1 + 1 := ⟨a - 1, by omega⟩
    obtain ⟨hv, nodes1, hinv1, hn1, hp1⟩ := pop_packed hinv hn hp hw
    obtain ⟨h1, nodes2, h2, h3, h4⟩ := ih hinv1 hn1 hp1 (by omega)
    have e1 : a1 - j = a1 + 1 - (j + 1) := by omega
    have e2 : c + 1 + j = c + (j + 1) := by omega
    rw [e1] at h3 h4
    rw [e2] at h4
    rw [List.replicate_succ, run_pop, if_pos hv]
    exact ⟨h1, nodes2, h2, h3, h4⟩

/-! ## `deallocate` calls never add an entry -/

theorem do_deallocate_allocated_subset (s : FixedBlockMemoryResource) (p bytes al : Nat) :
    ∀ b ∈ (do_deallocate s p bytes al).allocated_blocks_, b ∈ s.allocated_blocks_ := by
  intro b hb
  unfold do_deallocate at hb
  split_ifs at hb
  · exact erase_address_subset p _ b hb
  · exact hb

theorem merge_sweep_within (lo hi : Nat) (hhi : hi < WORD) (rest : List Block) (cur : Block)
    (hb : ∀ b ∈ cur :: rest, lo ≤ b.1 ∧ b.1 + b.2 ≤ hi) :
    ∀ o ∈ merge_sweep cur rest, lo ≤ o.1 ∧ o.1 + o.2 ≤ hi := by
  induction rest generalizing cur with
  | nil =>
    intro o ho
    simp only [merge_sweep, List.mem_singleton] at ho
    rw [ho]
    exact hb cur (List.mem_cons_self _ _)
  | cons nxt rest ih =>
    have hc := hb cur (List.mem_cons_self _ _)
    have hn := hb nxt (List.mem_cons_of_mem _ (List.mem_cons_self _ _))
    intro o ho
    unfold merge_sweep at ho
    split_ifs at ho with hadj
    · rw [wadd_eq (by omega)] at hadj
      apply ih (cur.1, wadd cur.2 nxt.2) _ o ho
      intro c hc2
      rcases List.mem_cons.1 hc2 with rfl | hc2
      · rw [wadd_eq (by omega)]
        dsimp only
        omega
      · exact hb c (List.mem_cons_of_mem _ (List.mem_cons_of_mem _ hc2))
    · rcases List.mem_cons.1 ho with rfl | ho
      · exact hc
      · exact ih nxt (fun c hc2 => hb c (List.mem_cons_of_mem _ hc2)) o ho

theorem merge_adjacent_blocks_within (lo hi : Nat) (hhi : hi < WORD) (l : List Block)
    (hb : ∀ b ∈ l, lo ≤ b.1 ∧ b.1 + b.2 ≤ hi) :
    ∀ o ∈ merge_adjacent_blocks l, lo ≤ o.1 ∧ o.1 + o.2 ≤ hi := by
  unfold merge_adjacent_blocks
  have hp := sort_by_address_perm l
  split
  · intro o ho; cases ho
  · rename_i b rest h
    rw [h] at hp
    exact merge_sweep_within lo hi hhi rest b (fun c hc => hb c (hp.subset hc))

theorem bounded_construct {buf cap : Nat} (h1 : 0 < buf) (h2 : buf + cap < WORD) :
    Bounded (construct buf cap) := by
  refine ⟨h1, h2, Nat.zero_le _, ?_⟩
  intro b hb
  simp [construct] at hb

/-- A request of any size for which nothing wraps keeps the blocks in the buffer, and an
address that it returns is the start of a block in the buffer. -/
theorem bounded_do_allocate {s : FixedBlockMemoryResource} {bytes al : Nat} (hi : Bounded s)
    (hv : nowrap_request s bytes al) :
    Bounded (do_allocate s bytes al).2 ∧
    ∀ p, (do_allocate s bytes al).1 = some p →
      s.buffer_ ≤ p ∧ p + bytes ≤ s.buffer_ + (do_allocate s bytes al).2.offset_ := by
  obtain ⟨⟨k, hk⟩, hw1, hw2⟩ := hv
  have hpos : 0 < al := by rw [hk]; exact Nat.two_pow_pos k
  have h0 := hi.buffer_pos
  have h1 := hi.buffer_end
  have h2 := hi.offset_le
  cases hs : scan_free_blocks bytes al s.free_blocks_ with
  | none =>
    obtain ⟨a1, a2⟩ := aligned_offset_bounds hpos (by omega : s.offset_ + al ≤ WORD)
    rw [do_allocate_of_scan_none hs, wadd_eq (by omega), wadd_eq (by omega)]
    split_ifs with hc
    · exact ⟨hi, fun p hp => by cases hp⟩
    · refine ⟨⟨h0, h1, by dsimp only; omega, ?_⟩, ?_⟩
      · intro b hb
        dsimp only at hb ⊢
        rcases List.mem_append.1 hb with hb | hb
        · rcases List.mem_append.1 hb with hb | hb
          · have := hi.block_in b (List.mem_append_left _ hb)
            omega
          · simp only [List.mem_singleton] at hb
            subst hb
            dsimp only
            omega
        · have := hi.block_in b (List.mem_append_right _ hb)
          omega
      · intro p hp
        simp only [Option.some.injEq] at hp
        subst hp
        dsimp only
        omega
  | some r =>
    obtain ⟨q, l2⟩ := r
    obtain ⟨pre, blk, post, e1, _, hfit, e2, e3⟩ := scan_free_blocks_some hs
    have hmem : blk ∈ s.free_blocks_ := by rw [e1]; simp
    have hblk := hi.block_in blk (List.mem_append_right _ hmem)
    have hlt : al < WORD := by omega
    have hnw : blk.1 + al ≤ WORD := by omega
    obtain ⟨s1, s2, _⟩ := split_rest_eq hk hlt hnw (by omega) (by omega) hfit
    have hsm := split_rest_mem hk hlt hnw (by omega) (by omega) hfit
    rw [← e2] at s1 s2
    have hq : q ≠ 0 := by omega
    rw [do_allocate_of_scan_some hs hq]
    refine ⟨⟨h0, h1, h2, ?_⟩, ?_⟩
    · intro b hb
      dsimp only at hb ⊢
      rcases List.mem_append.1 hb with hb | hb
      · rcases List.mem_append.1 hb with hb | hb
        · exact hi.block_in b (List.mem_append_left _ hb)
        · simp only [List.mem_singleton] at hb
          subst hb
          dsimp only
          omega
      · rw [e3] at hb
        rcases List.mem_append.1 hb with hb | hb
        · exact hi.block_in b (List.mem_append_right _ (by rw [e1]; simp [hb]))
        · rcases List.mem_append.1 hb with hb | hb
          · exact hi.block_in b (List.mem_append_right _ (by rw [e1]; simp [hb]))
          · have := hsm b hb
            rw [← e2] at this
            omega
    · intro p hp
      simp only [Option.some.injEq] at hp
      subst hp
      dsimp only
      omega

theorem bounded_do_deallocate {s : FixedBlockMemoryResource} {p bytes : Nat} (al : Nat)
    (hi : Bounded s) (hm : (p, bytes) ∈ s.allocated_blocks_) :
    Bounded (do_deallocate s p bytes al) := by
  have h0 := hi.buffer_pos
  have h1 := hi.buffer_end
  have h2 := hi.offset_le
  have hhas : has_address p s.allocated_blocks_ = true :=
    has_address_iff.2 ⟨(p, bytes), hm, rfl⟩
  unfold do_deallocate
  rw [if_pos hhas]
  refine ⟨h0, h1, h2, ?_⟩
  intro b hb
  dsimp only at hb ⊢
  rcases List.mem_append.1 hb with hb | hb
  · exact hi.block_in b (List.mem_append_left _ (erase_address_subset p _ b hb))
  · apply merge_adjacent_blocks_within s.buffer_ (s.buffer_ + s.offset_) (by omega) _ _ b hb
    intro c hc
    rcases List.mem_append.1 hc with hc | hc
    · exact hi.block_in c (List.mem_append_right _ hc)
    · simp only [List.mem_singleton] at hc
      subst hc
      exact hi.block_in _ (List.mem_append_left _ hm)

theorem reachable_bounded {buf cap : Nat} {s : FixedBlockMemoryResource}
    (h : Reachable nowrap_request buf cap s) : Bounded s := by
  induction h with
  | fresh h1 h2 => exact bounded_construct h1 h2
  | allocate s bytes al _ hok ih => exact (bounded_do_allocate ih hok).1
  | deallocate s p bytes al _ hm ih => exact bounded_do_deallocate al ih hm

/-! ## The destructor on a chain of nodes -/

/-- On a stack whose nodes form a chain with distinct addresses, `pop` returns normally,
makes the `deallocate` call for the first node, and leaves the chain of the other nodes;
the state of the arena plays no part. -/
theorem pop_chain {T : Type} (L : Layout) {st : Stack} {w : World T} {n : Nat × T}
    {rest : List (Nat × T)} (hc : Chain w.memory st.head_ (n :: rest))
    (hnd : ((n :: rest).map Prod.fst).Nodup) :
    (st.pop L w).1 = Result.value () ∧
    (st.pop L w).2.2.resource = do_deallocate w.resource n.1 L.size L.align ∧
    Chain (st.pop L w).2.2.memory (st.pop L w).2.1.head_ rest := by
  obtain ⟨h1, h2, nxt, h3, h4⟩ := hc
  rw [List.map_cons, List.nodup_cons] at hnd
  rw [pop_of_node L st w h2 h3, h1]
  refine ⟨rfl, rfl, ?_⟩
  apply chain_frame h4
  intro c hc
  have hne : c.1 ≠ n.1 := fun heq => hnd.1 (List.mem_map.2 ⟨c, hc, heq⟩)
  simp only [destroy_at, if_neg hne]

theorem empty_iff_chain {T : Type} {st : Stack} {w : World T} {nodes : List (Nat × T)}
    (hc : Chain w.memory st.head_ nodes) : st.empty = true ↔ nodes = [] := by
  unfold Stack.empty
  cases nodes with
  | nil =>
    have : st.head_ = 0 := hc
    simp [this]
  | cons n rest =>
    obtain ⟨_, h2, _⟩ := hc
    simp [h2]

/-- The destructor of a stack whose nodes form a chain with distinct addresses, given at
least as many runs of its loop as there are nodes: it returns, the stack is empty, and the
arena has seen the `deallocate` calls for the nodes from the head down. -/
theorem destroy_chain {T : Type} (L : Layout) {st : Stack} {w : World T}
    {nodes : List (Nat × T)} (hc : Chain w.memory st.head_ nodes)
    (hnd : (nodes.map Prod.fst).Nodup) (fuel : Nat) (hf : nodes.length ≤ fuel) :
    (Stack.destroy L fuel st w).1 = Result.value () ∧
    (Stack.destroy L fuel st w).2.1.empty = true ∧
    (Stack.destroy L fuel st w).2.2.resource =
      nodes.foldl (fun r n => do_deallocate r n.1 L.size L.align) w.resource := by
  induction nodes generalizing st w fuel with
  | nil =>
    have h0 : st.empty = true := (empty_iff_chain hc).2 rfl
    cases fuel with
    | zero => rw [Stack.destroy, if_pos h0]; exact ⟨rfl, h0, rfl⟩
    | succ f => rw [Stack.destroy, if_pos h0]; exact ⟨rfl, h0, rfl⟩
  | cons n rest ih =>
    have h0 : ¬ st.empty = true := fun he => by
      have := (empty_iff_chain hc).1 he
      cases this
    cases fuel with
    | zero => simp at hf
    | succ f =>
      obtain ⟨hp, hr, hc2⟩ := pop_chain L hc hnd
      have hnd2 : (rest.map Prod.fst).Nodup := by
        rw [List.map_cons, List.nodup_cons] at hnd
        exact hnd.2
      obtain ⟨h1, h2, h3⟩ := ih hc2 hnd2 f (by simpa using hf)
      rw [Stack.destroy, if_neg h0]
      generalize st.pop L w = x at hp hr hc2 h1 h2 h3
      obtain ⟨r, st2, w2⟩ := x
      dsimp only at hp hr hc2 h1 h2 h3
      subst hp
      dsimp only
      refine ⟨h1, h2, ?_⟩
      rw [h3, hr, List.foldl_cons]

/-! ## `deallocate` calls when no two recorded blocks share an address -/

theorem erase_address_sublist (p : Nat) (l : List Block) : (erase_address p l).Sublist l := by
  induction l with
  | nil => exact List.Sublist.refl _
  | cons c rest ih =>
    unfold erase_address
    split_ifs
    · exact List.sublist_cons_self _ _
    · exact List.Sublist.cons₂ _ ih

/-- When no two entries of `allocated_blocks_` have the same address, a `deallocate` call
keeps it so and leaves no entry with the address that it was passed. -/
theorem do_deallocate_nodup {s : FixedBlockMemoryResource} (p bytes al : Nat)
    (h : (s.allocated_blocks_.map Prod.fst).Nodup) :
    ((do_deallocate s p bytes al).allocated_blocks_.map Prod.fst).Nodup ∧
    ∀ b ∈ (do_deallocate s p bytes al).allocated_blocks_, b.1 ≠ p := by
  unfold do_deallocate
  split_ifs with hh
  · exact ⟨List.Nodup.sublist ((erase_address_sublist p _).map Prod.fst) h,
      erase_address_no_address h⟩
  · refine ⟨h, ?_⟩
    intro b hb hbp
    exact hh (has_address_iff.2 ⟨b, hb, hbp⟩)

/-- When no two entries of `allocated_blocks_` have the same address, the `deallocate`
calls for a list of nodes leave no entry with the address of one of the nodes, and no new
entry. -/
theorem deallocate_nodes_nodup {T : Type} (L : Layout) (nodes : List (Nat × T))
    {s : FixedBlockMemoryResource} (h : (s.allocated_blocks_.map Prod.fst).Nodup) :
    ∀ b ∈ (nodes.foldl (fun r n => do_deallocate r n.1 L.size L.align) s).allocated_blocks_,
      b ∈ s.allocated_blocks_ ∧ ∀ n ∈ nodes, b.1 ≠ n.1 := by
  induction nodes generalizing s with
  | nil => exact fun b hb => ⟨hb, fun n hn => by cases hn⟩
  | cons n rest ih =>
    obtain ⟨h1, h2⟩ := do_deallocate_nodup n.1 L.size L.align h
    intro b hb
    rw [List.foldl_cons] at hb
    obtain ⟨h3, h4⟩ := ih h1 b hb
    refine ⟨do_deallocate_allocated_subset s n.1 L.size L.align b h3, ?_⟩
    intro c hc
    rcases List.mem_cons.1 hc with rfl | hc
    · exact h2 b h3
    · exact h4 c hc

/-! ## C1: the no-overlap invariant -/

/-- C1, as stated, fails: after `allocate(0, 1)`, `allocate(8, 1)`, `deallocate(4096, 8, 1)`
and `allocate(8, 1)` on an arena of 100 bytes at address 4096, a sequence in which the
deallocate passes the address and size of a recorded block, `allocated_blocks_` holds
the block `(4096, 8)` twice. -/
theorem allocated_overlap_after_zero_byte_block :
    Reachable any_request 4096 100 zero_alias_trace ∧
    zero_alias_trace.allocated_blocks_ = [(4096, 8), (4096, 8)] ∧
    ¬ zero_alias_trace.allocated_blocks_.Pairwise disjoint := by
  have h0 : Reachable any_request 4096 100 (construct 4096 100) :=
    Reachable.fresh (by decide) (by decide)
  have h1 := Reachable.allocate _ 0 1 h0 ⟨0, rfl⟩
  have h2 := Reachable.allocate _ 8 1 h1 ⟨0, rfl⟩
  have h3 := Reachable.deallocate _ 4096 8 1 h2 (by decide)
  have h4 := Reachable.allocate _ 8 1 h3 ⟨0, rfl⟩
  refine ⟨h4, by decide, ?_⟩
  have e : zero_alias_trace.allocated_blocks_ = [(4096, 8), (4096, 8)] := by decide
  rw [e]
  simp [disjoint]

/-- C1, amended: in every state reachable from a fresh arena by `allocate` calls with a
positive size, a power-of-two alignment and no wrap-around of the machine word, and by
`deallocate` calls that pass the address and size of a recorded block, the blocks of
`allocated_blocks_` are pairwise disjoint and each lies inside
`[buffer, buffer + capacity)`. -/
theorem allocated_blocks_disjoint_inside (buf cap : Nat) (s : FixedBlockMemoryResource)
    (h : Reachable valid_request buf cap s) :
    s.allocated_blocks_.Pairwise disjoint ∧ ∀ b ∈ s.allocated_blocks_, inside buf cap b := by
  have hi := reachable_inv h
  obtain ⟨h1, h2⟩ := reachable_fields h
  have hp := pairwise_disjoint_of_cover (fun b hb => (hi.block_ok b hb).1) hi.cover_le
  refine ⟨(List.pairwise_append.1 hp).1, ?_⟩
  intro b hb
  have := hi.block_ok b (List.mem_append_left _ hb)
  have := hi.offset_le
  unfold inside
  omega

/-- Witness of `allocated_blocks_disjoint_inside`: the arena of 512 bytes at address 4096
after two `allocate(50, 1)` calls, with the blocks `(4096, 50)` and `(4146, 50)`. -/
theorem allocated_blocks_disjoint_inside_witness :
    Reachable valid_request 4096 512 two_blocks ∧
    two_blocks.allocated_blocks_ = [(4096, 50), (4146, 50)] ∧
    two_blocks.allocated_blocks_.Pairwise disjoint ∧
    ∀ b ∈ two_blocks.allocated_blocks_, inside 4096 512 b :=
  have h : Reachable valid_request 4096 512 two_blocks :=
    Reachable.allocate _ 50 1
      (Reachable.allocate _ 50 1 (Reachable.fresh (by decide) (by decide))
        ⟨by decide, ⟨0, rfl⟩, by decide, by decide⟩)
      ⟨by decide, ⟨0, rfl⟩, by decide, by decide⟩
  ⟨h, by decide, allocated_blocks_disjoint_inside 4096 512 two_blocks h⟩

/-! ## C2: alignment of the returned address -/

/-- C2 fails on the bump path: on a fresh arena whose buffer is at address 4112 (a
multiple of 16, as `::operator new` guarantees, and not of 32), `allocate(8, 32)` succeeds
and returns 4112, which is not a multiple of 32. -/
theorem bump_path_returns_misaligned_address :
    (do_allocate (construct 4112 64) 8 32).1 = some 4112 ∧ 4112 % 16 = 0 ∧ 4112 % 32 = 16 := by
  decide

/-! ## C3: a failed allocation changes nothing -/

/-- C3 fails in a state that a wrapped request has left behind. In `wrapped_free`, reached
on an arena of 100 bytes by `allocate(10, 1)`, `allocate(2 ^ 64 - 10, 1)`,
`deallocate(4106, 2 ^ 64 - 10, 1)` and `allocate(2 ^ 63, 1)`, the free block starts at
`4106 + 2 ^ 63`, and its start rounded up to the alignment `2 ^ 63` wraps to the null
pointer. The call `allocate(4096, 2 ^ 63)` takes that block in
`allocate_from_free_blocks`, puts back the gap of `2 ^ 63 - 4106` bytes, returns the null
pointer, which `do_allocate` reads as "no block found", and throws from the bump path:
the call fails and `free_blocks_` is not what it was. -/
theorem failed_allocate_rewrites_free_list :
    Reachable any_request 4096 100 wrapped_free ∧
    wrapped_free.free_blocks_ = [(9223372036854779914, 9223372036854775798)] ∧
    aligned_addr 9223372036854779914 9223372036854775808 = 0 ∧
    (do_allocate wrapped_free 4096 9223372036854775808).1 = none ∧
    (do_allocate wrapped_free 4096 9223372036854775808).2.free_blocks_ =
      [(9223372036854779914, 9223372036854771702)] ∧
    (do_allocate wrapped_free 4096 9223372036854775808).2 ≠ wrapped_free := by
  have h0 : Reachable any_request 4096 100 (construct 4096 100) :=
    Reachable.fresh (by decide) (by decide)
  have h1 := Reachable.allocate _ 10 1 h0 ⟨0, rfl⟩
  have h2 := Reachable.allocate _ (WORD - 10) 1 h1 ⟨0, rfl⟩
  have h3 := Reachable.deallocate _ 4106 (WORD - 10) 1 h2 (by decide)
  have h4 : Reachable any_request 4096 100 wrapped_free :=
    Reachable.allocate _ 9223372036854775808 1 h3 ⟨0, rfl⟩
  exact ⟨h4, by decide, by decide, by decide, by decide, by decide⟩

/-- The property of C3 where no wrapped address comes up: when `do_allocate` throws in a
state in which the aligned address of a free block is never the null pointer, which the
source uses as the "no block found" result of `allocate_from_free_blocks`, the state
after the call is the state before it. -/
theorem failed_allocate_unchanged (s : FixedBlockMemoryResource) (bytes alignment : Nat)
    (hnull : ∀ b ∈ s.free_blocks_, aligned_addr b.1 alignment ≠ 0)
    (hfail : (do_allocate s bytes alignment).1 = none) :
    (do_allocate s bytes alignment).2 = s := by
  cases hs : scan_free_blocks bytes alignment s.free_blocks_ with
  | none =>
    rw [do_allocate_of_scan_none hs] at hfail ⊢
    split_ifs at hfail ⊢
    rfl
  | some r =>
    obtain ⟨q, l2⟩ := r
    obtain ⟨pre, blk, post, e1, _, _, e2, _⟩ := scan_free_blocks_some hs
    have hq : q ≠ 0 := by
      rw [e2]
      exact hnull blk (by rw [e1]; simp)
    rw [do_allocate_of_scan_some hs hq] at hfail
    cases hfail

/-- Witness of `failed_allocate_unchanged`: with one free block of 50 bytes and 10 bytes of
bump space left, `allocate(60, 1)` throws and leaves the arena as it was. -/
theorem failed_allocate_unchanged_witness :
    nearly_full.free_blocks_ = [(4096, 50)] ∧
    (do_allocate nearly_full 60 1).1 = none ∧ (do_allocate nearly_full 60 1).2 = nearly_full :=
  ⟨by decide, by decide,
    failed_allocate_unchanged nearly_full 60 1 (by decide) (by decide)⟩

/-! ## C4: requests larger than the capacity -/

/-- C4 fails when `aligned_offset + bytes` wraps: on an arena of 100 bytes with 10 bytes
used, `allocate(2 ^ 64 - 10, 1)` passes the test `aligned_offset + bytes > size_`, returns
the address 4106 and sets the bump offset to 0. It also fails when `bytes + adjustment`
wraps: with the free block `(4104, 24)` in an arena of 512 bytes, `allocate(2 ^ 64 - 8, 16)`
passes the test `block_size >= bytes + adjustment` and returns 4112. -/
theorem oversized_request_succeeds_by_wraparound :
    ten_used.offset_ = 10 ∧ ten_used.free_blocks_ = [] ∧ 100 < WORD - 10 ∧
    (do_allocate ten_used (WORD - 10) 1).1 = some 4106 ∧
    (do_allocate ten_used (WORD - 10) 1).2.offset_ = 0 ∧
    padded_free.free_blocks_ = [(4104, 24)] ∧ 512 < WORD - 8 ∧
    (do_allocate padded_free (WORD - 8) 16).1 = some 4112 := by
  decide

/-! ## C5: reuse -/

/-- C5, as stated, fails by fragmentation: on an arena of 100 bytes, after `allocate(40, 1)`,
`allocate(40, 1)` and `deallocate` of the first block, the live blocks have 40 bytes and a
request of 50 bytes brings the live total to 90, yet `allocate(50, 1)` throws: the free
block has 40 bytes and 20 bytes of bump space are left. At no point of the sequence does
the live total exceed the capacity. -/
theorem reuse_fails_by_fragmentation :
    live_bytes (construct 4096 100) + 40 ≤ 100 ∧
    (do_allocate (construct 4096 100) 40 1).1 = some 4096 ∧
    live_bytes forty_used + 40 ≤ 100 ∧ (do_allocate forty_used 40 1).1 = some 4136 ∧
    (4096, 40) ∈ eighty_used.allocated_blocks_ ∧
    live_bytes fragmented + 50 ≤ 100 ∧ (do_allocate fragmented 50 1).1 = none := by
  decide

/-- C5, amended: for every capacity and every block size `unit > 0`, in every state reached
by `allocate(unit, 1)` calls made while the live bytes plus `unit` do not exceed the
capacity and by `deallocate` calls of recorded blocks, an `allocate(unit, 1)` call made
while the live bytes plus `unit` do not exceed the capacity succeeds. -/
theorem uniform_requests_succeed (buf cap unit : Nat) (s : FixedBlockMemoryResource)
    (hunit : 0 < unit) (h : Reachable (uniform_request unit) buf cap s)
    (hlive : live_bytes s + unit ≤ cap) : ∃ q, (do_allocate s unit 1).1 = some q := by
  obtain ⟨hi, hu⟩ := reachable_uniform hunit h
  rw [← (reachable_fields h).2] at hlive
  exact (uniform_allocate hunit hi hu hlive).1

/-- Witness of `uniform_requests_succeed`: an arena of 64 bytes filled by four blocks of 16
bytes, one of which has been freed; the next `allocate(16, 1)` succeeds although no bump
space is left. -/
theorem uniform_requests_succeed_witness :
    Reachable (uniform_request 16) 4096 64 uniform_trace ∧ uniform_trace.offset_ = 64 ∧
    live_bytes uniform_trace + 16 ≤ 64 ∧ ∃ q, (do_allocate uniform_trace 16 1).1 = some q :=
  have h0 : Reachable (uniform_request 16) 4096 64 (construct 4096 64) :=
    Reachable.fresh (by decide) (by decide)
  have h1 := Reachable.allocate _ 16 1 h0 ⟨rfl, rfl, by decide⟩
  have h2 := Reachable.allocate _ 16 1 h1 ⟨rfl, rfl, by decide⟩
  have h3 := Reachable.allocate _ 16 1 h2 ⟨rfl, rfl, by decide⟩
  have h4 := Reachable.allocate _ 16 1 h3 ⟨rfl, rfl, by decide⟩
  have h5 : Reachable (uniform_request 16) 4096 64 uniform_trace :=
    Reachable.deallocate _ 4112 16 1 h4 (by decide)
  ⟨h5, by decide, by decide,
    uniform_requests_succeed 4096 64 16 uniform_trace (by decide) h5 (by decide)⟩

/-! ## C6: allocate, free, allocate again -/

/-- C6 fails after a misaligned bump allocation: on an arena of 40 bytes at address 4112,
`allocate(32, 32)` returns 4112; after `deallocate(4112, 32, 32)` the free block
`(4112, 32)` needs 16 bytes of padding for the alignment 32 and no longer hosts 32
bytes, the bump offset is 32, and the next `allocate(32, 32)` throws. -/
theorem round_trip_fails_after_misaligned_bump :
    (do_allocate (construct 4112 40) 32 32).1 = some 4112 ∧
    round_trip_freed.free_blocks_ = [(4112, 32)] ∧ round_trip_freed.offset_ = 32 ∧
    adjustment 4112 32 = 16 ∧
    (do_allocate round_trip_freed 32 32).1 = none := by
  decide

/-! ## C7: coalescing of two adjacent blocks -/

/-- C7, as stated, fails in the returned address: with the free block `(4096, 100)`
already in the list, freeing the adjacent blocks `(4206, 20)` and `(4226, 20)` gives the
free list `[(4096, 100), (4206, 40)]`, and `allocate(40, 1)` takes the first block that is
large enough and returns 4096, not 4206. -/
theorem coalesced_request_returns_earlier_block :
    Reachable valid_request 4096 1000 coalesce_start ∧
    (4206, 20) ∈ coalesce_start.allocated_blocks_ ∧
    (4206 + 20, 20) ∈ coalesce_start.allocated_blocks_ ∧
    coalesce_freed.free_blocks_ = [(4096, 100), (4206, 40)] ∧
    (do_allocate coalesce_freed (20 + 20) 1).1 = some 4096 := by
  have h0 : Reachable valid_request 4096 1000 (construct 4096 1000) :=
    Reachable.fresh (by decide) (by decide)
  have h1 := Reachable.allocate _ 100 1 h0 ⟨by decide, ⟨0, rfl⟩, by decide, by decide⟩
  have h2 := Reachable.allocate _ 10 1 h1 ⟨by decide, ⟨0, rfl⟩, by decide, by decide⟩
  have h3 := Reachable.allocate _ 20 1 h2 ⟨by decide, ⟨0, rfl⟩, by decide, by decide⟩
  have h4 := Reachable.allocate _ 20 1 h3 ⟨by decide, ⟨0, rfl⟩, by decide, by decide⟩
  have h5 : Reachable valid_request 4096 1000 coalesce_start :=
    Reachable.deallocate _ 4096 100 1 h4 (by decide)
  exact ⟨h5, by decide, by decide, by decide, by decide⟩

/-- C7, amended: in every state reachable by `allocate` calls with a positive size, a
power-of-two alignment and no wrap-around and by `deallocate` calls of recorded blocks,
after two recorded blocks `(a, s1)` and `(a + s1, s2)` have been deallocated, in either
order, `allocate(s1 + s2, 1)` succeeds, leaves the bump offset unchanged and returns the
start `q` of a free block of at least `s1 + s2` bytes, with `q ≤ a`; when the free list
was empty before the two deallocations, `q = a`. -/
theorem coalesced_request_served_from_free_list (buf cap : Nat)
    (s t : FixedBlockMemoryResource) (a s1 s2 al1 al2 : Nat)
    (h : Reachable valid_request buf cap s)
    (hA : (a, s1) ∈ s.allocated_blocks_) (hB : (a + s1, s2) ∈ s.allocated_blocks_)
    (ht : t = do_deallocate (do_deallocate s a s1 al1) (a + s1) s2 al2 ∨
          t = do_deallocate (do_deallocate s (a + s1) s2 al2) a s1 al1) :
    ∃ q, (do_allocate t (s1 + s2) 1).1 = some q ∧
      (do_allocate t (s1 + s2) 1).2.offset_ = t.offset_ ∧
      (∃ blk ∈ t.free_blocks_, blk.1 = q ∧ s1 + s2 ≤ blk.2) ∧
      q ≤ a ∧ (s.free_blocks_ = [] → q = a) := by
  have hi := reachable_inv h
  obtain ⟨hit, hg, _, o, ho, o1, o2⟩ := two_frees_block al1 al2 hi hA hB t ht
  obtain ⟨q, q1, q2, ⟨blk, hblk, q3, q4⟩, q5⟩ :=
    @do_allocate_first_fit_one _ (s1 + s2) _ hit ho (by omega)
  refine ⟨q, q1, q2, ⟨blk, hblk, q3, q4⟩, le_trans (q5 hg) o1, ?_⟩
  intro hf
  have e := two_frees_of_empty al1 al2 hi hA hB hf t ht
  rw [e] at hblk
  simp only [List.mem_singleton] at hblk
  rw [← q3, hblk]

/-- Witness of `coalesced_request_served_from_free_list`: the test `FreeBlocksTracking`,
two blocks of 50 bytes freed and a block of 100 bytes requested, which is given the
address 4096 of the lower block. -/
theorem coalesced_request_served_from_free_list_witness :
    ∃ q, (do_allocate (do_deallocate (do_deallocate two_blocks 4096 50 1) (4096 + 50) 50 1)
        (50 + 50) 1).1 = some q ∧
      (do_allocate (do_deallocate (do_deallocate two_blocks 4096 50 1) (4096 + 50) 50 1)
        (50 + 50) 1).2.offset_ =
        (do_deallocate (do_deallocate two_blocks 4096 50 1) (4096 + 50) 50 1).offset_ ∧
      (∃ blk ∈ (do_deallocate (do_deallocate two_blocks 4096 50 1) (4096 + 50) 50 1).free_blocks_,
        blk.1 = q ∧ 50 + 50 ≤ blk.2) ∧
      q ≤ 4096 ∧ (two_blocks.free_blocks_ = [] → q = 4096) :=
  have hr : Reachable valid_request 4096 512 two_blocks :=
    Reachable.allocate _ 50 1
      (Reachable.allocate _ 50 1 (Reachable.fresh (by decide) (by decide))
        ⟨by decide, ⟨0, rfl⟩, by decide, by decide⟩)
      ⟨by decide, ⟨0, rfl⟩, by decide, by decide⟩
  coalesced_request_served_from_free_list 4096 512 two_blocks _ 4096 50 50 1 1 hr
    (by decide) (by decide) (Or.inl rfl)

/-! ## C8: the coalescing invariant -/

/-- C8, as stated, fails: after `allocate(8, 1)`, `allocate(24, 1)`,
`deallocate(4104, 24, 1)` and `allocate(0, 16)` on an arena of 512 bytes at address 4096,
the free list holds `(4104, 8)` and `(4112, 16)`, and the first ends where the second
starts. -/
theorem free_blocks_adjacent_after_zero_byte_split :
    Reachable any_request 4096 512 zero_split_trace ∧
    zero_split_trace.free_blocks_ = [(4104, 8), (4112, 16)] ∧
    ¬ zero_split_trace.free_blocks_.Pairwise not_adjacent := by
  have h0 : Reachable any_request 4096 512 (construct 4096 512) :=
    Reachable.fresh (by decide) (by decide)
  have h1 := Reachable.allocate _ 8 1 h0 ⟨0, rfl⟩
  have h2 := Reachable.allocate _ 24 1 h1 ⟨0, rfl⟩
  have h3 := Reachable.deallocate _ 4104 24 1 h2 (by decide)
  have h4 := Reachable.allocate _ 0 16 h3 ⟨4, rfl⟩
  refine ⟨h4, by decide, ?_⟩
  have e : zero_split_trace.free_blocks_ = [(4104, 8), (4112, 16)] := by decide
  rw [e]
  simp [not_adjacent]

/-- C8, amended: in every state reachable from a fresh arena by `allocate` calls with a
positive size, a power-of-two alignment and no wrap-around of the machine word, and by
`deallocate` calls that pass the address and size of a recorded block, no free block
ends where another free block starts, the free blocks are pairwise disjoint, and every
free block is disjoint from every allocated block. -/
theorem free_blocks_coalesced (buf cap : Nat) (s : FixedBlockMemoryResource)
    (h : Reachable valid_request buf cap s) :
    s.free_blocks_.Pairwise not_adjacent ∧ s.free_blocks_.Pairwise disjoint ∧
    ∀ a ∈ s.allocated_blocks_, ∀ f ∈ s.free_blocks_, disjoint a f := by
  have hi := reachable_inv h
  have hp := pairwise_disjoint_of_cover (fun b hb => (hi.block_ok b hb).1) hi.cover_le
  rw [List.pairwise_append] at hp
  refine ⟨?_, hp.2.1, hp.2.2⟩
  apply pairwise_of_forall_mem
  intro a ha b hb
  exact ⟨hi.no_adjacent a ha b hb, hi.no_adjacent b hb a ha⟩

/-- Witness of `free_blocks_coalesced`: an arena of 512 bytes with three blocks of 16 bytes
of which the first and the third have been freed. -/
theorem free_blocks_coalesced_witness :
    Reachable valid_request 4096 512 two_free_trace ∧
    two_free_trace.free_blocks_ = [(4096, 16), (4128, 16)] ∧
    two_free_trace.free_blocks_.Pairwise not_adjacent ∧
    two_free_trace.free_blocks_.Pairwise disjoint ∧
    ∀ a ∈ two_free_trace.allocated_blocks_, ∀ f ∈ two_free_trace.free_blocks_, disjoint a f :=
  have h0 : Reachable valid_request 4096 512 (construct 4096 512) :=
    Reachable.fresh (by decide) (by decide)
  have h1 := Reachable.allocate _ 16 8 h0 ⟨by decide, ⟨3, rfl⟩, by decide, by decide⟩
  have h2 := Reachable.allocate _ 16 8 h1 ⟨by decide, ⟨3, rfl⟩, by decide, by decide⟩
  have h3 := Reachable.allocate _ 16 8 h2 ⟨by decide, ⟨3, rfl⟩, by decide, by decide⟩
  have h4 := Reachable.deallocate _ 4096 16 8 h3 (by decide)
  have h5 : Reachable valid_request 4096 512 two_free_trace :=
    Reachable.deallocate _ 4128 16 8 h4 (by decide)
  ⟨h5, by decide, free_blocks_coalesced 4096 512 two_free_trace h5⟩

/-! ## C9: the capacity test of the bump path -/

/-- C9 fails when `aligned_offset + bytes` wraps: on an arena of 100 bytes with bump
offset 90 and an empty free list, `allocate(2 ^ 64 - 90, 1)` is not refused although
`90 + bytes` exceeds the capacity; it returns `buffer + 90` and sets the bump offset to 0.
The request `allocate(20, 1)` of the test is refused. -/
theorem capacity_test_wraps :
    ninety_used.offset_ = 90 ∧ ninety_used.free_blocks_ = [] ∧
    100 < aligned_offset 90 1 + (WORD - 90) ∧
    (do_allocate ninety_used (WORD - 90) 1).1 = some (4096 + 90) ∧
    (do_allocate ninety_used (WORD - 90) 1).2.offset_ = 0 ∧
    (do_allocate ninety_used 20 1).1 = none := by
  decide

/-! ## C10: invalid frees -/

/-- C11, as stated, fails in its last part: on a fresh arena of 100 bytes `allocate(0, 1)`
returns 4096 and leaves the bump offset at 0, and while that zero-byte block is live the
next call `allocate(8, 1)` is given the address 4096 again. -/
theorem zero_byte_address_given_again :
    (do_allocate (construct 4096 100) 0 1).1 = some 4096 ∧ zero_block.offset_ = 0 ∧
    zero_block.allocated_blocks_ = [(4096, 0)] ∧
    (do_allocate zero_block 8 1).1 = some 4096 ∧
    (do_allocate zero_block 8 1).2.allocated_blocks_ = [(4096, 0), (4096, 8)] := by
  decide

/-- C11, amended: in every state reachable by `allocate` calls of any size, zero
included, with a power-of-two alignment and no wrap-around and by `deallocate` calls of
recorded blocks, and for every power-of-two alignment for which the bump offset rounded up
to it is below the capacity, `allocate(0, alignment)` succeeds, returns an address in
`[buffer, buffer + capacity)` and records the zero-byte block at that address. -/
theorem zero_byte_allocation_succeeds (buf cap : Nat) (s : FixedBlockMemoryResource)
    (al : Nat) (h : Reachable nowrap_request buf cap s) (hal : is_pow2 al)
    (hw : buf + cap + al ≤ WORD) (hroom : round_up s.offset_ al < cap) :
    ∃ p, (do_allocate s 0 al).1 = some p ∧ buf ≤ p ∧ p < buf + cap ∧
      (do_allocate s 0 al).2.allocated_blocks_ = s.allocated_blocks_ ++ [(p, 0)] := by
  have hi := reachable_bounded h
  obtain ⟨f1, f2⟩ := reachable_fields h
  obtain ⟨k, hk⟩ := hal
  have hpos : 0 < al := by rw [hk]; exact Nat.two_pow_pos k
  have h0 := hi.buffer_pos
  have h1 := hi.buffer_end
  have h2 := hi.offset_le
  rw [f1] at h0 h1
  rw [f2] at h1 h2
  obtain ⟨a1, a2⟩ := aligned_offset_bounds hpos (by omega : s.offset_ + al ≤ WORD)
  have er := aligned_offset_eq_round_up hpos (by omega : s.offset_ + al ≤ WORD)
  cases hs : scan_free_blocks 0 al s.free_blocks_ with
  | none =>
    rw [do_allocate_of_scan_none hs, er, wadd_eq (by omega), f1, f2, wadd_eq (by omega),
      if_neg (by omega)]
    exact ⟨_, rfl, by omega, by omega, rfl⟩
  | some r =>
    obtain ⟨q, l2⟩ := r
    obtain ⟨pre, blk, post, e1, _, hfit, e2, _⟩ := scan_free_blocks_some hs
    have hmem : blk ∈ s.free_blocks_ := by rw [e1]; simp
    have hblk := hi.block_in blk (List.mem_append_right _ hmem)
    rw [f1] at hblk
    obtain ⟨b1, b2, _⟩ := @aligned_addr_bounds blk.1 al k hk (by omega) (by omega)
    unfold fits at hfit
    rw [@adjustment_eq blk.1 al k hk (by omega) (by omega), wadd_eq (by omega)] at hfit
    have hfit2 : 0 + (aligned_addr blk.1 al - blk.1) ≤ blk.2 := by simpa using hfit
    have hq : q ≠ 0 := by omega
    rw [do_allocate_of_scan_some hs hq]
    exact ⟨q, rfl, by omega, by omega, rfl⟩

/-- Witness of `zero_byte_allocation_succeeds`: in the arena of 100 bytes that holds the
zero-byte block `(4096, 0)` and the block `(4096, 8)`, `allocate(0, 16)` succeeds and its
address lies in the buffer. -/
theorem zero_byte_allocation_succeeds_witness :
    zero_alias_live.allocated_blocks_ = [(4096, 0), (4096, 8)] ∧
    Reachable nowrap_request 4096 100 zero_alias_live ∧
    round_up zero_alias_live.offset_ 16 < 100 ∧
    ∃ p, (do_allocate zero_alias_live 0 16).1 = some p ∧ 4096 ≤ p ∧ p < 4096 + 100 ∧
      (do_allocate zero_alias_live 0 16).2.allocated_blocks_ =
        zero_alias_live.allocated_blocks_ ++ [(p, 0)] :=
  have hr : Reachable nowrap_request 4096 100 zero_alias_live :=
    Reachable.allocate _ 8 1
      (Reachable.allocate _ 0 1 (Reachable.fresh (by decide) (by decide))
        ⟨⟨0, rfl⟩, by decide, by decide⟩)
      ⟨⟨0, rfl⟩, by decide, by decide⟩
  ⟨by decide, hr, by decide,
    zero_byte_allocation_succeeds 4096 100 zero_alias_live 16 hr ⟨4, rfl⟩ (by decide)
      (by decide)⟩

/-! ## C12: the LIFO law -/

/-- C12: for every list of values `v1, ..., vn` whose `push` calls on a new stack all
return normally, in any consistent arena to which the request for a node is a valid
request, the `n` calls of `top()` followed by `pop()` that come next all return normally,
the `top()` calls return `vn, ..., v1` in this order, and the stack is empty after the
`n`-th `pop()`. -/
theorem stack_lifo {T : Type} (L : Layout) (mr : Nat) (w : World T) (vs : List T)
    (hi : Inv w.resource) (hv : valid_request w.resource L.size L.align)
    (hpush : (Stack.push_all L vs (Stack.construct mr) w).1 = Result.value ()) :
    (Stack.top_pop_n L vs.length (Stack.push_all L vs (Stack.construct mr) w).2.1
      (Stack.push_all L vs (Stack.construct mr) w).2.2).1 = Result.value vs.reverse ∧
    (Stack.top_pop_n L vs.length (Stack.push_all L vs (Stack.construct mr) w).2.1
      (Stack.push_all L vs (Stack.construct mr) w).2.2).2.1.empty = true := by
  rw [push_all_eq_run] at hpush ⊢
  obtain ⟨nodes, h1, h2⟩ := run_spec _ (stack_inv_construct L mr w hi hv) hpush
  rw [elements_after_push, List.map_nil, List.append_nil] at h2
  have hlen : nodes.length = vs.length := by
    rw [← List.length_map nodes Prod.snd, h2, List.length_reverse]
  obtain ⟨h3, h4⟩ := top_pop_n_spec h1
  rw [hlen, h2] at h3
  rw [hlen] at h4
  exact ⟨h3, (empty_iff_nodes h4).2 rfl⟩

/-- Witness of `stack_lifo`: after `push(1)`, `push(2)`, `push(3)` on a new stack in a fresh
arena of 1024 bytes, three rounds of `top()` and `pop()` return 3, 2, 1 and leave the stack
empty. -/
theorem stack_lifo_witness :
    (Stack.push_all int_node [1, 2, 3] (Stack.construct 1) fresh_world).1 = Result.value () ∧
    (Stack.top_pop_n int_node 3
      (Stack.push_all int_node [1, 2, 3] (Stack.construct 1) fresh_world).2.1
      (Stack.push_all int_node [1, 2, 3] (Stack.construct 1) fresh_world).2.2).1 =
        Result.value [3, 2, 1] ∧
    (Stack.top_pop_n int_node 3
      (Stack.push_all int_node [1, 2, 3] (Stack.construct 1) fresh_world).2.1
      (Stack.push_all int_node [1, 2, 3] (Stack.construct 1) fresh_world).2.2).2.1.empty = true :=
  ⟨by decide,
    stack_lifo int_node 1 fresh_world [1, 2, 3] (inv_construct (by decide) (by decide))
      ⟨by decide, ⟨3, rfl⟩, by decide, by decide⟩ (by decide)⟩

/-! ## C13: iteration -/

/-- C13: for every list of values `v1, ..., vn` whose `push` calls on a new stack all
return normally, in any consistent arena to which the request for a node is a valid
request, the loop from `begin()` to `end()`, given more than `n` evaluations of its
condition, reaches `end()` after exactly the elements `vn, ..., v1`; it returns the stack
and the world, the arena with them, as they were; and the loop run again on what it
returned yields the same list. -/
theorem iteration_top_to_bottom {T : Type} (L : Layout) (mr : Nat) (w : World T)
    (vs : List T) (fuel : Nat) (hi : Inv w.resource)
    (hv : valid_request w.resource L.size L.align)
    (hpush : (Stack.push_all L vs (Stack.construct mr) w).1 = Result.value ())
    (hf : vs.length < fuel) :
    Stack.to_vector (Stack.push_all L vs (Stack.construct mr) w).2.1
        (Stack.push_all L vs (Stack.construct mr) w).2.2 fuel =
      (Result.value vs.reverse, (Stack.push_all L vs (Stack.construct mr) w).2.1,
        (Stack.push_all L vs (Stack.construct mr) w).2.2) ∧
    Stack.to_vector
        (Stack.to_vector (Stack.push_all L vs (Stack.construct mr) w).2.1
          (Stack.push_all L vs (Stack.construct mr) w).2.2 fuel).2.1
        (Stack.to_vector (Stack.push_all L vs (Stack.construct mr) w).2.1
          (Stack.push_all L vs (Stack.construct mr) w).2.2 fuel).2.2 fuel =
      (Result.value vs.reverse, (Stack.push_all L vs (Stack.construct mr) w).2.1,
        (Stack.push_all L vs (Stack.construct mr) w).2.2) := by
  rw [push_all_eq_run] at hpush ⊢
  obtain ⟨nodes, h1, h2⟩ := run_spec _ (stack_inv_construct L mr w hi hv) hpush
  rw [elements_after_push, List.map_nil, List.append_nil] at h2
  have hlen : nodes.length = vs.length := by
    rw [← List.length_map nodes Prod.snd, h2, List.length_reverse]
  have h3 := iterate_chain h1.chain fuel (by rw [hlen]; exact hf)
  rw [h2] at h3
  have h4 : Stack.to_vector (Stack.run L (vs.map StackOp.push) (Stack.construct mr) w).2.1
      (Stack.run L (vs.map StackOp.push) (Stack.construct mr) w).2.2 fuel =
      (Result.value vs.reverse, (Stack.run L (vs.map StackOp.push) (Stack.construct mr) w).2.1,
        (Stack.run L (vs.map StackOp.push) (Stack.construct mr) w).2.2) := by
    unfold Stack.to_vector Stack.begin Stack.end_
    rw [h3]
  refine ⟨h4, ?_⟩
  rw [h4]
  exact h4

/-- Witness of `iteration_top_to_bottom`: after `push(1)`, `push(2)`, `push(3)` the loop
yields 3, 2, 1 with four evaluations of its condition. -/
theorem iteration_top_to_bottom_witness :
    (Stack.push_all int_node [1, 2, 3] (Stack.construct 1) fresh_world).1 = Result.value () ∧
    (Stack.to_vector (Stack.push_all int_node [1, 2, 3] (Stack.construct 1) fresh_world).2.1
      (Stack.push_all int_node [1, 2, 3] (Stack.construct 1) fresh_world).2.2 4).1 =
        Result.value [3, 2, 1] :=
  ⟨by decide,
    congrArg Prod.fst
      (iteration_top_to_bottom int_node 1 fresh_world [1, 2, 3] 4
        (inv_construct (by decide) (by decide))
        ⟨by decide, ⟨3, rfl⟩, by decide, by decide⟩ (by decide) (by decide)).1⟩

/-! ## C14: `top` -/

/-- C14: on every stack `top()` throws the "Stack is empty" error exactly when the stack is
empty, and it returns the stack and the world, the arena with them, as they were
passed. After a sequence of `push` and `pop` calls that all return normally on a new stack,
in any consistent arena to which the request for a node is a valid request, the stack is
empty exactly when the list model of the sequence has no element left, and otherwise
`top()` returns the first element of the list model, that is the value pushed last among
those not yet popped. -/
theorem top_fails_iff_empty {T : Type} (L : Layout) (mr : Nat) (w : World T)
    (ops : List (StackOp T)) (hi : Inv w.resource)
    (hv : valid_request w.resource L.size L.align)
    (hrun : (Stack.run L ops (Stack.construct mr) w).1 = Result.value ()) :
    (∀ (st : Stack) (w0 : World T),
      ((st.top w0).1 = Result.runtime_error ↔ st.empty = true) ∧ (st.top w0).2 = (st, w0)) ∧
    ((Stack.run L ops (Stack.construct mr) w).2.1.empty = true ↔ elements_after ops [] = []) ∧
    (∀ v rest, elements_after ops [] = v :: rest →
      ((Stack.run L ops (Stack.construct mr) w).2.1.top
        (Stack.run L ops (Stack.construct mr) w).2.2).1 = Result.value v) := by
  refine ⟨?_, ?_, ?_⟩
  · intro st w0
    unfold Stack.top Stack.empty
    by_cases h0 : st.head_ = 0
    · simp [h0]
    · rw [if_neg h0]
      cases w0.memory st.head_ <;> simp [h0]
  · obtain ⟨nodes, h1, h2⟩ := run_spec ops (stack_inv_construct L mr w hi hv) hrun
    rw [List.map_nil] at h2
    rw [empty_iff_nodes h1, ← h2]
    cases nodes <;> simp
  · intro v rest he
    obtain ⟨nodes, h1, h2⟩ := run_spec ops (stack_inv_construct L mr w hi hv) hrun
    rw [List.map_nil, he] at h2
    cases nodes with
    | nil => cases h2
    | cons n tl =>
      obtain ⟨_, _, ht, _⟩ := pop_spec h1
      rw [ht]
      rw [List.map_cons] at h2
      injection h2 with h3 _
      rw [h3]

/-- Witness of `top_fails_iff_empty`: after `push(1)`, `push(2)`, `pop()`, `push(3)`,
`pop()` on a new stack in a fresh arena of 1024 bytes, `top()` returns 1. -/
theorem top_fails_iff_empty_witness :
    (Stack.run int_node
      [StackOp.push 1, StackOp.push 2, StackOp.pop, StackOp.push 3, StackOp.pop]
      (Stack.construct 1) fresh_world).1 = Result.value () ∧
    ((Stack.run int_node
      [StackOp.push 1, StackOp.push 2, StackOp.pop, StackOp.push 3, StackOp.pop]
      (Stack.construct 1) fresh_world).2.1.top
      (Stack.run int_node
        [StackOp.push 1, StackOp.push 2, StackOp.pop, StackOp.push 3, StackOp.pop]
        (Stack.construct 1) fresh_world).2.2).1 = Result.value 1 :=
  ⟨by decide,
    (top_fails_iff_empty int_node 1 fresh_world
      [StackOp.push 1, StackOp.push 2, StackOp.pop, StackOp.push 3, StackOp.pop]
      (inv_construct (by decide) (by decide))
      ⟨by decide, ⟨3, rfl⟩, by decide, by decide⟩ (by decide)).2.2 1 [] rfl⟩

/-! ## C15: a failed `push` -/

/-- C16: for every well-formed, non-empty stack `A` with the nodes `nodes`, after `B` is
move-constructed from `A`: `A` is empty, `B` is not, `B.top()` returns the value that
`A.top()` returned before the move, `B` is well formed with the same nodes, so the loop
from `begin()` to `end()` over `B` yields the elements that it yielded over `A`, in the
same order, and the world, the arena with it, is what it was: the move makes no
`allocate` and no `deallocate` call. -/
theorem move_transfers_nodes {T : Type} (L : Layout) (A : Stack) (w : World T)
    (nodes : List (Nat × T)) (hinv : StackInv L A w nodes) (hne : A.empty = false) :
    (Stack.move_construct A w).2.1.empty = true ∧
    (Stack.move_construct A w).1.empty = false ∧
    (∃ v, (A.top w).1 = Result.value v ∧
      ((Stack.move_construct A w).1.top (Stack.move_construct A w).2.2).1 = Result.value v) ∧
    StackInv L (Stack.move_construct A w).1 (Stack.move_construct A w).2.2 nodes ∧
    (∀ fuel, nodes.length < fuel →
      (Stack.to_vector A w fuel).1 = Result.value (nodes.map Prod.snd) ∧
      (Stack.to_vector (Stack.move_construct A w).1 (Stack.move_construct A w).2.2 fuel).1 =
        Result.value (nodes.map Prod.snd)) ∧
    (Stack.move_construct A w).2.2 = w := by
  have eB : (Stack.move_construct A w).1 = A := rfl
  have ew : (Stack.move_construct A w).2.2 = w := rfl
  rw [eB, ew]
  refine ⟨rfl, hne, ?_, hinv, ?_, rfl⟩
  · cases nodes with
    | nil =>
      have := (empty_iff_nodes hinv).2 rfl
      rw [hne] at this
      cases this
    | cons n rest =>
      obtain ⟨_, _, ht, _⟩ := pop_spec hinv
      exact ⟨n.2, by rw [ht], by rw [ht]⟩
  · intro fuel hf
    have h := iterate_chain hinv.chain fuel hf
    exact ⟨h, h⟩

/-- Witness of `move_transfers_nodes`: the stack that holds 2 above 1 is moved; the new
stack has 2 at the top and the arena still records the two nodes. -/
theorem move_transfers_nodes_witness :
    two_pushed.2.1.empty = false ∧
    (Stack.move_construct two_pushed.2.1 two_pushed.2.2).2.1.empty = true ∧
    ((Stack.move_construct two_pushed.2.1 two_pushed.2.2).1.top
      (Stack.move_construct two_pushed.2.1 two_pushed.2.2).2.2).1 = Result.value 2 ∧
    (Stack.move_construct two_pushed.2.1 two_pushed.2.2).2.2.resource.allocated_blocks_ =
      [(4096, 16), (4112, 16)] :=
  have h := move_transfers_nodes int_node two_pushed.2.1 two_pushed.2.2 [(4112, 2), (4096, 1)]
    two_pushed_inv (by decide)
  ⟨by decide, h.1, by decide, by decide⟩

/-! ## C17: the destructor -/

/-- C17, as stated, fails in an arena that the stack shares with a zero-byte block. Another
client's `allocate(0, 1)` is recorded at 4096; `push(1)` and `push(2)` put their nodes at
4096 and 4112. The destructor frees 4112 and then 4096, and the second `deallocate` call
erases the first entry with the address 4096, the zero-byte block: the entry `(4096, 16)`
of a node is still there after the destruction. -/
theorem destructor_leaves_entry_after_zero_byte_block :
    shared_world.resource.allocated_blocks_ = [(4096, 0)] ∧
    shared_pushed.1 = Result.value () ∧
    shared_pushed.2.2.resource.allocated_blocks_ = [(4096, 0), (4096, 16), (4112, 16)] ∧
    Chain shared_pushed.2.2.memory shared_pushed.2.1.head_ [(4112, 2), (4096, 1)] ∧
    (Stack.destroy int_node 2 shared_pushed.2.1 shared_pushed.2.2).1 = Result.value () ∧
    (Stack.destroy int_node 2 shared_pushed.2.1 shared_pushed.2.2).2.2.resource.allocated_blocks_
      = [(4096, 16)] ∧
    has_address 4096
      (Stack.destroy int_node 2 shared_pushed.2.1
        shared_pushed.2.2).2.2.resource.allocated_blocks_ = true :=
  ⟨by decide, by decide, by decide, ⟨rfl, by decide, 4096, rfl, rfl, by decide, 0, rfl, rfl⟩,
    by decide, by decide, by decide⟩

/-- C17, amended: for every stack whose nodes are chained from the head with distinct
addresses, in any arena state and given at least as many runs of its loop as there are
nodes, the destructor returns and leaves the stack empty, and the arena has then seen the
`deallocate` calls for the nodes from the head down, in this order. When no two entries of
`allocated_blocks_` have the same address, as in every state without a zero-byte block,
`allocated_blocks_` has afterwards no entry with the address of any of the nodes, and it
is empty when every entry had the address of a node of the stack. -/
theorem destructor_frees_every_node {T : Type} (L : Layout) (st : Stack) (w : World T)
    (nodes : List (Nat × T)) (fuel : Nat) (hc : Chain w.memory st.head_ nodes)
    (hnd : (nodes.map Prod.fst).Nodup) (hf : nodes.length ≤ fuel) :
    (Stack.destroy L fuel st w).1 = Result.value () ∧
    (Stack.destroy L fuel st w).2.1.empty = true ∧
    (Stack.destroy L fuel st w).2.2.resource =
      nodes.foldl (fun r n => do_deallocate r n.1 L.size L.align) w.resource ∧
    ((w.resource.allocated_blocks_.map Prod.fst).Nodup →
      (∀ n ∈ nodes,
        has_address n.1 (Stack.destroy L fuel st w).2.2.resource.allocated_blocks_ = false) ∧
      ((∀ b ∈ w.resource.allocated_blocks_, ∃ n ∈ nodes, b.1 = n.1) →
        (Stack.destroy L fuel st w).2.2.resource.allocated_blocks_ = [])) := by
  obtain ⟨h1, h2, h3⟩ := destroy_chain L hc hnd fuel hf
  refine ⟨h1, h2, h3, ?_⟩
  intro hal
  have h4 := deallocate_nodes_nodup L nodes hal
  rw [← h3] at h4
  constructor
  · intro n hn
    cases hh : has_address n.1 (Stack.destroy L fuel st w).2.2.resource.allocated_blocks_ with
    | false => rfl
    | true =>
      obtain ⟨b, hb, hbn⟩ := has_address_iff.1 hh
      exact absurd hbn ((h4 b hb).2 n hn)
  · intro hall
    apply List.eq_nil_iff_forall_not_mem.2
    intro b hb
    obtain ⟨hb0, hne⟩ := h4 b hb
    obtain ⟨n, hn, hbn⟩ := hall b hb0
    exact hne n hn hbn

/-- Witness of `destructor_frees_every_node`: the stack that holds 2 above 1 is destroyed;
the arena then records no live block and one free block of 32 bytes. -/
theorem destructor_frees_every_node_witness :
    (Stack.destroy int_node 2 two_pushed.2.1 two_pushed.2.2).1 = Result.value () ∧
    (Stack.destroy int_node 2 two_pushed.2.1 two_pushed.2.2).2.1.empty = true ∧
    (Stack.destroy int_node 2 two_pushed.2.1 two_pushed.2.2).2.2.resource.allocated_blocks_ =
      [] ∧
    (Stack.destroy int_node 2 two_pushed.2.1 two_pushed.2.2).2.2.resource.free_blocks_ =
      [(4096, 32)] :=
  have h := destructor_frees_every_node int_node two_pushed.2.1 two_pushed.2.2
    [(4112, 2), (4096, 1)] 2 two_pushed_inv.chain (by decide) (by decide)
  ⟨h.1, h.2.1, (h.2.2.2 (by decide)).2 (by decide), by decide⟩

/-! ## C18: the stack and its arena -/

/-- C18 fails on a buffer that is not aligned for the node type. For a node of 64 bytes
aligned to 32 and a fresh arena of 1024 bytes at 4112, the first `allocate(64, 32)`
returns 4112, which is not a multiple of 32, so that constructing the node there is
undefined behaviour and the call sequence `push`, `push`, `pop`, `push` ends as such at
its first call. The arena calls of that sequence, `allocate`, `allocate`,
`deallocate(4176)`, `allocate`, leave two entries in `allocated_blocks_` and the free
block `(4176, 64)`, which needs 16 bytes of padding and cannot hold a node: `free_blocks_`
is not empty although `k = 1 <= m = 1`. In an arena of 128 bytes, which has room for two
nodes, the last `allocate` throws. -/
theorem stack_reuse_fails_on_misaligned_buffer :
    (do_allocate (construct 4112 1024) 64 32).1 = some 4112 ∧ 4112 % 32 = 16 ∧
    (Stack.run wide_node [StackOp.push 1, StackOp.push 2, StackOp.pop, StackOp.push 3]
      (Stack.construct 1) misaligned_world).1 = Result.undefined ∧
    misaligned_reuse.allocated_blocks_ = [(4112, 64), (4240, 64)] ∧
    misaligned_reuse.free_blocks_ = [(4176, 64)] ∧
    misaligned_full.allocated_blocks_ = [(4112, 64)] ∧
    misaligned_full.free_blocks_ = [(4176, 64)] ∧
    (do_allocate misaligned_full 64 32).1 = none := by
  decide

/-- The property of C18 on a buffer that is aligned for the node type: a new stack is the
only client of a fresh arena of `cap` bytes whose buffer address is a multiple of the node
alignment, with a node size that is positive and a multiple of the power-of-two node
alignment, and with no address computed past the machine word. When the arena has room for
`n` nodes and for `n - k + m` nodes, the calls `push(x1)`, ..., `push(xn)`, then `k < n`
calls of `pop()`, then `push(y1)`, ..., `push(ym)` all return normally; afterwards
`allocated_blocks_` has exactly `n - k + m` entries, so not more than that, and
`free_blocks_` is empty if and only if `k <= m`. -/
theorem stack_arena_integration {T : Type} (L : Layout) (buf cap mr k : Nat)
    (mem : Nat → Option (Node T)) (xs ys : List T)
    (hsz : 0 < L.size) (hal : is_pow2 L.align) (hdiv : L.align ∣ L.size)
    (hb0 : 0 < buf) (hbuf : L.align ∣ buf) (hw : buf + cap + L.align + L.size ≤ WORD)
    (hk : k < xs.length) (hcap1 : xs.length * L.size ≤ cap)
    (hcap2 : (xs.length - k + ys.length) * L.size ≤ cap) :
    (Stack.run L
      (xs.map StackOp.push ++ (List.replicate k StackOp.pop ++ ys.map StackOp.push))
      (Stack.construct mr) { resource := construct buf cap, memory := mem }).1 =
        Result.value () ∧
    (Stack.run L
      (xs.map StackOp.push ++ (List.replicate k StackOp.pop ++ ys.map StackOp.push))
      (Stack.construct mr)
      { resource := construct buf cap, memory := mem }).2.2.resource.allocated_blocks_.length =
        xs.length - k + ys.length ∧
    (Stack.run L
      (xs.map StackOp.push ++ (List.replicate k StackOp.pop ++ ys.map StackOp.push))
      (Stack.construct mr)
      { resource := construct buf cap, memory := mem }).2.2.resource.allocated_blocks_.length ≤
        xs.length - k + ys.length ∧
    ((Stack.run L
      (xs.map StackOp.push ++ (List.replicate k StackOp.pop ++ ys.map StackOp.push))
      (Stack.construct mr)
      { resource := construct buf cap, memory := mem }).2.2.resource.free_blocks_ = [] ↔
        k ≤ ys.length) := by
  obtain ⟨j, hj⟩ := hal
  have hpos : 0 < L.align := by rw [hj]; exact Nat.two_pow_pos j
  have h0 : StackInv L (Stack.construct mr)
      ({ resource := construct buf cap, memory := mem } : World T) [] :=
    stack_inv_construct L mr _ (inv_construct hb0 (by omega))
      ⟨hsz, ⟨j, hj⟩, by show buf + cap + L.align ≤ WORD; omega,
        by show cap + L.align + L.size ≤ WORD; omega⟩
  obtain ⟨r1, n1, i1, a1, p1⟩ := run_pushes_packed xs h0
    (show ([] : List (Nat × T)).map Prod.fst = slots_down L buf 0 from rfl)
    (packed_construct L buf cap)
    hj hdiv hb0 hbuf hw (fun _ => by rw [Nat.zero_add]; exact hcap1)
  rw [Nat.zero_add] at a1 p1
  rw [Nat.zero_sub] at p1
  obtain ⟨r2, n2, i2, a2, p2⟩ := run_pops_packed k i1 a1 p1 hw (le_of_lt hk)
  rw [Nat.zero_add] at p2
  obtain ⟨r3, n3, i3, a3, p3⟩ := run_pushes_packed ys i2 a2 p2 hj hdiv hb0 hbuf hw
    (fun _ => hcap2)
  rw [run_append, if_pos r1, run_append, if_pos r2]
  have hlen := congrArg List.length p3.allocated
  rw [List.length_map, List.length_range] at hlen
  refine ⟨r3, hlen, le_of_eq hlen, ?_⟩
  rw [p3.free]
  by_cases hc : k - ys.length = 0
  · rw [if_pos hc]
    exact ⟨(fun _ => by omega), (fun _ => rfl)⟩
  · rw [if_neg hc]
    exact ⟨(fun h => by cases h), (fun h => absurd (by omega) hc)⟩

/-- Witness of `stack_arena_integration`: the test `MemoryReuseInStack`, five `push` calls,
two `pop` calls and two `push` calls on a `Stack<int>` in a fresh arena of 512 bytes,
ends with five entries in `allocated_blocks_` and an empty `free_blocks_`. -/
theorem stack_arena_integration_witness :
    (Stack.run int_node
      ([0, 1, 2, 3, 4].map StackOp.push ++
        (List.replicate 2 StackOp.pop ++ [10, 20].map StackOp.push))
      (Stack.construct 1)
      { resource := construct 4096 512, memory := no_nodes Int }).1 = Result.value () ∧
    (Stack.run int_node
      ([0, 1, 2, 3, 4].map StackOp.push ++
        (List.replicate 2 StackOp.pop ++ [10, 20].map StackOp.push))
      (Stack.construct 1)
      { resource := construct 4096 512,
        memory := no_nodes Int }).2.2.resource.allocated_blocks_.length = 5 ∧
    (Stack.run int_node
      ([0, 1, 2, 3, 4].map StackOp.push ++
        (List.replicate 2 StackOp.pop ++ [10, 20].map StackOp.push))
      (Stack.construct 1)
      { resource := construct 4096 512, memory := no_nodes Int }).2.2.resource.free_blocks_ =
        [] :=
  have h := stack_arena_integration int_node 4096 512 1 2 (no_nodes Int) [0, 1, 2, 3, 4]
    [10, 20] (by decide) ⟨3, rfl⟩ (by decide) (by decide) (by decide) (by decide) (by decide)
    (by decide) (by decide)
  ⟨h.1, h.2.1, h.2.2.2.2 (by decide)⟩

/-! ## C19: the first-fit step -/

/-- C19 fails when `bytes + adjustment` wraps: with the free list `[(4104, 24)]` the
request `allocate(2 ^ 64 - 8, 16)` needs 8 bytes of padding, so `bytes` plus the padding is
`2 ^ 64`, far more than the 24 bytes of the block; the scan takes the block all the same,
returns 4112, and puts back the gap `(4104, 8)` and a "remainder" `(4104, 24)`, which
do not partition the block together with the returned range. -/
theorem first_fit_takes_small_block_by_wraparound :
    padded_free.free_blocks_ = [(4104, 24)] ∧ round_up 4104 16 - 4104 = 8 ∧
    24 < (WORD - 8) + (round_up 4104 16 - 4104) ∧
    (allocate_from_free_blocks padded_free (WORD - 8) 16).1 = 4112 ∧
    (allocate_from_free_blocks padded_free (WORD - 8) 16).2.free_blocks_ =
      [(4104, 8), (4104, 24)] := by
  decide

/-! ## C20: byte accounting -/

/-- C20, as stated, fails: after `allocate(0, 1)`, `allocate(8, 1)` (both at 4096) and
`deallocate(4096, 8, 1)`, which passes the size used when the block of 8 bytes was
allocated, `do_deallocate` has erased the entry of the zero-byte block and put 8 bytes on
the free list: 8 bytes are allocated and 8 bytes are free, 16 in all, with a bump offset
of 8. -/
theorem byte_accounting_fails_after_zero_byte_block :
    Reachable any_request 4096 100 zero_alias_freed ∧
    zero_alias_freed.allocated_blocks_ = [(4096, 8)] ∧
    zero_alias_freed.free_blocks_ = [(4096, 8)] ∧ zero_alias_freed.offset_ = 8 ∧
    ¬ (total zero_alias_freed.allocated_blocks_ + total zero_alias_freed.free_blocks_ ≤
        zero_alias_freed.offset_) := by
  have h0 : Reachable any_request 4096 100 (construct 4096 100) :=
    Reachable.fresh (by decide) (by decide)
  have h1 := Reachable.allocate _ 0 1 h0 ⟨0, rfl⟩
  have h2 := Reachable.allocate _ 8 1 h1 ⟨0, rfl⟩
  have h3 : Reachable any_request 4096 100 zero_alias_freed :=
    Reachable.deallocate _ 4096 8 1 h2 (by decide)
  exact ⟨h3, by decide, by decide, by decide, by decide⟩

/-- C20, amended: in every state reachable from a fresh arena by `allocate` calls with a
positive size, a power-of-two alignment and no wrap-around and by `deallocate` calls that
pass the address and size of a recorded block, the allocated and the free bytes together
are at most the bump offset, which is at most the capacity; an `allocate` call does not
decrease the bump offset and a `deallocate` call keeps it; a `deallocate` call, merge
included, keeps the total of the allocated and free bytes, the merge keeps the free
bytes, and so does an `allocate` call that leaves the bump offset where it is, such as one
served by the first-fit split. -/
theorem byte_accounting (buf cap : Nat) (s : FixedBlockMemoryResource)
    (h : Reachable valid_request buf cap s) :
    total s.allocated_blocks_ + total s.free_blocks_ ≤ s.offset_ ∧ s.offset_ ≤ cap ∧
    (∀ bytes al, valid_request s bytes al → s.offset_ ≤ (do_allocate s bytes al).2.offset_) ∧
    (∀ p bytes al, (do_deallocate s p bytes al).offset_ = s.offset_) ∧
    (∀ p bytes al, (p, bytes) ∈ s.allocated_blocks_ →
      total (merge_adjacent_blocks (s.free_blocks_ ++ [(p, bytes)])) =
        total s.free_blocks_ + bytes ∧
      total (do_deallocate s p bytes al).allocated_blocks_ +
        total (do_deallocate s p bytes al).free_blocks_ =
      total s.allocated_blocks_ + total s.free_blocks_) ∧
    (∀ bytes al, valid_request s bytes al →
      (do_allocate s bytes al).2.offset_ = s.offset_ →
      total (do_allocate s bytes al).2.allocated_blocks_ +
        total (do_allocate s bytes al).2.free_blocks_ =
      total s.allocated_blocks_ + total s.free_blocks_) := by
  have hi := reachable_inv h
  have hacc := reachable_accounting h
  have hcap : s.offset_ ≤ cap := by
    have := hi.offset_le
    rw [(reachable_fields h).2] at this
    exact this
  refine ⟨hacc, hcap, ?_, ?_, ?_, ?_⟩
  · intro bytes al hv
    exact (accounting_do_allocate hi hv hacc).1
  · intro p bytes al
    exact (do_deallocate_fields s p bytes al).2.2
  · intro p bytes al hm
    refine ⟨?_, accounting_do_deallocate al hi hm⟩
    have h1 := hi.buffer_end
    have h2 := hi.offset_le
    have hw : ∀ c ∈ s.free_blocks_ ++ [(p, bytes)], c.1 + c.2 < WORD := by
      intro c hc
      rcases List.mem_append.1 hc with hc | hc
      · have := hi.block_ok c (List.mem_append_right _ hc); omega
      · simp only [List.mem_singleton] at hc
        subst hc
        have := hi.block_ok _ (List.mem_append_left _ hm); omega
    rw [merge_adjacent_blocks_total _ hw, total_append, total_cons, total_nil]
    rfl
  · intro bytes al hv
    exact (accounting_do_allocate hi hv hacc).2.2

/-- Witness of `byte_accounting`: after `allocate(10, 1)` and `allocate(8, 8)` on an arena
of 100 bytes, 18 bytes are allocated and the bump offset is 24. -/
theorem byte_accounting_witness :
    Reachable valid_request 4096 100 padded_bump ∧
    total padded_bump.allocated_blocks_ = 18 ∧ padded_bump.offset_ = 24 ∧
    total padded_bump.allocated_blocks_ + total padded_bump.free_blocks_ ≤
      padded_bump.offset_ ∧ padded_bump.offset_ ≤ 100 :=
  have hr : Reachable valid_request 4096 100 padded_bump :=
    Reachable.allocate _ 8 8
      (Reachable.allocate _ 10 1 (Reachable.fresh (by decide) (by decide))
        ⟨by decide, ⟨0, rfl⟩, by decide, by decide⟩)
      ⟨by decide, ⟨3, rfl⟩, by decide, by decide⟩
  ⟨hr, by decide, by decide, (byte_accounting 4096 100 padded_bump hr).1,
    (byte_accounting 4096 100 padded_bump hr).2.1⟩

end Arena
